import Mathlib

/-!
# Verification of the rebeldb storage-engine core

A shallow embedding, in Lean 4, of the core of the `rebeldb` key/value
storage engine (a LevelDB-style LSM engine written in Rust), together with
proofs about the embedded code.

Byte strings are modelled as `List Nat`, one `Nat` per byte; every byte
produced by an encoder is `< 256` by construction (the Rust `as u8` casts
are modelled as `% 256`).  Machine-integer overflow is modelled explicitly
with `% 2^32` / `% 2^64` at the places where the Rust code performs
wrapping `u32`/`u64` arithmetic.  Rust code that can panic is embedded
with an explicit `Panics` outcome type; fallible functions return
`Option`.

Embedded components (paths refer to the Rust sources):
* `src/util/coding.rs` — fixed-width and varint codecs;
* `src/util/crc32c.rs` — CRC32C masking (the CRC itself comes from the
  external `crc32c` crate and is modelled from its documented algorithm);
* `src/util/comparator.rs` — the bytewise user comparator;
* `src/dbformat.rs` — internal keys, the internal-key comparator,
  lookup keys;
* `src/memtable/memtable.rs` + `src/memtable/skiplist.rs` — the memtable
  over its ordered-set substrate;
* `src/db/write_batch.rs` — the write-batch codec and replay;
* `src/wal/writer.rs` and `src/log/reader.rs` — the WAL record codec.
-/

namespace RebelDB

/-- Outcome of embedded Rust code that can panic: either a normal return
or a panic (`panic!`, a failed `unwrap`, an out-of-bounds index, ...). -/
inductive Panics (α : Type) where
  | panic : Panics α
  | ret : α → Panics α
  deriving DecidableEq, Repr

/-! ## Bit-arithmetic helpers

Facts about `Nat.lor` used to reason about the byte-level codecs. -/

/-- Adding into disjoint low bits agrees with bitwise or. -/
theorem two_pow_mul_add_eq_lor (a b k : Nat) (hb : b < 2 ^ k) :
    2 ^ k * a + b = 2 ^ k * a ||| b := by
  refine (Nat.eq_of_testBit_eq fun j => ?_).symm
  rw [Nat.testBit_lor, Nat.testBit_mul_pow_two_add a hb j, Nat.testBit_mul_pow_two]
  by_cases hj : j < k
  · simp [hj, Nat.not_le.mpr hj]
  · have : b < 2 ^ j := lt_of_lt_of_le hb (Nat.pow_le_pow_right (by norm_num) (by omega))
    simp [hj, Nat.not_lt.mp hj, Nat.testBit_lt_two_pow this]

/-- Setting the continuation bit, as the varint encoders do:
`(x | 128) as u8` equals `x % 128 + 128`. -/
theorem lor_128_mod_256 (x : Nat) : (x ||| 128) % 256 = x % 128 + 128 := by
  have h : x % 128 + 128 = 2 ^ 7 * 1 + x % 128 := by omega
  refine Nat.eq_of_testBit_eq fun j => ?_
  rw [h, Nat.testBit_mul_pow_two_add 1 (Nat.mod_lt _ (by norm_num)) j]
  rw [show (256 : Nat) = 2 ^ 8 by norm_num, Nat.testBit_mod_two_pow, Nat.testBit_lor]
  rcases Nat.lt_trichotomy j 7 with hj | hj | hj
  · have hx : x % 128 = x % 2 ^ 7 := by norm_num
    have h128 : Nat.testBit 128 j = false := by
      rw [show (128 : Nat) = 2 ^ 7 by norm_num]
      exact Nat.testBit_two_pow_of_ne (by omega)
    simp [hj, hx, Nat.testBit_mod_two_pow, show j < 8 by omega, h128]
  · subst hj
    have h128 : Nat.testBit 128 7 = true := by
      rw [show (128 : Nat) = 2 ^ 7 by norm_num]
      exact Nat.testBit_two_pow_self
    simp [h128]
  · have h8 : ¬ j < 7 := by omega
    have h1 : Nat.testBit 1 (j - 7) = false := by
      have : (1 : Nat) < 2 ^ (j - 7) := by
        have : 0 < j - 7 := by omega
        calc (1 : Nat) < 2 ^ 1 := by norm_num
        _ ≤ 2 ^ (j - 7) := Nat.pow_le_pow_right (by norm_num) (by omega)
      exact Nat.testBit_lt_two_pow this
    by_cases hj8 : j < 8
    · have : j = 7 := by omega
      omega
    · simp [h8, h1, hj8]

/-- A byte with the continuation bit set tests true at bit 7. -/
theorem testBit_seven_of_cont (x : Nat) : (x % 128 + 128).testBit 7 = true := by
  have h : x % 128 + 128 = 2 ^ 7 * 1 + x % 128 := by omega
  rw [h, Nat.testBit_mul_pow_two_add 1 (Nat.mod_lt _ (by norm_num)) 7]
  simp

/-- A byte below 128 has a clear continuation bit. -/
theorem testBit_seven_of_lt (x : Nat) (h : x < 128) : x.testBit 7 = false :=
  Nat.testBit_lt_two_pow (by norm_num; omega)

/-! ## `src/util/coding.rs` -/

/-- `encode_fixed32`: the four little-endian bytes of a `u32`. -/
def encodeFixed32 (value : Nat) : List Nat :=
  [value % 256, value / 2 ^ 8 % 256, value / 2 ^ 16 % 256, value / 2 ^ 24 % 256]

/-- `encode_fixed64`: the eight little-endian bytes of a `u64`. -/
def encodeFixed64 (value : Nat) : List Nat :=
  [value % 256, value / 2 ^ 8 % 256, value / 2 ^ 16 % 256, value / 2 ^ 24 % 256,
   value / 2 ^ 32 % 256, value / 2 ^ 40 % 256, value / 2 ^ 48 % 256, value / 2 ^ 56 % 256]

/-- `decode_fixed32`: little-endian `u32` from the first four bytes.
(The Rust code panics when fewer than four bytes are present; every call
site in the embedded code supplies at least four.) -/
def decodeFixed32 (input : List Nat) : Nat :=
  input.getD 0 0 + 2 ^ 8 * input.getD 1 0 + 2 ^ 16 * input.getD 2 0 + 2 ^ 24 * input.getD 3 0

/-- `decode_fixed64`: little-endian `u64` from the first eight bytes.
(Same panic caveat as `decodeFixed32`.) -/
def decodeFixed64 (input : List Nat) : Nat :=
  input.getD 0 0 + 2 ^ 8 * input.getD 1 0 + 2 ^ 16 * input.getD 2 0 + 2 ^ 24 * input.getD 3 0
    + 2 ^ 32 * input.getD 4 0 + 2 ^ 40 * input.getD 5 0
    + 2 ^ 48 * input.getD 6 0 + 2 ^ 56 * input.getD 7 0

/-- `encode_varint32`: the explicit five-way branch of the Rust source,
emitting the bytes it writes into `dst`. -/
def encodeVarint32 (value : Nat) : List Nat :=
  if value < 2 ^ 7 then
    [value % 256]
  else if value < 2 ^ 14 then
    [(value ||| 128) % 256, value / 2 ^ 7 % 256]
  else if value < 2 ^ 21 then
    [(value ||| 128) % 256, (value / 2 ^ 7 ||| 128) % 256, value / 2 ^ 14 % 256]
  else if value < 2 ^ 28 then
    [(value ||| 128) % 256, (value / 2 ^ 7 ||| 128) % 256, (value / 2 ^ 14 ||| 128) % 256,
     value / 2 ^ 21 % 256]
  else
    [(value ||| 128) % 256, (value / 2 ^ 7 ||| 128) % 256, (value / 2 ^ 14 ||| 128) % 256,
     (value / 2 ^ 21 ||| 128) % 256, value / 2 ^ 28 % 256]

/-- Loop body of `encode_varint64` (`while value >= B`), fuelled: a `u64`
needs at most ten output bytes, so fuel `10` makes the fuelled recursion
exact for every `value < 2^64` (the fuel-exhausted base case is
unreachable there). -/
def encodeVarint64Go : Nat → Nat → List Nat
  | 0, value => [value % 256]
  | fuel + 1, value =>
    if value ≥ 128 then ((value ||| 128) % 256) :: encodeVarint64Go fuel (value / 2 ^ 7)
    else [value % 256]

/-- `encode_varint64`. -/
def encodeVarint64 (value : Nat) : List Nat :=
  encodeVarint64Go 10 value

/-- Shared loop of `decode_varint32`/`decode_varint64`:
`for i in 0..input.len().min(limit)`, accumulating
`result |= (byte & 127) << (i * 7)` (the shift wrapped to `width` bits as
the Rust `u32`/`u64` shift result is). -/
def decodeVarintGo (width : Nat) : List Nat → Nat → Nat → Nat → Option (Nat × Nat)
  | [], _, _, _ => none
  | byte :: rest, limit, i, result =>
    if i < limit then
      if byte.testBit 7 then
        decodeVarintGo width rest limit (i + 1)
          (result ||| byte % 128 * 2 ^ (i * 7) % 2 ^ width)
      else
        some (result ||| byte * 2 ^ (i * 7) % 2 ^ width, i + 1)
    else none

/-- `decode_varint32`: value and consumed byte count, or `none` on
truncation or a varint wider than five bytes. -/
def decodeVarint32 (input : List Nat) : Option (Nat × Nat) :=
  decodeVarintGo 32 input (min input.length 5) 0 0

/-- `decode_varint64`: value and consumed byte count, or `none` on
truncation or a varint wider than ten bytes. -/
def decodeVarint64 (input : List Nat) : Option (Nat × Nat) :=
  decodeVarintGo 64 input (min input.length 10) 0 0

/-- Loop of `varint_size`, fuelled exactly like `encodeVarint64Go`. -/
def varintSizeGo : Nat → Nat → Nat
  | 0, _ => 1
  | fuel + 1, value => if value ≥ 128 then varintSizeGo fuel (value / 2 ^ 7) + 1 else 1

/-- `varint_size`: the byte size of the varint encoding of `value`. -/
def varintSize (value : Nat) : Nat :=
  varintSizeGo 10 value

/-- `varint_length` (the `src/util` re-export used by the memtable):
identical to `varint_size`. -/
def varintLength (value : Nat) : Nat := varintSize value

/-- `extend_size_prefixed_slice`: append `varint32(len) || bytes`
(`value.len() as u32` wraps for absurdly long slices, hence `% 2^32`). -/
def extendSizePrefixedSlice (dst value : List Nat) : List Nat :=
  dst ++ encodeVarint32 (value.length % 2 ^ 32) ++ value

/-- `decode_size_prefixed_slice`: decode a varint32 length then take that
many bytes; `none` if either is truncated. -/
def decodeSizePrefixedSlice (input : List Nat) : Option (List Nat × Nat) :=
  match decodeVarint32 input with
  | none => none
  | some (len, offset) =>
    if offset + len ≤ input.length then
      some ((input.drop offset).take len, offset + len)
    else none

/-! ### Varint codec facts -/

theorem encodeVarint64Go_length (fuel v : Nat) :
    (encodeVarint64Go fuel v).length = varintSizeGo fuel v := by
  induction fuel generalizing v with
  | zero => simp [encodeVarint64Go, varintSizeGo]
  | succ n ih =>
    simp only [encodeVarint64Go, varintSizeGo]
    by_cases h : v ≥ 128 <;> simp [h, ih]

theorem varintSizeGo_pos (fuel v : Nat) : 1 ≤ varintSizeGo fuel v := by
  cases fuel with
  | zero => simp [varintSizeGo]
  | succ n =>
    simp only [varintSizeGo]
    by_cases h : v ≥ 128 <;> simp [h]

theorem varintSizeGo_le (fuel k v : Nat) (hv : v < 2 ^ (7 * k + 7)) (hk : k ≤ fuel) :
    varintSizeGo fuel v ≤ k + 1 := by
  induction fuel generalizing k v with
  | zero => simp [varintSizeGo]
  | succ n ih =>
    simp only [varintSizeGo]
    by_cases h : v ≥ 128
    · have hk1 : 1 ≤ k := by
        by_contra hk0
        have : k = 0 := by omega
        subst this
        simp at hv
        omega
      have hdiv : v / 2 ^ 7 < 2 ^ (7 * (k - 1) + 7) := by
        have hexp : 7 * (k - 1) + 7 + 7 = 7 * k + 7 := by omega
        rw [Nat.div_lt_iff_lt_mul (by positivity), ← pow_add, hexp]
        exact hv
      have := ih (k - 1) (v / 2 ^ 7) hdiv (by omega)
      simp only [h, if_true]
      omega
    · simp [h]

theorem varintSizeGo_congr (f f' v : Nat) (h : v < 2 ^ (7 * f + 7))
    (h' : v < 2 ^ (7 * f' + 7)) : varintSizeGo f v = varintSizeGo f' v := by
  induction f generalizing f' v with
  | zero =>
    have hv : v < 128 := by simpa using h
    cases f' with
    | zero => rfl
    | succ m => simp [varintSizeGo, Nat.not_le.mpr hv]
  | succ n ih =>
    by_cases hv : v < 128
    · cases f' with
      | zero => simp [varintSizeGo, Nat.not_le.mpr hv]
      | succ m => simp [varintSizeGo, Nat.not_le.mpr hv]
    · cases f' with
      | zero =>
        exfalso
        have : v < 128 := by simpa using h'
        omega
      | succ m =>
        have hge : v ≥ 128 := Nat.not_lt.mp hv
        simp only [varintSizeGo, hge, if_true]
        have hdiv : ∀ g : Nat, v < 2 ^ (7 * (g + 1) + 7) → v / 2 ^ 7 < 2 ^ (7 * g + 7) := by
          intro g hg
          have hexp : 7 * g + 7 + 7 = 7 * (g + 1) + 7 := by ring
          rw [Nat.div_lt_iff_lt_mul (by positivity), ← pow_add, hexp]
          exact hg
        rw [ih m (v / 2 ^ 7) (hdiv n h) (hdiv m h')]

/-- Core varint round-trip: decoding the fuelled encoder output (followed
by arbitrary further bytes), starting mid-stream at index `i` with partial
accumulator `acc`. -/
theorem decodeVarintGo_encode (width fuel : Nat) :
    ∀ (v : Nat) (rest : List Nat) (limit i acc : Nat),
      v < 2 ^ (7 * fuel + 7) →
      i + varintSizeGo fuel v ≤ limit →
      acc < 2 ^ (i * 7) →
      acc + v * 2 ^ (i * 7) < 2 ^ width →
      decodeVarintGo width (encodeVarint64Go fuel v ++ rest) limit i acc
        = some (acc + v * 2 ^ (i * 7), i + varintSizeGo fuel v) := by
  induction fuel with
  | zero =>
    intro v rest limit i acc hv hlim hacc hbound
    have hv' : v < 128 := by simpa using hv
    have hlim1 : i + 1 ≤ limit := by simpa [varintSizeGo] using hlim
    simp only [encodeVarint64Go, Nat.mod_eq_of_lt (show v < 256 by omega), List.cons_append,
      List.nil_append, decodeVarintGo]
    rw [if_pos (by omega), testBit_seven_of_lt v hv']
    simp only [Bool.false_eq_true, if_false]
    have hterm : v * 2 ^ (i * 7) < 2 ^ width := by omega
    have hor : acc ||| v * 2 ^ (i * 7) % 2 ^ width = acc + v * 2 ^ (i * 7) := by
      rw [Nat.mod_eq_of_lt hterm, Nat.lor_comm, Nat.mul_comm,
        ← two_pow_mul_add_eq_lor v acc (i * 7) hacc]
      ring
    rw [hor]
    have hsz : varintSizeGo 0 v = 1 := rfl
    rw [hsz]
  | succ n ih =>
    intro v rest limit i acc hv hlim hacc hbound
    by_cases hsmall : v < 128
    · have hsz : varintSizeGo (n + 1) v = 1 := by
        simp [varintSizeGo, Nat.not_le.mpr hsmall]
      rw [hsz] at hlim ⊢
      simp only [encodeVarint64Go, Nat.not_le.mpr hsmall, if_false,
        Nat.mod_eq_of_lt (show v < 256 by omega), List.cons_append, List.nil_append,
        decodeVarintGo]
      rw [if_pos (by omega), testBit_seven_of_lt v hsmall]
      simp only [Bool.false_eq_true, if_false]
      have hterm : v * 2 ^ (i * 7) < 2 ^ width := by omega
      have hor : acc ||| v * 2 ^ (i * 7) % 2 ^ width = acc + v * 2 ^ (i * 7) := by
        rw [Nat.mod_eq_of_lt hterm, Nat.lor_comm, Nat.mul_comm,
          ← two_pow_mul_add_eq_lor v acc (i * 7) hacc]
        ring
      rw [hor]
    · have hge : v ≥ 128 := Nat.not_lt.mp hsmall
      have hsz : varintSizeGo (n + 1) v = varintSizeGo n (v / 2 ^ 7) + 1 := by
        simp [varintSizeGo, hge]
      simp only [encodeVarint64Go, hge, if_true, List.cons_append, decodeVarintGo]
      have hlim' : i < limit := by
        have h1 := varintSizeGo_pos n (v / 2 ^ 7)
        omega
      rw [if_pos hlim', lor_128_mod_256 v, testBit_seven_of_cont v]
      simp only [if_true]
      have hbyte : (v % 128 + 128) % 128 = v % 128 := by omega
      rw [hbyte]
      have hterm : v % 128 * 2 ^ (i * 7) < 2 ^ width := by
        have h1 : v % 128 * 2 ^ (i * 7) ≤ v * 2 ^ (i * 7) :=
          Nat.mul_le_mul_right _ (Nat.mod_le _ _)
        omega
      have hor : acc ||| v % 128 * 2 ^ (i * 7) % 2 ^ width
          = 2 ^ (i * 7) * (v % 128) + acc := by
        rw [Nat.mod_eq_of_lt hterm, Nat.lor_comm, Nat.mul_comm,
          ← two_pow_mul_add_eq_lor (v % 128) acc (i * 7) hacc]
      rw [hor]
      have hvdiv : v / 2 ^ 7 < 2 ^ (7 * n + 7) := by
        have hexp : 7 * n + 7 + 7 = 7 * (n + 1) + 7 := by ring
        rw [Nat.div_lt_iff_lt_mul (by positivity), ← pow_add, hexp]
        exact hv
      have hvsplit : v = 2 ^ 7 * (v / 2 ^ 7) + v % 128 := by
        have h1 := Nat.div_add_mod v (2 ^ 7)
        norm_num at h1 ⊢
        omega
      have hsplit : v % 128 * 2 ^ (i * 7) + v / 2 ^ 7 * 2 ^ ((i + 1) * 7)
          = v * 2 ^ (i * 7) := by
        calc v % 128 * 2 ^ (i * 7) + v / 2 ^ 7 * 2 ^ ((i + 1) * 7)
            = v % 128 * 2 ^ (i * 7) + v / 2 ^ 7 * (2 ^ 7 * 2 ^ (i * 7)) := by ring
        _ = (2 ^ 7 * (v / 2 ^ 7) + v % 128) * 2 ^ (i * 7) := by ring
        _ = v * 2 ^ (i * 7) := by rw [← hvsplit]
      rw [ih (v / 2 ^ 7) rest limit (i + 1) (2 ^ (i * 7) * (v % 128) + acc)
        hvdiv (by omega)
        (by
          have h2 : v % 128 < 2 ^ 7 := by norm_num [Nat.mod_lt]
          calc 2 ^ (i * 7) * (v % 128) + acc
              < 2 ^ (i * 7) * (v % 128) + 2 ^ (i * 7) := by omega
          _ = 2 ^ (i * 7) * (v % 128 + 1) := by ring
          _ ≤ 2 ^ (i * 7) * 2 ^ 7 := by
              have h3 : v % 128 + 1 ≤ 2 ^ 7 := by norm_num; omega
              exact Nat.mul_le_mul_left _ h3
          _ = 2 ^ ((i + 1) * 7) := by ring)
        (by
          have h4 : 2 ^ (i * 7) * (v % 128) + acc + v / 2 ^ 7 * 2 ^ ((i + 1) * 7)
              = acc + v * 2 ^ (i * 7) := by
            rw [← hsplit]; ring
          omega)]
      rw [hsz]
      have h5 : 2 ^ (i * 7) * (v % 128) + acc + v / 2 ^ 7 * 2 ^ ((i + 1) * 7)
          = acc + v * 2 ^ (i * 7) := by
        rw [← hsplit]; ring
      rw [h5]
      have h6 : i + 1 + varintSizeGo n (v / 2 ^ 7) = i + (varintSizeGo n (v / 2 ^ 7) + 1) := by
        omega
      rw [h6]

/-- If every byte inspected before the index limit carries the
continuation bit, the varint decode loop fails. -/
theorem decodeVarintGo_none_of_cont (width : Nat) :
    ∀ (input : List Nat) (limit i acc : Nat),
      (∀ b ∈ input.take (limit - i), b.testBit 7 = true) →
      decodeVarintGo width input limit i acc = none := by
  intro input
  induction input with
  | nil => intro limit i acc _; rfl
  | cons byte rest ih =>
    intro limit i acc hcont
    simp only [decodeVarintGo]
    by_cases hi : i < limit
    · have h1 : limit - i = (limit - (i + 1)) + 1 := by omega
      have hbyte : byte.testBit 7 = true := by
        apply hcont
        rw [h1, List.take_succ_cons]
        exact List.mem_cons_self _ _
      rw [if_pos hi, hbyte]
      simp only [if_true]
      apply ih
      intro b hb
      apply hcont
      rw [h1, List.take_succ_cons]
      exact List.mem_cons_of_mem _ hb
    · rw [if_neg hi]

/-- Every byte of a strict prefix of the fuelled varint encoding has the
continuation bit set (only the final byte clears it). -/
theorem encodeVarint64Go_take_cont (fuel : Nat) :
    ∀ (v k : Nat), k < (encodeVarint64Go fuel v).length →
      ∀ b ∈ (encodeVarint64Go fuel v).take k, b.testBit 7 = true := by
  induction fuel with
  | zero =>
    intro v k hk b hb
    simp only [encodeVarint64Go, List.length_singleton] at hk
    have hk0 : k = 0 := by omega
    subst hk0
    simp at hb
  | succ n ih =>
    intro v k hk b hb
    by_cases hge : v ≥ 128
    · simp only [encodeVarint64Go, hge, if_true] at hk hb
      cases k with
      | zero => simp at hb
      | succ m =>
        rw [List.take_succ_cons] at hb
        rcases List.mem_cons.mp hb with hb | hb
        · subst hb
          rw [lor_128_mod_256]
          exact testBit_seven_of_cont v
        · exact ih (v / 2 ^ 7) m (by simpa using hk) b hb
    · simp only [encodeVarint64Go, hge, if_false, List.length_singleton] at hk hb
      have hk0 : k = 0 := by omega
      subst hk0
      simp at hb

/-- For `u32`-sized values the five-way branch of `encode_varint32`
produces exactly the bytes of the generic varint loop. -/
theorem encodeVarint32_eq_go (v : Nat) (hv : v < 2 ^ 32) :
    encodeVarint32 v = encodeVarint64Go 4 v := by
  have hv' : v < 4294967296 := by norm_num at hv; omega
  have hd1 : v / 128 / 128 = v / 16384 := by omega
  have hd2 : v / 16384 / 128 = v / 2097152 := by omega
  have hd3 : v / 2097152 / 128 = v / 268435456 := by omega
  by_cases h1 : v < 128
  · simp [encodeVarint32, encodeVarint64Go, h1, show ¬ v ≥ 128 by omega]
  · by_cases h2 : v < 16384
    · have hc : ¬ 128 ≤ v / 128 := by omega
      simp [encodeVarint32, encodeVarint64Go, h1, h2, show v ≥ 128 by omega, hc]
    · have hge2 : 128 ≤ v / 128 := by omega
      by_cases h3 : v < 2097152
      · have hc : ¬ 128 ≤ v / 16384 := by omega
        simp [encodeVarint32, encodeVarint64Go, h1, h2, h3, show v ≥ 128 by omega,
          hge2, hc, hd1]
      · have hge3 : 128 ≤ v / 16384 := by omega
        by_cases h4 : v < 268435456
        · have hc : ¬ 128 ≤ v / 2097152 := by omega
          simp [encodeVarint32, encodeVarint64Go, h1, h2, h3, h4, show v ≥ 128 by omega,
            hge2, hge3, hc, hd1, hd2]
        · have hge4 : 128 ≤ v / 2097152 := by omega
          have hc4 : ¬ 128 ≤ v / 268435456 := by omega
          simp [encodeVarint32, encodeVarint64Go, h1, h2, h3, h4, show v ≥ 128 by omega,
            hge2, hge3, hge4, hc4, hd1, hd2, hd3]

theorem decodeVarint64_encode (v : Nat) (rest : List Nat) (hv : v < 2 ^ 64) :
    decodeVarint64 (encodeVarint64 v ++ rest) = some (v, varintSize v) := by
  unfold decodeVarint64 encodeVarint64 varintSize
  have hsize : varintSizeGo 10 v ≤ 10 := by
    have h9 : v < 2 ^ (7 * 9 + 7) := lt_of_lt_of_le hv (by norm_num)
    have := varintSizeGo_le 10 9 v h9 (by norm_num)
    omega
  have hlen := encodeVarint64Go_length 10 v
  have hlim : 0 + varintSizeGo 10 v ≤ min (encodeVarint64Go 10 v ++ rest).length 10 := by
    simp [List.length_append, hlen]
    omega
  have h := decodeVarintGo_encode 64 10 v rest (min (encodeVarint64Go 10 v ++ rest).length 10)
    0 0 (lt_of_lt_of_le hv (by norm_num)) hlim (by norm_num) (by simpa using hv)
  simpa using h

theorem decodeVarint32_encode (v : Nat) (rest : List Nat) (hv : v < 2 ^ 32) :
    decodeVarint32 (encodeVarint32 v ++ rest) = some (v, varintSize v) := by
  rw [encodeVarint32_eq_go v hv]
  unfold decodeVarint32
  have h35 : v < 2 ^ (7 * 4 + 7) := lt_of_lt_of_le hv (by norm_num)
  have hsize : varintSizeGo 4 v ≤ 5 := by
    have := varintSizeGo_le 4 4 v h35 (by norm_num)
    omega
  have hcongr : varintSize v = varintSizeGo 4 v := by
    unfold varintSize
    exact varintSizeGo_congr 10 4 v (lt_of_lt_of_le hv (by norm_num)) h35
  have hlen := encodeVarint64Go_length 4 v
  have hlim : 0 + varintSizeGo 4 v ≤ min (encodeVarint64Go 4 v ++ rest).length 5 := by
    simp [List.length_append, hlen]
    omega
  have h := decodeVarintGo_encode 32 4 v rest (min (encodeVarint64Go 4 v ++ rest).length 5)
    0 0 h35 hlim (by norm_num) (by simpa using hv)
  rw [hcongr]
  simpa using h

theorem decodeVarint64_take_none (v k : Nat) (hv : v < 2 ^ 64) (hk : k < varintSize v) :
    decodeVarint64 ((encodeVarint64 v).take k) = none := by
  unfold decodeVarint64 encodeVarint64
  apply decodeVarintGo_none_of_cont
  intro b hb
  have hb' : b ∈ (encodeVarint64Go 10 v).take k := List.mem_of_mem_take hb
  have hklen : k < (encodeVarint64Go 10 v).length := by
    rw [encodeVarint64Go_length]
    exact hk
  exact encodeVarint64Go_take_cont 10 v k hklen b hb'

theorem decodeVarint32_take_none (v k : Nat) (hv : v < 2 ^ 32) (hk : k < varintSize v) :
    decodeVarint32 ((encodeVarint32 v).take k) = none := by
  rw [encodeVarint32_eq_go v hv]
  unfold decodeVarint32
  apply decodeVarintGo_none_of_cont
  intro b hb
  have hb' : b ∈ (encodeVarint64Go 4 v).take k := List.mem_of_mem_take hb
  have h35 : v < 2 ^ (7 * 4 + 7) := lt_of_lt_of_le hv (by norm_num)
  have hklen : k < (encodeVarint64Go 4 v).length := by
    rw [encodeVarint64Go_length]
    rw [show varintSize v = varintSizeGo 4 v from
      varintSizeGo_congr 10 4 v (lt_of_lt_of_le hv (by norm_num)) h35] at hk
    exact hk
  exact encodeVarint64Go_take_cont 4 v k hklen b hb'

theorem decodeVarint32_cont_none (input : List Nat)
    (h : ∀ b ∈ input.take 5, b.testBit 7 = true) : decodeVarint32 input = none := by
  unfold decodeVarint32
  apply decodeVarintGo_none_of_cont
  intro b hb
  apply h
  have hm : min input.length 5 - 0 ≤ 5 := by omega
  have : input.take (min input.length 5 - 0) = (input.take 5).take (min input.length 5 - 0) := by
    rw [List.take_take, min_eq_left hm]
  rw [this] at hb
  exact List.mem_of_mem_take hb

theorem decodeVarint64_cont_none (input : List Nat)
    (h : ∀ b ∈ input.take 10, b.testBit 7 = true) : decodeVarint64 input = none := by
  unfold decodeVarint64
  apply decodeVarintGo_none_of_cont
  intro b hb
  apply h
  have hm : min input.length 10 - 0 ≤ 10 := by omega
  have : input.take (min input.length 10 - 0)
      = (input.take 10).take (min input.length 10 - 0) := by
    rw [List.take_take, min_eq_left hm]
  rw [this] at hb
  exact List.mem_of_mem_take hb

/-- C9: `decode_varint64` inverts `encode_varint64` for every `u64`,
consuming exactly `varint_size(v)` bytes, and likewise `decode_varint32`
inverts `encode_varint32` for every `u32`; the decoders return `none` on
input truncated before the final byte and on input whose first five
(resp. ten) bytes all carry the continuation bit. -/
theorem claim_C9_varint_roundtrip :
    (∀ v rest, v < 2 ^ 64 →
      decodeVarint64 (encodeVarint64 v ++ rest) = some (v, varintSize v))
    ∧ (∀ v rest, v < 2 ^ 32 →
      decodeVarint32 (encodeVarint32 v ++ rest) = some (v, varintSize v))
    ∧ (∀ v k, v < 2 ^ 64 → k < varintSize v →
      decodeVarint64 ((encodeVarint64 v).take k) = none)
    ∧ (∀ v k, v < 2 ^ 32 → k < varintSize v →
      decodeVarint32 ((encodeVarint32 v).take k) = none)
    ∧ (∀ input, (∀ b ∈ input.take 10, b.testBit 7 = true) → decodeVarint64 input = none)
    ∧ (∀ input, (∀ b ∈ input.take 5, b.testBit 7 = true) → decodeVarint32 input = none) :=
  ⟨fun v rest hv => decodeVarint64_encode v rest hv,
   fun v rest hv => decodeVarint32_encode v rest hv,
   fun v k hv hk => decodeVarint64_take_none v k hv hk,
   fun v k hv hk => decodeVarint32_take_none v k hv hk,
   fun input h => decodeVarint64_cont_none input h,
   fun input h => decodeVarint32_cont_none input h⟩

/-- C9 applied at concrete inputs. -/
theorem claim_C9_varint_roundtrip_witness :
    decodeVarint64 (encodeVarint64 300 ++ [7]) = some (300, varintSize 300)
    ∧ decodeVarint32 (encodeVarint32 70000 ++ []) = some (70000, varintSize 70000)
    ∧ decodeVarint64 ((encodeVarint64 300).take 1) = none
    ∧ decodeVarint32 ((encodeVarint32 70000).take 2) = none
    ∧ decodeVarint64 [129, 130, 131, 132, 133, 129, 130, 131, 132, 133, 17] = none
    ∧ decodeVarint32 [129, 130, 131, 132, 133, 17] = none :=
  ⟨claim_C9_varint_roundtrip.1 300 [7] (by norm_num),
   claim_C9_varint_roundtrip.2.1 70000 [] (by norm_num),
   claim_C9_varint_roundtrip.2.2.1 300 1 (by norm_num) (by decide),
   claim_C9_varint_roundtrip.2.2.2.1 70000 2 (by norm_num) (by decide),
   claim_C9_varint_roundtrip.2.2.2.2.1 _ (by decide),
   claim_C9_varint_roundtrip.2.2.2.2.2 _ (by decide)⟩

/-! ## `src/dbformat.rs` -/

/-- `MAX_SEQUENCE_NUMBER`: sequence numbers are 56-bit. -/
def MAX_SEQUENCE_NUMBER : Nat := 2 ^ 56 - 1

/-- `ValueType`: the kind tag of an internal key. -/
inductive ValueType where
  | Deletion : ValueType
  | Value : ValueType
  deriving DecidableEq, Repr

/-- The numeric value of a `ValueType` (`Deletion = 0x0`, `Value = 0x1`). -/
def ValueType.toByte : ValueType → Nat
  | .Deletion => 0
  | .Value => 1

/-- `impl From<u8> for ValueType`: `0` and `1` convert; every other byte
hits `panic!()`, modelled as `none`. -/
def ValueType.fromByte (value : Nat) : Option ValueType :=
  if value = 0 then some .Deletion
  else if value = 1 then some .Value
  else none

/-- `VALUE_TYPE_FOR_SEEK = ValueType::Value`. -/
def VALUE_TYPE_FOR_SEEK : ValueType := .Value

/-- The packed 8-byte tag `(sequence << 8) | kind`, with the `u64` shift
wrapping as in Rust. -/
def packTag (seq : Nat) (t : ValueType) : Nat :=
  seq * 2 ^ 8 % 2 ^ 64 ||| t.toByte

/-- `append_internal_key`: `dst || user_key || fixed64(tag)`. -/
def appendInternalKey (dst userKey : List Nat) (seq : Nat) (t : ValueType) : List Nat :=
  dst ++ userKey ++ encodeFixed64 (packTag seq t)

/-- `parse_internal_key`: `none` for input shorter than eight bytes;
otherwise split off the trailing 8-byte tag.  The `(num as u8).into()`
conversion panics on a tag byte outside `{0, 1}`. -/
def parseInternalKey (internalKey : List Nat) :
    Panics (Option (List Nat × Nat × ValueType)) :=
  let n := internalKey.length
  if n < 8 then .ret none
  else
    let num := decodeFixed64 (internalKey.drop (n - 8))
    match ValueType.fromByte (num % 256) with
    | some t => .ret (some (internalKey.take (n - 8), num / 2 ^ 8, t))
    | none => .panic

/-- `extract_user_key`: the prefix before the 8-byte tag (the Rust code
asserts `len >= 8`; on shorter input this model returns the list minus
its last `len` bytes, which call sites never rely on). -/
def extractUserKey (internalKey : List Nat) : List Nat :=
  internalKey.take (internalKey.length - 8)

/-! ### Internal-key codec facts -/

theorem decodeFixed64_encodeFixed64 (x : Nat) :
    decodeFixed64 (encodeFixed64 x) = x % 2 ^ 64 := by
  simp only [encodeFixed64, decodeFixed64, List.getD]
  norm_num
  omega

theorem encodeFixed64_length (x : Nat) : (encodeFixed64 x).length = 8 := rfl

theorem encodeFixed32_length (x : Nat) : (encodeFixed32 x).length = 4 := rfl

theorem packTag_eq (seq : Nat) (t : ValueType) (hseq : seq ≤ MAX_SEQUENCE_NUMBER) :
    packTag seq t = 2 ^ 8 * seq + t.toByte := by
  unfold packTag
  have hmod : seq * 2 ^ 8 % 2 ^ 64 = seq * 2 ^ 8 := by
    apply Nat.mod_eq_of_lt
    unfold MAX_SEQUENCE_NUMBER at hseq
    norm_num at hseq ⊢
    omega
  have ht : t.toByte < 2 ^ 8 := by cases t <;> simp [ValueType.toByte]
  rw [hmod, Nat.mul_comm, two_pow_mul_add_eq_lor seq t.toByte 8 ht]

theorem packTag_lt (seq : Nat) (t : ValueType) (hseq : seq ≤ MAX_SEQUENCE_NUMBER) :
    packTag seq t < 2 ^ 64 := by
  rw [packTag_eq seq t hseq]
  have ht : t.toByte ≤ 1 := by cases t <;> simp [ValueType.toByte]
  unfold MAX_SEQUENCE_NUMBER at hseq
  norm_num at hseq ⊢
  omega

theorem packTag_mod_256 (seq : Nat) (t : ValueType) (hseq : seq ≤ MAX_SEQUENCE_NUMBER) :
    packTag seq t % 256 = t.toByte := by
  rw [packTag_eq seq t hseq]
  have ht : t.toByte ≤ 1 := by cases t <;> simp [ValueType.toByte]
  omega

theorem packTag_div_256 (seq : Nat) (t : ValueType) (hseq : seq ≤ MAX_SEQUENCE_NUMBER) :
    packTag seq t / 2 ^ 8 = seq := by
  rw [packTag_eq seq t hseq]
  have ht : t.toByte ≤ 1 := by cases t <;> simp [ValueType.toByte]
  norm_num
  omega

theorem fromByte_toByte (t : ValueType) : ValueType.fromByte t.toByte = some t := by
  cases t <;> simp [ValueType.toByte, ValueType.fromByte]

/-- C7: `parse_internal_key` recovers exactly the `(user_key, seq, kind)`
triple packed by `append_internal_key`, for every user key, every
sequence number (56-bit, per the data model) and both kinds; and it
returns `None` on any input shorter than eight bytes. -/
theorem claim_C7_internal_key_roundtrip :
    (∀ (userKey : List Nat) (seq : Nat) (t : ValueType), seq ≤ MAX_SEQUENCE_NUMBER →
      parseInternalKey (appendInternalKey [] userKey seq t) = .ret (some (userKey, seq, t)))
    ∧ (∀ input : List Nat, input.length < 8 → parseInternalKey input = .ret none) := by
  constructor
  · intro userKey seq t hseq
    unfold appendInternalKey parseInternalKey
    have hlen : ([] ++ userKey ++ encodeFixed64 (packTag seq t)).length
        = userKey.length + 8 := by
      simp [encodeFixed64_length]
    rw [hlen]
    rw [if_neg (by omega)]
    have hdrop : ([] ++ userKey ++ encodeFixed64 (packTag seq t)).drop
        (userKey.length + 8 - 8) = encodeFixed64 (packTag seq t) := by
      simp
    have htake : ([] ++ userKey ++ encodeFixed64 (packTag seq t)).take
        (userKey.length + 8 - 8) = userKey := by
      simp
    rw [hdrop, htake, decodeFixed64_encodeFixed64, Nat.mod_eq_of_lt (packTag_lt seq t hseq)]
    simp only [packTag_mod_256 seq t hseq, fromByte_toByte, packTag_div_256 seq t hseq]
  · intro input hlen
    unfold parseInternalKey
    rw [if_pos hlen]

/-- C7 applied at a concrete internal key. -/
theorem claim_C7_internal_key_roundtrip_witness :
    parseInternalKey (appendInternalKey [] [104, 105] 77 .Value)
      = .ret (some ([104, 105], 77, .Value))
    ∧ parseInternalKey [1, 2, 3] = .ret none :=
  ⟨claim_C7_internal_key_roundtrip.1 [104, 105] 77 .Value (by norm_num [MAX_SEQUENCE_NUMBER]),
   claim_C7_internal_key_roundtrip.2 [1, 2, 3] (by norm_num)⟩

/-! ## `src/util/comparator.rs` -/

/-- `BytewiseComparator::compare`: Rust slice `cmp`, i.e. lexicographic
order on byte strings with element order on `u8`. -/
def bytewiseCompare : List Nat → List Nat → Ordering
  | [], [] => .eq
  | [], _ :: _ => .lt
  | _ :: _, [] => .gt
  | a :: as, b :: bs =>
    match compare a b with
    | .eq => bytewiseCompare as bs
    | o => o

/-- `InternalKeyComparator::compare`, parameterised by the boxed user
comparator: user-key prefixes first, then the trailing 8-byte tags as
`u64`, reversed. -/
def internalCompare (ucmp : List Nat → List Nat → Ordering) (a b : List Nat) : Ordering :=
  let r := ucmp (extractUserKey a) (extractUserKey b)
  if r = .eq then
    let anum := decodeFixed64 (a.drop (a.length - 8))
    let bnum := decodeFixed64 (b.drop (b.length - 8))
    (compare anum bnum).swap
  else r

theorem extractUserKey_append (ua ta : List Nat) (hta : ta.length = 8) :
    extractUserKey (ua ++ ta) = ua := by
  unfold extractUserKey
  rw [List.length_append, hta]
  simpa using List.take_left ua ta

theorem drop_tag_append (ua ta : List Nat) (hta : ta.length = 8) :
    (ua ++ ta).drop ((ua ++ ta).length - 8) = ta := by
  rw [List.length_append, hta]
  simpa using List.drop_left ua ta

/-- The internal-key comparator on keys decomposed as
`prefix ++ 8-byte tag`. -/
theorem internalCompare_append (ucmp : List Nat → List Nat → Ordering)
    (ua ub ta tb : List Nat) (hta : ta.length = 8) (htb : tb.length = 8) :
    internalCompare ucmp (ua ++ ta) (ub ++ tb)
      = if ucmp ua ub = .eq then (compare (decodeFixed64 ta) (decodeFixed64 tb)).swap
        else ucmp ua ub := by
  unfold internalCompare
  rw [extractUserKey_append ua ta hta, extractUserKey_append ub tb htb,
    drop_tag_append ua ta hta, drop_tag_append ub tb htb]

/-- C3: on any two byte strings decomposed as `prefix ++ 8-byte-tag`, the
internal-key comparator defers to the user comparator on the prefixes
and, on equality, compares the little-endian tags as `u64` reversed, so
that among internal keys with the same user key a larger sequence number
sorts strictly earlier, and on equal sequence the larger kind
(`Value > Deletion`) sorts strictly earlier. -/
theorem claim_C3_internal_key_order :
    (∀ (ucmp : List Nat → List Nat → Ordering) (ua ub ta tb : List Nat),
      ta.length = 8 → tb.length = 8 →
      internalCompare ucmp (ua ++ ta) (ub ++ tb)
        = if ucmp ua ub = .eq then (compare (decodeFixed64 ta) (decodeFixed64 tb)).swap
          else ucmp ua ub)
    ∧ (∀ (ucmp : List Nat → List Nat → Ordering) (k : List Nat) (s1 s2 : Nat)
        (t1 t2 : ValueType), ucmp k k = .eq →
        s1 ≤ MAX_SEQUENCE_NUMBER → s2 ≤ MAX_SEQUENCE_NUMBER → s2 < s1 →
        internalCompare ucmp (appendInternalKey [] k s1 t1) (appendInternalKey [] k s2 t2)
          = .lt)
    ∧ (∀ (ucmp : List Nat → List Nat → Ordering) (k : List Nat) (s : Nat),
        ucmp k k = .eq → s ≤ MAX_SEQUENCE_NUMBER →
        internalCompare ucmp (appendInternalKey [] k s .Value)
          (appendInternalKey [] k s .Deletion) = .lt) := by
  have hmain := internalCompare_append
  refine ⟨hmain, ?_, ?_⟩
  · intro ucmp k s1 s2 t1 t2 hrefl hs1 hs2 hlt
    unfold appendInternalKey
    simp only [List.nil_append]
    rw [hmain ucmp k k _ _ (encodeFixed64_length _) (encodeFixed64_length _), if_pos hrefl,
      decodeFixed64_encodeFixed64, decodeFixed64_encodeFixed64,
      Nat.mod_eq_of_lt (packTag_lt s1 t1 hs1), Nat.mod_eq_of_lt (packTag_lt s2 t2 hs2)]
    have htag : packTag s2 t2 < packTag s1 t1 := by
      rw [packTag_eq s1 t1 hs1, packTag_eq s2 t2 hs2]
      have h1 : t1.toByte ≤ 1 := by cases t1 <;> simp [ValueType.toByte]
      have h2 : t2.toByte ≤ 1 := by cases t2 <;> simp [ValueType.toByte]
      omega
    rw [Nat.compare_eq_gt.mpr htag]
    rfl
  · intro ucmp k s hrefl hs
    unfold appendInternalKey
    simp only [List.nil_append]
    rw [hmain ucmp k k _ _ (encodeFixed64_length _) (encodeFixed64_length _), if_pos hrefl,
      decodeFixed64_encodeFixed64, decodeFixed64_encodeFixed64,
      Nat.mod_eq_of_lt (packTag_lt s .Value hs), Nat.mod_eq_of_lt (packTag_lt s .Deletion hs)]
    have htag : packTag s .Deletion < packTag s .Value := by
      rw [packTag_eq s .Value hs, packTag_eq s .Deletion hs]
      simp [ValueType.toByte]
    rw [Nat.compare_eq_gt.mpr htag]
    rfl

/-- C3 applied with the bytewise comparator at concrete keys. -/
theorem claim_C3_internal_key_order_witness :
    internalCompare bytewiseCompare ([5, 6] ++ encodeFixed64 77) ([5, 7] ++ encodeFixed64 3)
      = bytewiseCompare [5, 6] [5, 7]
    ∧ internalCompare bytewiseCompare (appendInternalKey [] [9] 5 .Deletion)
        (appendInternalKey [] [9] 4 .Value) = .lt
    ∧ internalCompare bytewiseCompare (appendInternalKey [] [9] 5 .Value)
        (appendInternalKey [] [9] 5 .Deletion) = .lt := by
  refine ⟨?_, ?_, ?_⟩
  · rw [claim_C3_internal_key_order.1 bytewiseCompare [5, 6] [5, 7] _ _
      (encodeFixed64_length _) (encodeFixed64_length _)]
    rw [if_neg (by decide)]
  · exact claim_C3_internal_key_order.2.1 bytewiseCompare [9] 5 4 .Deletion .Value
      (by decide) (by norm_num [MAX_SEQUENCE_NUMBER]) (by norm_num [MAX_SEQUENCE_NUMBER])
      (by norm_num)
  · exact claim_C3_internal_key_order.2.2 bytewiseCompare [9] 5 (by decide)
      (by norm_num [MAX_SEQUENCE_NUMBER])

/-! ## `src/util/crc32c.rs`

The repository re-exports `crc32c` and `crc32c_append` from the external
`crc32c` crate and adds the mask/unmask pair.  The CRC itself is
modelled from the spec: CRC32C over the Castagnoli polynomial
(reflected `0x82F63B78`), processed bit by bit, seeded and finalised
with `0xFFFFFFFF`, with `crc32c_append` continuing from a finalised
checksum — the behaviour the crate documents and the repository's
`test_crc_standard_results` / `test_crc_extend` tests pin down. -/

/-- One bit step of the reflected CRC32C division. -/
def crc32cStepBit (crc : Nat) : Nat :=
  if crc % 2 = 1 then crc / 2 ^^^ 0x82F63B78 else crc / 2

/-- `n` bit steps. -/
def crc32cRound : Nat → Nat → Nat
  | 0, crc => crc
  | n + 1, crc => crc32cRound n (crc32cStepBit crc)

/-- Fold a byte string into the raw (unfinalised) CRC state. -/
def crc32cUpdate (state : Nat) (data : List Nat) : Nat :=
  data.foldl (fun crc byte => crc32cRound 8 (crc ^^^ byte % 256)) state

/-- `crc32c_append(crc, data)`: continue a finalised CRC32C. -/
def crc32cAppend (crc : Nat) (data : List Nat) : Nat :=
  crc32cUpdate (crc ^^^ 0xFFFFFFFF) data ^^^ 0xFFFFFFFF

/-- `crc32c(data)`. -/
def crc32c (data : List Nat) : Nat :=
  crc32cAppend 0 data

/-- `MASK_DELTA`. -/
def MASK_DELTA : Nat := 0xa282ead8

/-- `crc32c_mask`: rotate right by 15 (= left by 17 on 32 bits) and
wrapping-add the delta. -/
def crc32cMask (crc : Nat) : Nat :=
  ((crc / 2 ^ 15 ||| crc * 2 ^ 17 % 2 ^ 32) + MASK_DELTA) % 2 ^ 32

/-- `crc32c_unmask`. -/
def crc32cUnmask (maskedCrc : Nat) : Nat :=
  let rot := (maskedCrc + 2 ^ 32 - MASK_DELTA) % 2 ^ 32
  rot / 2 ^ 17 ||| rot * 2 ^ 15 % 2 ^ 32

-- The crate's standard test vector: CRC32C of 32 zero bytes.
set_option maxRecDepth 8000 in
example : crc32c (List.replicate 32 0) = 0x8a9136aa := by decide

-- The crate's extension law at a concrete split of `hello`.
set_option maxRecDepth 8000 in
example : crc32cAppend (crc32c [104, 101]) [108, 108, 111]
    = crc32c [104, 101, 108, 108, 111] := by decide

theorem crc32cStepBit_lt (crc : Nat) (h : crc < 2 ^ 32) : crc32cStepBit crc < 2 ^ 32 := by
  unfold crc32cStepBit
  split
  · exact Nat.xor_lt_two_pow (by omega) (by norm_num)
  · omega

theorem crc32cRound_lt (n crc : Nat) (h : crc < 2 ^ 32) : crc32cRound n crc < 2 ^ 32 := by
  induction n generalizing crc with
  | zero => exact h
  | succ m ih => exact ih _ (crc32cStepBit_lt crc h)

theorem crc32cUpdate_lt (data : List Nat) (state : Nat) (h : state < 2 ^ 32) :
    crc32cUpdate state data < 2 ^ 32 := by
  induction data generalizing state with
  | nil => exact h
  | cons b rest ih =>
    exact ih _ (crc32cRound_lt 8 _ (Nat.xor_lt_two_pow h (by omega)))

theorem crc32c_lt (data : List Nat) : crc32c data < 2 ^ 32 := by
  unfold crc32c crc32cAppend
  exact Nat.xor_lt_two_pow (crc32cUpdate_lt data _ (by norm_num)) (by norm_num)

/-- Appending to a finalised CRC continues the stream:
`crc32c_append(crc32c(l), m) = crc32c(l ++ m)`. -/
theorem crc32cAppend_crc32c (l m : List Nat) :
    crc32cAppend (crc32c l) m = crc32c (l ++ m) := by
  unfold crc32c crc32cAppend crc32cUpdate
  rw [Nat.xor_cancel_right, List.foldl_append]

/-- Unmasking inverts masking on 32-bit checksums. -/
theorem crc32cUnmask_mask (c : Nat) (hc : c < 2 ^ 32) : crc32cUnmask (crc32cMask c) = c := by
  unfold crc32cMask crc32cUnmask MASK_DELTA
  have hlo : c % 2 ^ 15 < 2 ^ 15 := Nat.mod_lt _ (by norm_num)
  have hhi : c / 2 ^ 15 < 2 ^ 17 := by norm_num at hc ⊢; omega
  have hrotl : c / 2 ^ 15 ||| c * 2 ^ 17 % 2 ^ 32 = c % 2 ^ 15 * 2 ^ 17 + c / 2 ^ 15 := by
    have hshl : c * 2 ^ 17 % 2 ^ 32 = c % 2 ^ 15 * 2 ^ 17 := by
      norm_num at hc ⊢
      omega
    calc c / 2 ^ 15 ||| c * 2 ^ 17 % 2 ^ 32
        = 2 ^ 17 * (c % 2 ^ 15) ||| c / 2 ^ 15 := by rw [hshl, Nat.lor_comm, Nat.mul_comm]
    _ = 2 ^ 17 * (c % 2 ^ 15) + c / 2 ^ 15 := (two_pow_mul_add_eq_lor _ _ 17 hhi).symm
    _ = c % 2 ^ 15 * 2 ^ 17 + c / 2 ^ 15 := by ring
  rw [hrotl]
  have hsub : (c % 2 ^ 15 * 2 ^ 17 + c / 2 ^ 15 + 0xa282ead8) % 2 ^ 32
      + 2 ^ 32 - 0xa282ead8 ≥ 0 := by omega
  have hrot : ((c % 2 ^ 15 * 2 ^ 17 + c / 2 ^ 15 + 0xa282ead8) % 2 ^ 32
      + 2 ^ 32 - 0xa282ead8) % 2 ^ 32 = c % 2 ^ 15 * 2 ^ 17 + c / 2 ^ 15 := by
    have hr : c % 2 ^ 15 * 2 ^ 17 + c / 2 ^ 15 < 2 ^ 32 := by
      norm_num at hlo hhi ⊢
      omega
    norm_num at hr ⊢
    omega
  simp only [hrot]
  have hdiv : (c % 2 ^ 15 * 2 ^ 17 + c / 2 ^ 15) / 2 ^ 17 = c % 2 ^ 15 := by
    norm_num at hhi ⊢
    omega
  have hshl2 : (c % 2 ^ 15 * 2 ^ 17 + c / 2 ^ 15) * 2 ^ 15 % 2 ^ 32
      = c / 2 ^ 15 * 2 ^ 15 := by
    have h1 : (c % 2 ^ 15 * 2 ^ 17 + c / 2 ^ 15) * 2 ^ 15
        = c % 2 ^ 15 * 2 ^ 32 + c / 2 ^ 15 * 2 ^ 15 := by ring
    norm_num at h1 hc ⊢
    omega
  rw [hdiv, hshl2]
  calc c % 2 ^ 15 ||| c / 2 ^ 15 * 2 ^ 15
      = 2 ^ 15 * (c / 2 ^ 15) ||| c % 2 ^ 15 := by rw [Nat.lor_comm, Nat.mul_comm]
  _ = 2 ^ 15 * (c / 2 ^ 15) + c % 2 ^ 15 := (two_pow_mul_add_eq_lor _ _ 15 hlo).symm
  _ = c := Nat.div_add_mod c (2 ^ 15)

/-! ## Errors (`src/util/result.rs`)

Only the codes the embedded code produces are modelled. -/

/-- `DBError`: error code plus free-text message. -/
inductive DBError where
  | notFound (msg : String) : DBError
  | corruption (msg : String) : DBError
  deriving DecidableEq, Repr

/-! ## `src/memtable/skiplist.rs`

The skiplist is an ordered set: one writer inserts; `seek` returns the
earliest node at or after a key; iteration follows level-0 links in
comparator order.  Its sequential contents are modelled as the list of
keys in that order (the probabilistic towers of forward pointers are an
index over exactly this order, and `insert` splices the new node after
`find_greater_or_equal`'s predecessors).  Keys are the pointed-to encoded
entry buffers. -/

/-- `SkipList::insert`: place the key after every key comparing `Less`
and before the first key comparing greater-or-equal (duplicate equal keys
are excluded by the `insert` assertion). -/
def skiplistInsert (cmp : List Nat → List Nat → Ordering) (key : List Nat) :
    List (List Nat) → List (List Nat)
  | [] => [key]
  | k :: rest =>
    if cmp k key = .lt then k :: skiplistInsert cmp key rest
    else key :: k :: rest

/-- `SkipList::find_greater_or_equal` / `SkipListIterator::seek`: the
earliest key that does not compare `Less` than the target, if any. -/
def skiplistSeek (cmp : List Nat → List Nat → Ordering) (target : List Nat)
    (l : List (List Nat)) : Option (List Nat) :=
  l.find? fun k => cmp k target != Ordering.lt

/-! ## `src/memtable/memtable.rs` -/

/-- `decode_length_prefixed_slice_ptr`: a varint32 length followed by
that many bytes, returning the slice and the total consumed size.  (The
Rust function reads through a raw pointer and `unwrap`s; every buffer it
is applied to decodes, and `decodeVarint32` never inspects more than the
five-byte window the Rust code materialises.) -/
def decodeLengthPrefixedSlice (ptr : List Nat) : Option (List Nat × Nat) :=
  match decodeVarint32 ptr with
  | none => none
  | some (len, offset) => some ((ptr.drop offset).take len, offset + len)

/-- `MemTableKeyComparator::compare`: decode both length-prefixed
internal keys and defer to the internal-key comparator.  (The Rust code
`unwrap`s the decode; buffers that fail to decode never reach it, and
the fallback branch here is arbitrary.) -/
def memtableKeyComparator (ucmp : List Nat → List Nat → Ordering)
    (a b : List Nat) : Ordering :=
  match decodeLengthPrefixedSlice a, decodeLengthPrefixedSlice b with
  | some (ka, _), some (kb, _) => internalCompare ucmp ka kb
  | _, _ => .eq

/-- The single contiguous entry written by `MemTable::add`:
`varint32(klen + 8) || key || fixed64(tag) || varint32(vlen) || value`
(the `as u32` casts wrap). -/
def encodeEntry (seq : Nat) (t : ValueType) (key value : List Nat) : List Nat :=
  encodeVarint32 ((key.length + 8) % 2 ^ 32) ++ key ++ encodeFixed64 (packTag seq t)
    ++ encodeVarint32 (value.length % 2 ^ 32) ++ value

/-- `MemTable::add`: encode the entry and insert it into the skiplist. -/
def memtableAdd (ucmp : List Nat → List Nat → Ordering) (table : List (List Nat))
    (seq : Nat) (t : ValueType) (key value : List Nat) : List (List Nat) :=
  skiplistInsert (memtableKeyComparator ucmp) (encodeEntry seq t key value) table

/-- `LookupKey::new` / `memtable_key()`:
`varint32(klen + 8) || user_key || fixed64((seq << 8) | Value)`. -/
def lookupMemtableKey (userKey : List Nat) (sequence : Nat) : List Nat :=
  encodeVarint32 ((userKey.length + 8) % 2 ^ 32) ++ userKey
    ++ encodeFixed64 (packTag sequence VALUE_TYPE_FOR_SEEK)

/-- `LookupKey::internal_key()`. -/
def lookupInternalKey (userKey : List Nat) (sequence : Nat) : List Nat :=
  userKey ++ encodeFixed64 (packTag sequence VALUE_TYPE_FOR_SEEK)

/-- `MemTable::get`: seek the skiplist at the lookup key's memtable key;
if the entry found shares the user key, answer from its tag. -/
def memtableGet (ucmp : List Nat → List Nat → Ordering) (table : List (List Nat))
    (userKey : List Nat) (sequence : Nat) : Panics (Option (Except DBError (List Nat))) :=
  let memkey := lookupMemtableKey userKey sequence
  match skiplistSeek (memtableKeyComparator ucmp) memkey table with
  | none => .ret none
  | some entry =>
    match decodeVarint32 entry with
    | none => .panic
    | some (ukeyLen, ukeyOffset) =>
      if ucmp ((entry.drop ukeyOffset).take (ukeyLen - 8)) userKey = .eq then
        let tag := decodeFixed64 (entry.drop (ukeyOffset + ukeyLen - 8))
        match ValueType.fromByte (tag % 256) with
        | some .Value =>
          match decodeLengthPrefixedSlice (entry.drop (ukeyOffset + ukeyLen)) with
          | some (value, _) => .ret (some (.ok value))
          | none => .panic
        | some .Deletion => .ret (some (.error (DBError.notFound "")))
        | none => .panic
      else .ret none

/-- `MemTableIterator` key view: the decoded internal key of an entry. -/
def entryInternalKey (entry : List Nat) : List Nat :=
  match decodeLengthPrefixedSlice entry with
  | some (ikey, _) => ikey
  | none => []

/-- `MemTableIterator` value view: the length-prefixed slice after the
internal key. -/
def entryValue (entry : List Nat) : List Nat :=
  match decodeLengthPrefixedSlice entry with
  | some (_, offset) =>
    match decodeLengthPrefixedSlice (entry.drop offset) with
    | some (value, _) => value
    | none => []
  | none => []

/-! ### Entry decoding facts -/

theorem encodeVarint32_length (v : Nat) (hv : v < 2 ^ 32) :
    (encodeVarint32 v).length = varintSize v := by
  rw [encodeVarint32_eq_go v hv, encodeVarint64Go_length]
  exact (varintSizeGo_congr 10 4 v (lt_of_lt_of_le hv (by norm_num))
    (lt_of_lt_of_le hv (by norm_num))).symm

theorem decodeFixed64_encodeFixed64_append (x : Nat) (rest : List Nat) :
    decodeFixed64 (encodeFixed64 x ++ rest) = x % 2 ^ 64 := by
  simp only [decodeFixed64, encodeFixed64, List.cons_append, List.nil_append, List.getD]
  norm_num
  omega

theorem packTag_lt64 (seq : Nat) (t : ValueType) : packTag seq t < 2 ^ 64 := by
  unfold packTag
  have h1 : seq * 2 ^ 8 % 2 ^ 64 < 2 ^ 64 := Nat.mod_lt _ (by norm_num)
  have h2 : t.toByte < 2 ^ 64 := by cases t <;> norm_num [ValueType.toByte]
  exact Nat.bitwise_lt_two_pow h1 h2

/-- Decoding the length-prefixed entry written by `add` yields its
internal key and the prefix size. -/
theorem decodeLPS_encodeEntry (seq : Nat) (t : ValueType) (key value : List Nat)
    (hk : key.length + 8 < 2 ^ 32) :
    decodeLengthPrefixedSlice (encodeEntry seq t key value)
      = some (key ++ encodeFixed64 (packTag seq t),
          varintSize (key.length + 8) + (key.length + 8)) := by
  unfold decodeLengthPrefixedSlice
  have hassoc : encodeEntry seq t key value
      = encodeVarint32 (key.length + 8) ++ (key ++ (encodeFixed64 (packTag seq t)
        ++ (encodeVarint32 (value.length % 2 ^ 32) ++ value))) := by
    unfold encodeEntry
    rw [Nat.mod_eq_of_lt hk]
    simp [List.append_assoc]
  rw [hassoc, decodeVarint32_encode (key.length + 8) _ hk]
  dsimp only
  rw [← encodeVarint32_length (key.length + 8) hk, List.drop_left]
  rw [encodeVarint32_length (key.length + 8) hk]
  have htake : (key ++ (encodeFixed64 (packTag seq t)
      ++ (encodeVarint32 (value.length % 2 ^ 32) ++ value))).take (key.length + 8)
      = key ++ encodeFixed64 (packTag seq t) := by
    rw [List.take_append 8, List.take_append_of_le_length (by rw [encodeFixed64_length])]
    simp [encodeFixed64_length]
  rw [htake]

/-- Decoding the lookup key's memtable key yields its internal key. -/
theorem decodeLPS_lookup (userKey : List Nat) (sequence : Nat)
    (hk : userKey.length + 8 < 2 ^ 32) :
    decodeLengthPrefixedSlice (lookupMemtableKey userKey sequence)
      = some (userKey ++ encodeFixed64 (packTag sequence VALUE_TYPE_FOR_SEEK),
          varintSize (userKey.length + 8) + (userKey.length + 8)) := by
  unfold decodeLengthPrefixedSlice
  have hassoc : lookupMemtableKey userKey sequence
      = encodeVarint32 (userKey.length + 8)
        ++ (userKey ++ encodeFixed64 (packTag sequence VALUE_TYPE_FOR_SEEK)) := by
    unfold lookupMemtableKey
    rw [Nat.mod_eq_of_lt hk]
    simp [List.append_assoc]
  rw [hassoc, decodeVarint32_encode (userKey.length + 8) _ hk]
  dsimp only
  rw [← encodeVarint32_length (userKey.length + 8) hk, List.drop_left]
  rw [encodeVarint32_length (userKey.length + 8) hk]
  have htake : (userKey ++ encodeFixed64 (packTag sequence VALUE_TYPE_FOR_SEEK)).take
      (userKey.length + 8)
      = userKey ++ encodeFixed64 (packTag sequence VALUE_TYPE_FOR_SEEK) := by
    apply List.take_of_length_le
    simp [encodeFixed64_length]
  rw [htake]

/-! ### Op-level view of the memtable

For reasoning, a memtable populated through `add` is transported to the
list of the `add` arguments, ordered by the comparator that
`MemTableKeyComparator` computes on their encodings. -/

/-- One `add(seq, kind, key, value)` call. -/
structure AddOp where
  seq : Nat
  kind : ValueType
  key : List Nat
  value : List Nat
  deriving DecidableEq, Repr

/-- The encoded entry of an op. -/
def AddOp.encode (op : AddOp) : List Nat :=
  encodeEntry op.seq op.kind op.key op.value

/-- The packed tag of an op. -/
def AddOp.tag (op : AddOp) : Nat :=
  packTag op.seq op.kind

/-- An op is well-formed when its sequence number is 56-bit and its key
and value fit the `u32` length prefixes. -/
def AddOp.wf (op : AddOp) : Prop :=
  op.seq ≤ MAX_SEQUENCE_NUMBER ∧ op.key.length + 8 < 2 ^ 32 ∧ op.value.length < 2 ^ 32

/-- What `MemTableKeyComparator` computes on two encoded entries. -/
def opCmp (ucmp : List Nat → List Nat → Ordering) (a b : AddOp) : Ordering :=
  if ucmp a.key b.key = .eq then (compare a.tag b.tag).swap else ucmp a.key b.key

/-- What `MemTableKeyComparator` computes on an encoded entry and a
lookup key's memtable key. -/
def opCmpLookup (ucmp : List Nat → List Nat → Ordering) (a : AddOp)
    (userKey : List Nat) (sequence : Nat) : Ordering :=
  if ucmp a.key userKey = .eq
  then (compare a.tag (packTag sequence VALUE_TYPE_FOR_SEEK)).swap
  else ucmp a.key userKey

theorem memCmp_encode_encode (ucmp : List Nat → List Nat → Ordering) (a b : AddOp)
    (ha : a.key.length + 8 < 2 ^ 32) (hb : b.key.length + 8 < 2 ^ 32) :
    memtableKeyComparator ucmp a.encode b.encode = opCmp ucmp a b := by
  unfold memtableKeyComparator AddOp.encode
  rw [decodeLPS_encodeEntry _ _ _ _ ha, decodeLPS_encodeEntry _ _ _ _ hb]
  dsimp only
  rw [internalCompare_append ucmp _ _ _ _ (encodeFixed64_length _) (encodeFixed64_length _)]
  unfold opCmp AddOp.tag
  rw [decodeFixed64_encodeFixed64, decodeFixed64_encodeFixed64,
    Nat.mod_eq_of_lt (packTag_lt64 _ _), Nat.mod_eq_of_lt (packTag_lt64 _ _)]

theorem memCmp_encode_lookup (ucmp : List Nat → List Nat → Ordering) (a : AddOp)
    (userKey : List Nat) (sequence : Nat)
    (ha : a.key.length + 8 < 2 ^ 32) (hu : userKey.length + 8 < 2 ^ 32) :
    memtableKeyComparator ucmp a.encode (lookupMemtableKey userKey sequence)
      = opCmpLookup ucmp a userKey sequence := by
  unfold memtableKeyComparator AddOp.encode
  rw [decodeLPS_encodeEntry _ _ _ _ ha, decodeLPS_lookup _ _ hu]
  dsimp only
  rw [internalCompare_append ucmp _ _ _ _ (encodeFixed64_length _) (encodeFixed64_length _)]
  unfold opCmpLookup AddOp.tag
  rw [decodeFixed64_encodeFixed64, decodeFixed64_encodeFixed64,
    Nat.mod_eq_of_lt (packTag_lt64 _ _), Nat.mod_eq_of_lt (packTag_lt64 _ _)]

/-- `skiplistInsert` transported to ops. -/
def opInsert (ucmp : List Nat → List Nat → Ordering) (x : AddOp) :
    List AddOp → List AddOp
  | [] => [x]
  | h :: t => if opCmp ucmp h x = .lt then h :: opInsert ucmp x t else x :: h :: t

/-- The op list a sequence of `add` calls sorts itself into. -/
def opSort (ucmp : List Nat → List Nat → Ordering) (ops : List AddOp) : List AddOp :=
  ops.foldl (fun acc op => opInsert ucmp op acc) []

theorem skiplistInsert_map_encode (ucmp : List Nat → List Nat → Ordering) (x : AddOp)
    (l : List AddOp) (hx : x.key.length + 8 < 2 ^ 32)
    (hl : ∀ y ∈ l, y.key.length + 8 < 2 ^ 32) :
    skiplistInsert (memtableKeyComparator ucmp) x.encode (l.map AddOp.encode)
      = (opInsert ucmp x l).map AddOp.encode := by
  induction l with
  | nil => rfl
  | cons h t ih =>
    simp only [List.map_cons, skiplistInsert, opInsert]
    rw [memCmp_encode_encode ucmp h x (hl h (List.mem_cons_self h t)) hx]
    by_cases hc : opCmp ucmp h x = .lt
    · rw [if_pos hc, if_pos hc, ih fun y hy => hl y (List.mem_cons_of_mem h hy)]
      simp
    · rw [if_neg hc, if_neg hc]
      simp

/-- The memtable built by folding `add` over a list of ops is the encoded
image of the sorted op list. -/
theorem memtable_fold_eq (ucmp : List Nat → List Nat → Ordering) (ops : List AddOp)
    (h : ∀ op ∈ ops, op.key.length + 8 < 2 ^ 32) :
    ops.foldl (fun t op => memtableAdd ucmp t op.seq op.kind op.key op.value) []
      = (opSort ucmp ops).map AddOp.encode := by
  suffices hgen : ∀ (acc : List AddOp), (∀ y ∈ acc, y.key.length + 8 < 2 ^ 32) →
      ops.foldl (fun t op => memtableAdd ucmp t op.seq op.kind op.key op.value)
        (acc.map AddOp.encode)
      = (ops.foldl (fun a op => opInsert ucmp op a) acc).map AddOp.encode by
    simpa using hgen [] (by simp)
  induction ops with
  | nil => intro acc _; rfl
  | cons op rest ih =>
    intro acc hacc
    simp only [List.foldl_cons]
    have hop : op.key.length + 8 < 2 ^ 32 := h op (List.mem_cons_self _ _)
    have hmem : ∀ y ∈ opInsert ucmp op acc, y.key.length + 8 < 2 ^ 32 := by
      intro y hy
      have : y ∈ op :: acc := by
        clear hacc
        induction acc with
        | nil => simpa [opInsert] using hy
        | cons a t iha =>
          simp only [opInsert] at hy
          split at hy
          · rcases List.mem_cons.mp hy with h1 | h1
            · subst h1; exact List.mem_cons_of_mem _ (List.mem_cons_self _ _)
            · rcases List.mem_cons.mp (iha h1) with h2 | h2
              · subst h2; exact List.mem_cons_self _ _
              · exact List.mem_cons_of_mem _ (List.mem_cons_of_mem _ h2)
          · simpa using hy
      rcases List.mem_cons.mp this with h1 | h1
      · subst h1; exact hop
      · exact hacc y h1
    rw [show memtableAdd ucmp (acc.map AddOp.encode) op.seq op.kind op.key op.value
        = skiplistInsert (memtableKeyComparator ucmp) op.encode (acc.map AddOp.encode)
        from rfl]
    rw [skiplistInsert_map_encode ucmp op acc hop hacc]
    exact ih (fun a ha => h a (List.mem_cons_of_mem _ ha)) (opInsert ucmp op acc) hmem

/-- `skiplistSeek` transported to ops. -/
theorem skiplistSeek_map_encode (ucmp : List Nat → List Nat → Ordering)
    (l : List AddOp) (userKey : List Nat) (sequence : Nat)
    (hl : ∀ y ∈ l, y.key.length + 8 < 2 ^ 32) (hu : userKey.length + 8 < 2 ^ 32) :
    skiplistSeek (memtableKeyComparator ucmp) (lookupMemtableKey userKey sequence)
        (l.map AddOp.encode)
      = (l.find? fun a => opCmpLookup ucmp a userKey sequence != Ordering.lt).map
          AddOp.encode := by
  induction l with
  | nil => rfl
  | cons h t ih =>
    simp only [List.map_cons, skiplistSeek, List.find?]
    rw [memCmp_encode_lookup ucmp h userKey sequence (hl h (List.mem_cons_self h t)) hu]
    by_cases hc : opCmpLookup ucmp h userKey sequence != Ordering.lt
    · simp only [hc, if_pos]
      simp [hc]
    · have hc' : (opCmpLookup ucmp h userKey sequence != Ordering.lt) = false := by
        simpa using hc
      simp only [hc']
      have := ih fun y hy => hl y (List.mem_cons_of_mem h hy)
      simpa [skiplistSeek] using this

/-! ### Lawful user comparators -/

/-- The laws a user comparator must satisfy for the memtable contract
(the default bytewise comparator satisfies them): equality under the
comparator is equality of byte strings, comparison is antisymmetric, and
strict order is transitive. -/
structure LawfulUcmp (ucmp : List Nat → List Nat → Ordering) : Prop where
  eq_iff : ∀ a b, ucmp a b = .eq ↔ a = b
  swap_eq : ∀ a b, (ucmp a b).swap = ucmp b a
  lt_trans : ∀ {a b c}, ucmp a b = .lt → ucmp b c = .lt → ucmp a c = .lt

theorem compare_nat_swap (a b : Nat) : (compare a b).swap = compare b a := by
  rcases Nat.lt_trichotomy a b with h | h | h
  · rw [Nat.compare_eq_lt.mpr h, Nat.compare_eq_gt.mpr h]
    rfl
  · subst h
    rw [Nat.compare_eq_eq.mpr rfl]
    rfl
  · rw [Nat.compare_eq_gt.mpr h, Nat.compare_eq_lt.mpr h]
    rfl

theorem bytewiseCompare_eq_iff (a b : List Nat) : bytewiseCompare a b = .eq ↔ a = b := by
  induction a generalizing b with
  | nil => cases b <;> simp [bytewiseCompare]
  | cons x xs ih =>
    cases b with
    | nil => simp [bytewiseCompare]
    | cons y ys =>
      simp only [bytewiseCompare]
      rcases Nat.lt_trichotomy x y with h | h | h
      · rw [Nat.compare_eq_lt.mpr h]
        simp
        omega
      · subst h
        rw [Nat.compare_eq_eq.mpr rfl]
        simp [ih]
      · rw [Nat.compare_eq_gt.mpr h]
        simp
        omega

theorem bytewiseCompare_swap (a b : List Nat) :
    (bytewiseCompare a b).swap = bytewiseCompare b a := by
  induction a generalizing b with
  | nil => cases b <;> rfl
  | cons x xs ih =>
    cases b with
    | nil => rfl
    | cons y ys =>
      simp only [bytewiseCompare]
      rcases Nat.lt_trichotomy x y with h | h | h
      · rw [Nat.compare_eq_lt.mpr h, Nat.compare_eq_gt.mpr h]
        rfl
      · subst h
        rw [Nat.compare_eq_eq.mpr rfl]
        exact ih ys
      · rw [Nat.compare_eq_gt.mpr h, Nat.compare_eq_lt.mpr h]
        rfl

theorem bytewiseCompare_lt_trans {a b c : List Nat} (h1 : bytewiseCompare a b = .lt)
    (h2 : bytewiseCompare b c = .lt) : bytewiseCompare a c = .lt := by
  induction a generalizing b c with
  | nil =>
    cases b with
    | nil => exact absurd h1 (by simp [bytewiseCompare])
    | cons y ys =>
      cases c with
      | nil => exact absurd h2 (by cases ys <;> simp [bytewiseCompare])
      | cons z zs => simp [bytewiseCompare]
  | cons x xs ih =>
    cases b with
    | nil => exact absurd h1 (by simp [bytewiseCompare])
    | cons y ys =>
      cases c with
      | nil => exact absurd h2 (by simp [bytewiseCompare])
      | cons z zs =>
        simp only [bytewiseCompare] at h1 h2 ⊢
        rcases Nat.lt_trichotomy x y with hxy | hxy | hxy
        · rcases Nat.lt_trichotomy y z with hyz | hyz | hyz
          · rw [Nat.compare_eq_lt.mpr (by omega)]
          · subst hyz
            rw [Nat.compare_eq_lt.mpr hxy]
          · rw [Nat.compare_eq_gt.mpr hyz] at h2
            exact absurd h2 (by simp)
        · subst hxy
          rcases Nat.lt_trichotomy x z with hyz | hyz | hyz
          · rw [Nat.compare_eq_lt.mpr hyz]
          · subst hyz
            rw [Nat.compare_eq_eq.mpr rfl] at h1 h2 ⊢
            exact ih h1 h2
          · rw [Nat.compare_eq_gt.mpr hyz] at h2
            exact absurd h2 (by simp)
        · rw [Nat.compare_eq_gt.mpr hxy] at h1
          exact absurd h1 (by simp)

/-- The default `BytewiseComparator` is lawful. -/
theorem bytewiseCompare_lawful : LawfulUcmp bytewiseCompare :=
  ⟨bytewiseCompare_eq_iff, bytewiseCompare_swap, fun h1 h2 => bytewiseCompare_lt_trans h1 h2⟩

/-! ### Order facts about `opCmp` -/

theorem ordering_swap_eq_lt (o : Ordering) : o.swap = .lt ↔ o = .gt := by
  cases o <;> simp [Ordering.swap]

theorem ordering_swap_eq_eq (o : Ordering) : o.swap = .eq ↔ o = .eq := by
  cases o <;> simp [Ordering.swap]

theorem AddOp.tag_eq (op : AddOp) (h : op.seq ≤ MAX_SEQUENCE_NUMBER) :
    op.tag = 2 ^ 8 * op.seq + op.kind.toByte :=
  packTag_eq op.seq op.kind h

theorem toByte_le_one (t : ValueType) : t.toByte ≤ 1 := by
  cases t <;> simp [ValueType.toByte]

theorem toByte_inj {t u : ValueType} (h : t.toByte = u.toByte) : t = u := by
  cases t <;> cases u <;> simp [ValueType.toByte] at h ⊢

/-- Equal tags force equal sequence and kind (within the 56-bit range). -/
theorem tag_inj {a b : AddOp} (ha : a.seq ≤ MAX_SEQUENCE_NUMBER)
    (hb : b.seq ≤ MAX_SEQUENCE_NUMBER) (h : a.tag = b.tag) :
    a.seq = b.seq ∧ a.kind = b.kind := by
  rw [a.tag_eq ha, b.tag_eq hb] at h
  have h1 := toByte_le_one a.kind
  have h2 := toByte_le_one b.kind
  have hseq : a.seq = b.seq := by omega
  refine ⟨hseq, toByte_inj ?_⟩
  omega

theorem opCmp_eq_iff {ucmp : List Nat → List Nat → Ordering} (hL : LawfulUcmp ucmp)
    (a b : AddOp) (ha : a.seq ≤ MAX_SEQUENCE_NUMBER) (hb : b.seq ≤ MAX_SEQUENCE_NUMBER) :
    opCmp ucmp a b = .eq ↔ (a.key = b.key ∧ a.seq = b.seq ∧ a.kind = b.kind) := by
  unfold opCmp
  by_cases hk : ucmp a.key b.key = .eq
  · rw [if_pos hk]
    have hkeq : a.key = b.key := (hL.eq_iff _ _).mp hk
    rw [ordering_swap_eq_eq, Nat.compare_eq_eq]
    constructor
    · intro htag
      have := tag_inj ha hb htag
      exact ⟨hkeq, this.1, this.2⟩
    · rintro ⟨-, h1, h2⟩
      unfold AddOp.tag packTag
      rw [h1, h2]
  · rw [if_neg hk]
    constructor
    · intro h
      exact absurd h hk
    · rintro ⟨hkeq, -, -⟩
      exact absurd ((hL.eq_iff _ _).mpr hkeq) hk

theorem opCmp_swap {ucmp : List Nat → List Nat → Ordering} (hL : LawfulUcmp ucmp)
    (a b : AddOp) : (opCmp ucmp a b).swap = opCmp ucmp b a := by
  unfold opCmp
  by_cases hk : ucmp a.key b.key = .eq
  · have hk' : ucmp b.key a.key = .eq := by
      rw [← hL.swap_eq, hk]
      rfl
    rw [if_pos hk, if_pos hk', Ordering.swap_swap, compare_nat_swap]
  · have hk' : ucmp b.key a.key ≠ .eq := by
      intro h
      exact hk ((hL.eq_iff _ _).mpr ((hL.eq_iff _ _).mp h).symm)
    rw [if_neg hk, if_neg hk', hL.swap_eq]

theorem opCmp_lt_trans {ucmp : List Nat → List Nat → Ordering} (hL : LawfulUcmp ucmp)
    {a b c : AddOp} (h1 : opCmp ucmp a b = .lt) (h2 : opCmp ucmp b c = .lt) :
    opCmp ucmp a c = .lt := by
  unfold opCmp at h1 h2 ⊢
  by_cases hab : ucmp a.key b.key = .eq
  · have hkeq : a.key = b.key := (hL.eq_iff _ _).mp hab
    rw [if_pos hab, ordering_swap_eq_lt, Nat.compare_eq_gt] at h1
    by_cases hbc : ucmp b.key c.key = .eq
    · have hkeq2 : b.key = c.key := (hL.eq_iff _ _).mp hbc
      rw [if_pos hbc, ordering_swap_eq_lt, Nat.compare_eq_gt] at h2
      have hac : ucmp a.key c.key = .eq := (hL.eq_iff _ _).mpr (hkeq.trans hkeq2)
      rw [if_pos hac, ordering_swap_eq_lt, Nat.compare_eq_gt]
      omega
    · rw [if_neg hbc] at h2
      have hac : ucmp a.key c.key = .lt := by rw [hkeq]; exact h2
      rw [if_neg (show ucmp a.key c.key ≠ .eq by simp [hac])]
      exact hac
  · rw [if_neg hab] at h1
    by_cases hbc : ucmp b.key c.key = .eq
    · have hkeq2 : b.key = c.key := (hL.eq_iff _ _).mp hbc
      have hac : ucmp a.key c.key = .lt := by rw [← hkeq2]; exact h1
      rw [if_neg (show ucmp a.key c.key ≠ .eq by simp [hac])]
      exact hac
    · rw [if_neg hbc] at h2
      have hac : ucmp a.key c.key = .lt := hL.lt_trans h1 h2
      rw [if_neg (show ucmp a.key c.key ≠ .eq by simp [hac])]
      exact hac

/-! ### Sortedness of the op view -/

theorem opInsert_mem {ucmp : List Nat → List Nat → Ordering} (x y : AddOp)
    (l : List AddOp) : y ∈ opInsert ucmp x l ↔ y = x ∨ y ∈ l := by
  induction l with
  | nil => simp [opInsert]
  | cons h t ih =>
    simp only [opInsert]
    split
    · simp only [List.mem_cons, ih]
      tauto
    · simp only [List.mem_cons]

theorem opInsert_perm {ucmp : List Nat → List Nat → Ordering} (x : AddOp)
    (l : List AddOp) : (opInsert ucmp x l).Perm (x :: l) := by
  induction l with
  | nil => rfl
  | cons h t ih =>
    simp only [opInsert]
    split
    · exact (ih.cons h).trans (List.Perm.swap x h t)
    · rfl

theorem opSort_perm (ucmp : List Nat → List Nat → Ordering) (ops : List AddOp) :
    (opSort ucmp ops).Perm ops := by
  suffices hgen : ∀ acc : List AddOp,
      (ops.foldl (fun a op => opInsert ucmp op a) acc).Perm (acc ++ ops) by
    simpa using hgen []
  induction ops with
  | nil => intro acc; simp
  | cons op rest ih =>
    intro acc
    simp only [List.foldl_cons]
    refine (ih (opInsert ucmp op acc)).trans ?_
    have h1 : (opInsert ucmp op acc ++ rest).Perm ((op :: acc) ++ rest) :=
      (opInsert_perm op acc).append_right rest
    refine h1.trans ?_
    simp only [List.cons_append]
    exact (List.Perm.symm (List.perm_middle))

theorem opInsert_sorted {ucmp : List Nat → List Nat → Ordering} (hL : LawfulUcmp ucmp)
    (x : AddOp) (l : List AddOp) (hs : l.Pairwise (opCmp ucmp · · = .lt))
    (hne : ∀ y ∈ l, opCmp ucmp y x ≠ .eq) :
    (opInsert ucmp x l).Pairwise (opCmp ucmp · · = .lt) := by
  induction l with
  | nil => simp [opInsert]
  | cons h t ih =>
    rw [List.pairwise_cons] at hs
    simp only [opInsert]
    by_cases hc : opCmp ucmp h x = .lt
    · rw [if_pos hc, List.pairwise_cons]
      constructor
      · intro y hy
        rcases (opInsert_mem x y t).mp hy with rfl | hy
        · exact hc
        · exact hs.1 y hy
      · exact ih hs.2 fun y hy => hne y (List.mem_cons_of_mem _ hy)
    · rw [if_neg hc, List.pairwise_cons]
      have hgt : opCmp ucmp h x = .gt := by
        rcases h' : opCmp ucmp h x with _ | _ | _
        · exact absurd h' hc
        · exact absurd h' (hne h (List.mem_cons_self _ _))
        · rfl
      have hxh : opCmp ucmp x h = .lt := by
        rw [← opCmp_swap hL, hgt]
        rfl
      constructor
      · intro y hy
        rcases List.mem_cons.mp hy with rfl | hy
        · exact hxh
        · exact opCmp_lt_trans hL hxh (hs.1 y hy)
      · exact List.pairwise_cons.mpr hs

theorem opSort_sorted (ucmp : List Nat → List Nat → Ordering) (hL : LawfulUcmp ucmp)
    (ops : List AddOp) (hne : ops.Pairwise fun a b => opCmp ucmp a b ≠ .eq) :
    (opSort ucmp ops).Pairwise (opCmp ucmp · · = .lt) := by
  suffices hgen : ∀ acc : List AddOp, acc.Pairwise (opCmp ucmp · · = .lt) →
      (∀ x ∈ ops, ∀ y ∈ acc, opCmp ucmp y x ≠ .eq) →
      ops.Pairwise (fun a b => opCmp ucmp a b ≠ .eq) →
      (ops.foldl (fun a op => opInsert ucmp op a) acc).Pairwise (opCmp ucmp · · = .lt) by
    exact hgen [] (by simp) (by simp) hne
  clear hne
  induction ops with
  | nil => intro acc hacc _ _; exact hacc
  | cons op rest ih =>
    intro acc hacc hcross hpair
    rw [List.pairwise_cons] at hpair
    simp only [List.foldl_cons]
    apply ih
    · exact opInsert_sorted hL op acc hacc
        fun y hy => hcross op (List.mem_cons_self _ _) y hy
    · intro x hx y hy
      rcases (opInsert_mem op y acc).mp hy with rfl | hy
      · exact hpair.1 x hx
      · exact hcross x (List.mem_cons_of_mem _ hx) y hy
    · exact hpair.2

/-- In a strictly sorted list, `find?` returns the distinguished
satisfying element as soon as everything strictly below it fails the
predicate. -/
theorem find?_first_sorted {ucmp : List Nat → List Nat → Ordering} {p : AddOp → Bool}
    {l : List AddOp} (hs : l.Pairwise (opCmp ucmp · · = .lt)) (a : AddOp) (ha : a ∈ l)
    (hpa : p a = true) (hother : ∀ x ∈ l, opCmp ucmp x a = .lt → p x = false) :
    l.find? p = some a := by
  induction l with
  | nil => cases ha
  | cons h t ih =>
    rw [List.pairwise_cons] at hs
    rcases List.mem_cons.mp ha with rfl | hmem
    · rw [List.find?_cons, hpa]
    · have hlt : opCmp ucmp h a = .lt := hs.1 a hmem
      have hph : p h = false := hother h (List.mem_cons_self _ _) hlt
      rw [List.find?_cons, hph]
      exact ih hs.2 hmem fun x hx hxlt => hother x (List.mem_cons_of_mem _ hx) hxlt

/-! ### Evaluating `get` on the entry the seek lands on -/

theorem bne_lt_true_iff (o : Ordering) : (o != Ordering.lt) = true ↔ o ≠ .lt := by
  cases o <;> decide

theorem bne_lt_false_iff (o : Ordering) : (o != Ordering.lt) = false ↔ o = .lt := by
  cases o <;> decide

theorem memtableGet_seek_none (ucmp : List Nat → List Nat → Ordering)
    (table : List (List Nat)) (userKey : List Nat) (sequence : Nat)
    (h : skiplistSeek (memtableKeyComparator ucmp) (lookupMemtableKey userKey sequence)
      table = none) :
    memtableGet ucmp table userKey sequence = .ret none := by
  unfold memtableGet
  dsimp only
  rw [h]

/-- When the seek lands on the encoding of a well-formed op, `get`
checks the user key and answers from the tag. -/
theorem memtableGet_found (ucmp : List Nat → List Nat → Ordering)
    (table : List (List Nat)) (userKey : List Nat) (sequence : Nat) (e : AddOp)
    (he : e.wf)
    (hseek : skiplistSeek (memtableKeyComparator ucmp)
      (lookupMemtableKey userKey sequence) table = some e.encode) :
    memtableGet ucmp table userKey sequence
      = if ucmp e.key userKey = .eq then
          .ret (some (match e.kind with
            | ValueType.Value => Except.ok e.value
            | ValueType.Deletion => Except.error (DBError.notFound "")))
        else .ret none := by
  obtain ⟨hseqb, hkb, hvb⟩ := he
  have hassoc : e.encode = encodeVarint32 (e.key.length + 8)
      ++ (e.key ++ (encodeFixed64 e.tag
        ++ (encodeVarint32 (e.value.length % 2 ^ 32) ++ e.value))) := by
    unfold AddOp.encode encodeEntry AddOp.tag
    rw [Nat.mod_eq_of_lt hkb]
    simp [List.append_assoc]
  unfold memtableGet
  dsimp only
  rw [hseek]
  dsimp only
  rw [hassoc, decodeVarint32_encode _ _ hkb]
  dsimp only
  have hvslen := encodeVarint32_length (e.key.length + 8) hkb
  have hdrop1 : (encodeVarint32 (e.key.length + 8)
      ++ (e.key ++ (encodeFixed64 e.tag
        ++ (encodeVarint32 (e.value.length % 2 ^ 32) ++ e.value)))).drop
        (varintSize (e.key.length + 8))
      = e.key ++ (encodeFixed64 e.tag
        ++ (encodeVarint32 (e.value.length % 2 ^ 32) ++ e.value)) := by
    rw [← hvslen]
    exact List.drop_left _ _
  have h88 : e.key.length + 8 - 8 = e.key.length := by omega
  rw [hdrop1, h88, List.take_left]
  by_cases hkey : ucmp e.key userKey = .eq
  · rw [if_pos hkey]
    have harith : varintSize (e.key.length + 8) + (e.key.length + 8) - 8
        = varintSize (e.key.length + 8) + e.key.length := by omega
    have hdrop2 : (encodeVarint32 (e.key.length + 8)
        ++ (e.key ++ (encodeFixed64 e.tag
          ++ (encodeVarint32 (e.value.length % 2 ^ 32) ++ e.value)))).drop
          (varintSize (e.key.length + 8) + e.key.length)
        = encodeFixed64 e.tag ++ (encodeVarint32 (e.value.length % 2 ^ 32) ++ e.value) := by
      rw [← List.drop_drop, hdrop1, List.drop_left]
    have hdrop3 : (encodeVarint32 (e.key.length + 8)
        ++ (e.key ++ (encodeFixed64 e.tag
          ++ (encodeVarint32 (e.value.length % 2 ^ 32) ++ e.value)))).drop
          (varintSize (e.key.length + 8) + (e.key.length + 8))
        = encodeVarint32 (e.value.length % 2 ^ 32) ++ e.value := by
      rw [show varintSize (e.key.length + 8) + (e.key.length + 8)
          = varintSize (e.key.length + 8) + e.key.length + 8 by omega]
      rw [← List.drop_drop, hdrop2]
      rw [show (8 : Nat) = (encodeFixed64 e.tag).length from (encodeFixed64_length _).symm]
      exact List.drop_left _ _
    rw [harith, hdrop2, decodeFixed64_encodeFixed64_append,
      Nat.mod_eq_of_lt (show e.tag < 2 ^ 64 from packTag_lt64 _ _)]
    have hbyte : AddOp.tag e % 256 = e.kind.toByte := packTag_mod_256 _ _ hseqb
    rw [hbyte, fromByte_toByte]
    rw [if_pos hkey]
    cases hkind : e.kind with
    | Value =>
      dsimp only
      rw [hdrop3]
      unfold decodeLengthPrefixedSlice
      rw [Nat.mod_eq_of_lt hvb, decodeVarint32_encode _ _ hvb]
      dsimp only
      rw [← encodeVarint32_length (e.value.length) hvb, List.drop_left,
        List.take_of_length_le (le_refl _)]
    | Deletion => rfl
  · rw [if_neg hkey, if_neg hkey]

/-- A memtable populated by a sequence of `add` calls. -/
def memtableOfOps (ucmp : List Nat → List Nat → Ordering) (ops : List AddOp) :
    List (List Nat) :=
  ops.foldl (fun t op => memtableAdd ucmp t op.seq op.kind op.key op.value) []

theorem tag_le_lookup_iff (a : AddOp) (ha : a.seq ≤ MAX_SEQUENCE_NUMBER) (s : Nat)
    (hs : s ≤ MAX_SEQUENCE_NUMBER) :
    a.tag ≤ packTag s VALUE_TYPE_FOR_SEEK ↔ a.seq ≤ s := by
  rw [a.tag_eq ha, packTag_eq s _ hs]
  have h1 := toByte_le_one a.kind
  have h2 : ValueType.toByte VALUE_TYPE_FOR_SEEK = 1 := rfl
  rw [h2]
  norm_num
  omega

/-- C1: for a memtable populated by `add(seq_i, kind_i, k_i, v_i)` calls
with pairwise distinct `(k_i, seq_i)` and 56-bit sequence numbers,
`get(LookupKey(k, s))` is decided by the entry with the largest
`seq_i ≤ s` among entries whose key equals `k` under the (lawful) user
comparator: no such entry gives `None`; a `Value` entry gives its value;
a `Deletion` entry gives `NotFound`.  (Keys and values are bounded by the
`u32` length prefixes of the entry format.) -/
theorem claim_C1_memtable_get (ucmp : List Nat → List Nat → Ordering)
    (hL : LawfulUcmp ucmp) (ops : List AddOp)
    (hwf : ∀ op ∈ ops, op.wf)
    (hdist : ops.Pairwise fun a b => ¬(a.key = b.key ∧ a.seq = b.seq))
    (k : List Nat) (s : Nat) (hk : k.length + 8 < 2 ^ 32) (hs : s ≤ MAX_SEQUENCE_NUMBER) :
    ((∀ op ∈ ops, ucmp op.key k = .eq → ¬ op.seq ≤ s) →
      memtableGet ucmp (memtableOfOps ucmp ops) k s = .ret none)
    ∧ (∀ best ∈ ops, ucmp best.key k = .eq → best.seq ≤ s →
        (∀ op ∈ ops, ucmp op.key k = .eq → op.seq ≤ s → op.seq ≤ best.seq) →
        memtableGet ucmp (memtableOfOps ucmp ops) k s
          = .ret (some (match best.kind with
              | ValueType.Value => Except.ok best.value
              | ValueType.Deletion => Except.error (DBError.notFound "")))) := by
  have hperm := opSort_perm ucmp ops
  have hmem : ∀ y : AddOp, y ∈ opSort ucmp ops ↔ y ∈ ops := fun y => hperm.mem_iff
  have hwfs : ∀ y ∈ opSort ucmp ops, y.wf := fun y hy => hwf y ((hmem y).mp hy)
  have hklen : ∀ y ∈ opSort ucmp ops, y.key.length + 8 < 2 ^ 32 :=
    fun y hy => (hwfs y hy).2.1
  have htable : memtableOfOps ucmp ops = (opSort ucmp ops).map AddOp.encode :=
    memtable_fold_eq ucmp ops fun op hop => (hwf op hop).2.1
  have hne : ops.Pairwise fun a b => opCmp ucmp a b ≠ .eq := by
    refine hdist.imp_of_mem ?_
    intro a b ha hb hnd heq
    have h := (opCmp_eq_iff hL a b (hwf a ha).1 (hwf b hb).1).mp heq
    exact hnd ⟨h.1, h.2.1⟩
  have hsorted := opSort_sorted ucmp hL ops hne
  have hseek0 : skiplistSeek (memtableKeyComparator ucmp) (lookupMemtableKey k s)
      ((opSort ucmp ops).map AddOp.encode)
      = ((opSort ucmp ops).find? fun a => opCmpLookup ucmp a k s != Ordering.lt).map
          AddOp.encode :=
    skiplistSeek_map_encode ucmp (opSort ucmp ops) k s hklen hk
  constructor
  · intro hnone
    rw [htable]
    cases hf : (opSort ucmp ops).find? (fun a => opCmpLookup ucmp a k s != Ordering.lt) with
    | none =>
      apply memtableGet_seek_none
      rw [hseek0, hf]
      rfl
    | some e =>
      have hemem : e ∈ ops := (hmem e).mp (List.mem_of_find?_eq_some hf)
      have hptrue := List.find?_some hf
      have hpred : opCmpLookup ucmp e k s ≠ .lt := (bne_lt_true_iff _).mp hptrue
      have hkeyne : ucmp e.key k ≠ .eq := by
        intro hkeq
        apply hnone e hemem hkeq
        have hswap : (compare e.tag (packTag s VALUE_TYPE_FOR_SEEK)).swap ≠ .lt := by
          unfold opCmpLookup at hpred
          rwa [if_pos hkeq] at hpred
        have hng : compare e.tag (packTag s VALUE_TYPE_FOR_SEEK) ≠ .gt := by
          intro h
          exact hswap (by rw [h]; rfl)
        have hle : e.tag ≤ packTag s VALUE_TYPE_FOR_SEEK := by
          rcases Nat.lt_trichotomy e.tag (packTag s VALUE_TYPE_FOR_SEEK) with h | h | h
          · omega
          · omega
          · exact absurd (Nat.compare_eq_gt.mpr h) hng
        exact (tag_le_lookup_iff e (hwf e hemem).1 s hs).mp hle
      rw [memtableGet_found ucmp _ k s e (hwf e hemem) (by rw [hseek0, hf]; rfl),
        if_neg hkeyne]
  · intro best hbest hkeq hble hmax
    have hbk : best.key = k := (hL.eq_iff _ _).mp hkeq
    have hbests : best ∈ opSort ucmp ops := (hmem best).mpr hbest
    have hptrue : (opCmpLookup ucmp best k s != Ordering.lt) = true := by
      rw [bne_lt_true_iff]
      unfold opCmpLookup
      rw [if_pos hkeq]
      have hle : best.tag ≤ packTag s VALUE_TYPE_FOR_SEEK :=
        (tag_le_lookup_iff best (hwf best hbest).1 s hs).mpr hble
      intro habs
      rw [ordering_swap_eq_lt, Nat.compare_eq_gt] at habs
      omega
    have hother : ∀ x ∈ opSort ucmp ops,
        opCmp ucmp x best = .lt → (opCmpLookup ucmp x k s != Ordering.lt) = false := by
      intro x hx hxlt
      rw [bne_lt_false_iff]
      have hxmem : x ∈ ops := (hmem x).mp hx
      unfold opCmp at hxlt
      by_cases hxb : ucmp x.key best.key = .eq
      · have hxk : x.key = k := ((hL.eq_iff _ _).mp hxb).trans hbk
        rw [if_pos hxb, ordering_swap_eq_lt, Nat.compare_eq_gt] at hxlt
        unfold opCmpLookup
        rw [if_pos ((hL.eq_iff _ _).mpr hxk), ordering_swap_eq_lt, Nat.compare_eq_gt]
        by_contra hnlt
        push_neg at hnlt
        have hxle : x.seq ≤ s := (tag_le_lookup_iff x (hwf x hxmem).1 s hs).mp hnlt
        have hxbs : x.seq ≤ best.seq := hmax x hxmem ((hL.eq_iff _ _).mpr hxk) hxle
        have hxt := x.tag_eq (hwf x hxmem).1
        have hbt := best.tag_eq (hwf best hbest).1
        have h1 := toByte_le_one x.kind
        have h2 := toByte_le_one best.kind
        norm_num at hxt hbt
        have hseqeq : x.seq = best.seq := by omega
        have hxnb : x ≠ best := by
          intro h
          rw [h] at hxlt
          exact absurd hxlt (lt_irrefl _)
        have hsym : Symmetric fun a b : AddOp => ¬(a.key = b.key ∧ a.seq = b.seq) :=
          fun a b hab hc => hab ⟨hc.1.symm, hc.2.symm⟩
        exact List.Pairwise.forall hsym hdist hxmem hbest hxnb ⟨hxk.trans hbk.symm, hseqeq⟩
      · rw [if_neg hxb] at hxlt
        unfold opCmpLookup
        have hxkk : ucmp x.key k = .lt := by rw [← hbk]; exact hxlt
        rw [if_neg (by simp [hxkk]), hxkk]
    have hf := find?_first_sorted hsorted best hbests hptrue hother
    rw [htable, memtableGet_found ucmp _ k s best (hwf best hbest)
      (by rw [hseek0, hf]; rfl), if_pos hkeq]

instance AddOp.wfDecidable (op : AddOp) : Decidable op.wf :=
  inferInstanceAs (Decidable (_ ∧ _ ∧ _))

/-- C1 applied with the bytewise comparator at a concrete memtable. -/
theorem claim_C1_memtable_get_witness :
    memtableGet bytewiseCompare (memtableOfOps bytewiseCompare
        [⟨10, .Value, [1], [42]⟩, ⟨20, .Deletion, [1], []⟩, ⟨5, .Value, [2], [7]⟩])
      [1] 15 = .ret (some (.ok [42]))
    ∧ memtableGet bytewiseCompare (memtableOfOps bytewiseCompare
        [⟨10, .Value, [1], [42]⟩]) [3] 15 = .ret none := by
  constructor
  · exact (claim_C1_memtable_get bytewiseCompare bytewiseCompare_lawful
      [⟨10, .Value, [1], [42]⟩, ⟨20, .Deletion, [1], []⟩, ⟨5, .Value, [2], [7]⟩]
      (by decide) (by decide) [1] 15 (by decide)
      (by decide)).2 ⟨10, .Value, [1], [42]⟩ (by decide) (by decide) (by decide)
      (by decide)
  · exact (claim_C1_memtable_get bytewiseCompare bytewiseCompare_lawful
      [⟨10, .Value, [1], [42]⟩] (by decide) (by decide) [3] 15 (by decide)
      (by decide)).1 (by decide)

/-! ## `src/db/write_batch.rs`

A write batch is its byte buffer `rep`:
`fixed64(sequence) || fixed32(count) || records`. -/

/-- `WriteBatch::new`: a 12-byte zero header. -/
def writeBatchNew : List Nat := List.replicate 12 0

/-- `WriteBatch::count`. -/
def writeBatchCount (rep : List Nat) : Nat := decodeFixed32 (rep.drop 8)

/-- `WriteBatch::set_count`: overwrite bytes 8..12. -/
def writeBatchSetCount (rep : List Nat) (n : Nat) : List Nat :=
  rep.take 8 ++ encodeFixed32 n ++ rep.drop 12

/-- `WriteBatch::sequence`. -/
def writeBatchSequence (rep : List Nat) : Nat := decodeFixed64 (rep.take 8)

/-- `WriteBatch::set_sequence`: overwrite bytes 0..8. -/
def writeBatchSetSequence (rep : List Nat) (seq : Nat) : List Nat :=
  encodeFixed64 seq ++ rep.drop 8

/-- `WriteBatch::put`. -/
def writeBatchPut (rep key value : List Nat) : List Nat :=
  extendSizePrefixedSlice
    (extendSizePrefixedSlice
      (writeBatchSetCount rep (writeBatchCount rep + 1) ++ [ValueType.Value.toByte]) key)
    value

/-- `WriteBatch::delete`. -/
def writeBatchDelete (rep key : List Nat) : List Nat :=
  extendSizePrefixedSlice
    (writeBatchSetCount rep (writeBatchCount rep + 1) ++ [ValueType.Deletion.toByte]) key

/-- `WriteBatch::clear`. -/
def writeBatchClear : List Nat := List.replicate 12 0

/-- `WriteBatch::append`: sum the counts, concatenate the records. -/
def writeBatchAppend (rep source : List Nat) : List Nat :=
  writeBatchSetCount rep (writeBatchCount rep + writeBatchCount source) ++ source.drop 12

/-- A `WriteBatchHandler`: state-passing `put`/`delete` callbacks. -/
structure WBHandler (σ : Type) where
  put : σ → List Nat → List Nat → σ
  delete : σ → List Nat → σ

/-- The record-walking loop of `WriteBatch::iterate`
(`while index != rep.len()`), fuelled by the iteration count: every
iteration consumes at least the tag byte, so fuel equal to the remaining
byte count always suffices (the fuel-exhausted case is unreachable).
Returns the error if any, the handler state and the `found` counter.
A tag byte outside `{0, 1}` panics in `ValueType::from`. -/
def wbIterateGo {σ : Type} (hdl : WBHandler σ) :
    Nat → List Nat → Nat → σ → Panics (Option DBError × σ × Nat)
  | _, [], found, st => .ret (none, st, found)
  | 0, _ :: _, _, _ => .panic
  | fuel + 1, tag :: rest, found, st =>
    match ValueType.fromByte tag with
    | none => .panic
    | some ValueType.Value =>
      match decodeSizePrefixedSlice rest with
      | none => .ret (some (DBError.corruption "bad WriteBatch Put"), st, found + 1)
      | some (key, off1) =>
        match decodeSizePrefixedSlice (rest.drop off1) with
        | none => .ret (some (DBError.corruption "bad WriteBatch Put"), st, found + 1)
        | some (value, off2) =>
          wbIterateGo hdl fuel ((rest.drop off1).drop off2) (found + 1)
            (hdl.put st key value)
    | some ValueType.Deletion =>
      match decodeSizePrefixedSlice rest with
      | none => .ret (some (DBError.corruption "bad WriteBatch Delete"), st, found + 1)
      | some (key, off1) =>
        wbIterateGo hdl fuel (rest.drop off1) (found + 1) (hdl.delete st key)

/-- `WriteBatch::iterate`: size check, record walk, count check.
(`found` is compared against the header count as in the source.) -/
def writeBatchIterate {σ : Type} (hdl : WBHandler σ) (rep : List Nat) (st : σ) :
    Panics (Option DBError × σ) :=
  if rep.length < 12 then
    .ret (some (DBError.corruption "malformed WriteBatch (too small)"), st)
  else
    match wbIterateGo hdl (rep.length - 12) (rep.drop 12) 0 st with
    | .panic => .panic
    | .ret (some e, st', _) => .ret (some e, st')
    | .ret (none, st', found) =>
      if found ≠ writeBatchCount rep then
        .ret (some (DBError.corruption "WriteBatch has wrong count"), st')
      else .ret (none, st')

/-- `MemTableInserter`: each dispatched operation adds to the memtable at
the current sequence, then increments it. -/
def memTableInserter (ucmp : List Nat → List Nat → Ordering) :
    WBHandler (Nat × List (List Nat)) where
  put := fun st key value =>
    (st.1 + 1, memtableAdd ucmp st.2 st.1 ValueType.Value key value)
  delete := fun st key =>
    (st.1 + 1, memtableAdd ucmp st.2 st.1 ValueType.Deletion key [])

/-- `WriteBatch::insert_into`. -/
def writeBatchInsertInto (ucmp : List Nat → List Nat → Ordering) (rep : List Nat)
    (mem : List (List Nat)) : Panics (Option DBError × (Nat × List (List Nat))) :=
  writeBatchIterate (memTableInserter ucmp) rep (writeBatchSequence rep, mem)

/-- A batch operation, for stating round-trip facts. -/
inductive WBOp where
  | put (key value : List Nat) : WBOp
  | delete (key : List Nat) : WBOp
  deriving DecidableEq, Repr

/-- A handler that records the dispatched operations in order. -/
def opCollector : WBHandler (List WBOp) where
  put := fun l k v => l ++ [WBOp.put k v]
  delete := fun l k => l ++ [WBOp.delete k]

/-- Append one operation through the `WriteBatch` API. -/
def wbApply (rep : List Nat) : WBOp → List Nat
  | .put k v => writeBatchPut rep k v
  | .delete k => writeBatchDelete rep k

/-- The batch built by `new`, `set_sequence(S)` and the given ops. -/
def wbOfOps (ops : List WBOp) (S : Nat) : List Nat :=
  ops.foldl wbApply (writeBatchSetSequence writeBatchNew S)

/-! ### Write-batch buffer facts -/

theorem decodeFixed32_encodeFixed32_append (x : Nat) (rest : List Nat) :
    decodeFixed32 (encodeFixed32 x ++ rest) = x % 2 ^ 32 := by
  simp only [decodeFixed32, encodeFixed32, List.cons_append, List.nil_append, List.getD]
  norm_num
  omega

/-- The bytes `put`/`delete` append for one record. -/
def wbRecord : WBOp → List Nat
  | .put k v => ValueType.Value.toByte :: (encodeVarint32 (k.length % 2 ^ 32)
      ++ (k ++ (encodeVarint32 (v.length % 2 ^ 32) ++ v)))
  | .delete k => ValueType.Deletion.toByte :: (encodeVarint32 (k.length % 2 ^ 32) ++ k)

/-- Well-formedness of an op: lengths fit the `u32` prefixes. -/
def WBOp.wf : WBOp → Prop
  | .put k v => k.length < 2 ^ 32 ∧ v.length < 2 ^ 32
  | .delete k => k.length < 2 ^ 32

instance WBOp.wfDecidable (op : WBOp) : Decidable op.wf := by
  cases op with
  | put k v => exact inferInstanceAs (Decidable (_ ∧ _))
  | delete k => exact inferInstanceAs (Decidable (_ < _))

theorem wbBuild (S : Nat) (ops : List WBOp) :
    ∀ (c : Nat) (R : List Nat), c + ops.length < 2 ^ 32 →
    ops.foldl wbApply (encodeFixed64 S ++ (encodeFixed32 c ++ R))
      = encodeFixed64 S ++ (encodeFixed32 (c + ops.length)
        ++ (R ++ (ops.map wbRecord).flatten)) := by
  induction ops with
  | nil => intro c R _; simp
  | cons op rest ih =>
    intro c R hc
    simp only [List.foldl_cons]
    have hcount : writeBatchCount (encodeFixed64 S ++ (encodeFixed32 c ++ R)) = c := by
      unfold writeBatchCount
      rw [show (8 : Nat) = (encodeFixed64 S).length from (encodeFixed64_length S).symm,
        List.drop_left, decodeFixed32_encodeFixed32_append]
      exact Nat.mod_eq_of_lt (by omega)
    have htake : (encodeFixed64 S ++ (encodeFixed32 c ++ R)).take 8 = encodeFixed64 S := by
      rw [show (8 : Nat) = (encodeFixed64 S).length from (encodeFixed64_length S).symm,
        List.take_left]
    have hdrop : (encodeFixed64 S ++ (encodeFixed32 c ++ R)).drop 12 = R := by
      rw [show (12 : Nat) = (encodeFixed64 S).length + 4 from by rw [encodeFixed64_length],
        List.drop_append,
        show (4 : Nat) = (encodeFixed32 c).length from (encodeFixed32_length c).symm,
        List.drop_left]
    have hset : writeBatchSetCount (encodeFixed64 S ++ (encodeFixed32 c ++ R)) (c + 1)
        = encodeFixed64 S ++ (encodeFixed32 (c + 1) ++ R) := by
      unfold writeBatchSetCount
      rw [htake, hdrop]
      simp [List.append_assoc]
    have happly : wbApply (encodeFixed64 S ++ (encodeFixed32 c ++ R)) op
        = encodeFixed64 S ++ (encodeFixed32 (c + 1) ++ (R ++ wbRecord op)) := by
      cases op with
      | put k v =>
        unfold wbApply writeBatchPut extendSizePrefixedSlice
        rw [hcount, hset, wbRecord]
        simp [List.append_assoc]
      | delete k =>
        unfold wbApply writeBatchDelete extendSizePrefixedSlice
        rw [hcount, hset, wbRecord]
        simp [List.append_assoc]
    rw [happly, ih (c + 1) (R ++ wbRecord op)
      (by simp only [List.length_cons] at hc; omega)]
    simp [List.append_assoc, Nat.add_assoc, Nat.add_comm, Nat.add_left_comm]

/-- A batch built through the API has the canonical layout
`fixed64(S) || fixed32(count) || records`. -/
theorem wbOfOps_shape (ops : List WBOp) (S : Nat) (hlen : ops.length < 2 ^ 32) :
    wbOfOps ops S = encodeFixed64 S ++ (encodeFixed32 ops.length
      ++ (ops.map wbRecord).flatten) := by
  unfold wbOfOps writeBatchSetSequence writeBatchNew
  have hinit : encodeFixed64 S ++ (List.replicate 12 0).drop 8
      = encodeFixed64 S ++ (encodeFixed32 0 ++ []) := by
    rfl
  rw [hinit, wbBuild S ops 0 [] (by omega)]
  simp

/-! ### Decoding write-batch records -/

theorem decodeSPS_encoded (k rest : List Nat) (hk : k.length < 2 ^ 32) :
    decodeSizePrefixedSlice (encodeVarint32 (k.length % 2 ^ 32) ++ (k ++ rest))
      = some (k, varintSize k.length + k.length) := by
  unfold decodeSizePrefixedSlice
  rw [Nat.mod_eq_of_lt hk, decodeVarint32_encode _ _ hk]
  dsimp only
  have hlen : varintSize k.length + k.length
      ≤ (encodeVarint32 k.length ++ (k ++ rest)).length := by
    simp only [List.length_append, encodeVarint32_length k.length hk]
    omega
  rw [if_pos hlen, ← encodeVarint32_length k.length hk, List.drop_left, List.take_left]

theorem drop_sps (k rest : List Nat) (hk : k.length < 2 ^ 32) :
    (encodeVarint32 (k.length % 2 ^ 32) ++ (k ++ rest)).drop
      (varintSize k.length + k.length) = rest := by
  rw [Nat.mod_eq_of_lt hk, ← List.drop_drop, ← encodeVarint32_length k.length hk,
    List.drop_left, List.drop_left]

/-- Folding a handler over ops directly. -/
def wbFold {σ : Type} (hdl : WBHandler σ) (st : σ) (ops : List WBOp) : σ :=
  ops.foldl (fun st op => match op with
    | .put k v => hdl.put st k v
    | .delete k => hdl.delete st k) st

/-- The record loop dispatches a block of well-formed records in order and
continues on the suffix with the counters advanced. -/
theorem wbIterateGo_flatten_suffix {σ : Type} (hdl : WBHandler σ) (ops : List WBOp)
    (hwf : ∀ op ∈ ops, op.wf) :
    ∀ (f found : Nat) (st : σ) (suffix : List Nat),
    wbIterateGo hdl (ops.length + f) ((ops.map wbRecord).flatten ++ suffix) found st
      = wbIterateGo hdl f suffix (found + ops.length) (wbFold hdl st ops) := by
  induction ops with
  | nil => intro f found st suffix; simp [wbFold]
  | cons op rest ih =>
    intro f found st suffix
    have hfuel : (op :: rest).length + f = (rest.length + f) + 1 := by
      simp [List.length_cons]
      omega
    cases op with
    | put k v =>
      obtain ⟨hk, hv⟩ : k.length < 2 ^ 32 ∧ v.length < 2 ^ 32 :=
        hwf _ (List.mem_cons_self _ _)
      have hbytes : (((WBOp.put k v :: rest).map wbRecord).flatten ++ suffix)
          = ValueType.Value.toByte :: (encodeVarint32 (k.length % 2 ^ 32)
            ++ (k ++ (encodeVarint32 (v.length % 2 ^ 32)
              ++ (v ++ ((rest.map wbRecord).flatten ++ suffix))))) := by
        simp [wbRecord, List.append_assoc]
      rw [hbytes, hfuel]
      rw [show ValueType.Value.toByte = 1 from rfl]
      simp only [wbIterateGo, show ValueType.fromByte 1 = some ValueType.Value from rfl]
      rw [decodeSPS_encoded k _ hk]
      dsimp only
      rw [drop_sps k _ hk, decodeSPS_encoded v _ hv]
      dsimp only
      rw [drop_sps v _ hv]
      rw [ih (fun o ho => hwf o (List.mem_cons_of_mem _ ho)) f (found + 1)
        (hdl.put st k v) suffix]
      have hfound : found + 1 + rest.length = found + (WBOp.put k v :: rest).length := by
        simp [List.length_cons]
        omega
      rw [hfound]
      rfl
    | delete k =>
      have hk : k.length < 2 ^ 32 := hwf _ (List.mem_cons_self _ _)
      have hbytes : (((WBOp.delete k :: rest).map wbRecord).flatten ++ suffix)
          = ValueType.Deletion.toByte :: (encodeVarint32 (k.length % 2 ^ 32)
            ++ (k ++ ((rest.map wbRecord).flatten ++ suffix))) := by
        simp [wbRecord, List.append_assoc]
      rw [hbytes, hfuel]
      rw [show ValueType.Deletion.toByte = 0 from rfl]
      simp only [wbIterateGo, show ValueType.fromByte 0 = some ValueType.Deletion from rfl]
      rw [decodeSPS_encoded k _ hk]
      dsimp only
      rw [drop_sps k _ hk]
      rw [ih (fun o ho => hwf o (List.mem_cons_of_mem _ ho)) f (found + 1)
        (hdl.delete st k) suffix]
      have hfound : found + 1 + rest.length = found + (WBOp.delete k :: rest).length := by
        simp [List.length_cons]
        omega
      rw [hfound]
      rfl

/-- Dispatching all records with nothing following. -/
theorem wbIterateGo_flatten {σ : Type} (hdl : WBHandler σ) (ops : List WBOp)
    (hwf : ∀ op ∈ ops, op.wf) (f found : Nat) (st : σ) :
    wbIterateGo hdl (ops.length + f) ((ops.map wbRecord).flatten) found st
      = .ret (none, wbFold hdl st ops, found + ops.length) := by
  have h := wbIterateGo_flatten_suffix hdl ops hwf f found st []
  rw [List.append_nil] at h
  rw [h]
  cases f <;> rfl

theorem wbFold_collector (ops : List WBOp) :
    ∀ acc : List WBOp, wbFold opCollector acc ops = acc ++ ops := by
  induction ops with
  | nil => intro acc; simp [wbFold]
  | cons op rest ih =>
    intro acc
    cases op with
    | put k v =>
      simp only [wbFold, List.foldl_cons]
      have := ih (acc ++ [WBOp.put k v])
      simp only [wbFold] at this
      rw [show opCollector.put acc k v = acc ++ [WBOp.put k v] from rfl] at *
      rw [this]
      simp
    | delete k =>
      simp only [wbFold, List.foldl_cons]
      have := ih (acc ++ [WBOp.delete k])
      simp only [wbFold] at this
      rw [show opCollector.delete acc k = acc ++ [WBOp.delete k] from rfl, this]
      simp

theorem flatten_records_ge (ops : List WBOp) :
    ops.length ≤ ((ops.map wbRecord).flatten).length := by
  induction ops with
  | nil => simp
  | cons op rest ih =>
    rw [List.map_cons, List.flatten_cons, List.length_append, List.length_cons]
    have hpos : 1 ≤ (wbRecord op).length := by
      cases op <;> simp [wbRecord]
    omega

theorem wbOfOps_drop12 (ops : List WBOp) (S : Nat) (hlen : ops.length < 2 ^ 32) :
    (wbOfOps ops S).drop 12 = (ops.map wbRecord).flatten := by
  rw [wbOfOps_shape ops S hlen]
  rw [show (12 : Nat) = (encodeFixed64 S).length + 4 from by rw [encodeFixed64_length],
    List.drop_append,
    show (4 : Nat) = (encodeFixed32 ops.length).length from (encodeFixed32_length _).symm,
    List.drop_left]

theorem wbOfOps_length (ops : List WBOp) (S : Nat) (hlen : ops.length < 2 ^ 32) :
    (wbOfOps ops S).length = 12 + ((ops.map wbRecord).flatten).length := by
  rw [wbOfOps_shape ops S hlen]
  simp [List.length_append, encodeFixed64_length, encodeFixed32_length]
  omega

theorem wbOfOps_count (ops : List WBOp) (S : Nat) (hlen : ops.length < 2 ^ 32) :
    writeBatchCount (wbOfOps ops S) = ops.length := by
  rw [wbOfOps_shape ops S hlen]
  unfold writeBatchCount
  rw [show (8 : Nat) = (encodeFixed64 S).length from (encodeFixed64_length S).symm,
    List.drop_left, decodeFixed32_encodeFixed32_append]
  exact Nat.mod_eq_of_lt hlen

theorem wbOfOps_sequence (ops : List WBOp) (S : Nat) (hlen : ops.length < 2 ^ 32)
    (hS : S < 2 ^ 64) : writeBatchSequence (wbOfOps ops S) = S := by
  rw [wbOfOps_shape ops S hlen]
  unfold writeBatchSequence
  rw [show (8 : Nat) = (encodeFixed64 S).length from (encodeFixed64_length S).symm,
    List.take_left]
  rw [show decodeFixed64 (encodeFixed64 S) = S % 2 ^ 64 from decodeFixed64_encodeFixed64 S]
  exact Nat.mod_eq_of_lt hS

/-- `iterate` on a batch built through the API: every record is
dispatched in order and the result is `Ok`. -/
theorem writeBatchIterate_ofOps {σ : Type} (hdl : WBHandler σ) (ops : List WBOp)
    (S : Nat) (st : σ) (hwf : ∀ op ∈ ops, op.wf) (hlen : ops.length < 2 ^ 32) :
    writeBatchIterate hdl (wbOfOps ops S) st = .ret (none, wbFold hdl st ops) := by
  unfold writeBatchIterate
  have hL := wbOfOps_length ops S hlen
  rw [if_neg (by omega)]
  rw [wbOfOps_drop12 ops S hlen]
  have hge := flatten_records_ge ops
  have hfuel : (wbOfOps ops S).length - 12
      = ops.length + (((ops.map wbRecord).flatten).length - ops.length) := by
    omega
  rw [hfuel, wbIterateGo_flatten hdl ops hwf _ 0 st]
  rw [wbOfOps_count ops S hlen]
  simp

/-- C4: `insert_into` replays a well-formed batch's records into the
memtable in buffer order, record `i` added at sequence `S + i` — as a
`Value` with its value for a put, as a `Deletion` with empty value for a
delete; and the spec's concrete batch (`put(foo,bar)`, `delete(box)`,
`put(baz,boo)` at sequence 100) yields a memtable that iterates as
`Put(baz,boo)@102, Delete(box)@101, Put(foo,bar)@100`. -/
theorem claim_C4_batch_replay :
    (∀ (ucmp : List Nat → List Nat → Ordering) (ops : List WBOp) (S : Nat)
      (mem : List (List Nat)),
      (∀ op ∈ ops, op.wf) → ops.length < 2 ^ 32 → S < 2 ^ 64 →
      writeBatchInsertInto ucmp (wbOfOps ops S) mem
        = .ret (none, ops.foldl (fun st op => match op with
            | WBOp.put k v => (st.1 + 1, memtableAdd ucmp st.2 st.1 ValueType.Value k v)
            | WBOp.delete k => (st.1 + 1, memtableAdd ucmp st.2 st.1 ValueType.Deletion k []))
          (S, mem)))
    ∧ (writeBatchInsertInto bytewiseCompare
        (writeBatchSetSequence
          (writeBatchPut
            (writeBatchDelete (writeBatchPut writeBatchNew [102, 111, 111] [98, 97, 114])
              [98, 111, 120])
            [98, 97, 122] [98, 111, 111])
          100) []
        = .ret (none, (103,
          [encodeEntry 102 ValueType.Value [98, 97, 122] [98, 111, 111],
           encodeEntry 101 ValueType.Deletion [98, 111, 120] [],
           encodeEntry 100 ValueType.Value [102, 111, 111] [98, 97, 114]]))
      ∧ ([encodeEntry 102 ValueType.Value [98, 97, 122] [98, 111, 111],
          encodeEntry 101 ValueType.Deletion [98, 111, 120] [],
          encodeEntry 100 ValueType.Value [102, 111, 111] [98, 97, 114]].map
            fun e => (entryInternalKey e, entryValue e))
        = [(appendInternalKey [] [98, 97, 122] 102 ValueType.Value, [98, 111, 111]),
           (appendInternalKey [] [98, 111, 120] 101 ValueType.Deletion, []),
           (appendInternalKey [] [102, 111, 111] 100 ValueType.Value, [98, 97, 114])]) := by
  constructor
  · intro ucmp ops S mem hwf hlen hS
    unfold writeBatchInsertInto
    rw [wbOfOps_sequence ops S hlen hS,
      writeBatchIterate_ofOps (memTableInserter ucmp) ops S (S, mem) hwf hlen]
    rfl
  · constructor
    · decide
    · decide

/-- C4's general statement applied at a concrete one-record batch. -/
theorem claim_C4_batch_replay_witness :
    writeBatchInsertInto bytewiseCompare (wbOfOps [WBOp.put [1] [2]] 7) []
      = .ret (none, ([WBOp.put [1] [2]].foldl (fun st op => match op with
          | WBOp.put k v => (st.1 + 1, memtableAdd bytewiseCompare st.2 st.1
              ValueType.Value k v)
          | WBOp.delete k => (st.1 + 1, memtableAdd bytewiseCompare st.2 st.1
              ValueType.Deletion k []))
        (7, []))) :=
  claim_C4_batch_replay.1 bytewiseCompare [WBOp.put [1] [2]] 7 []
    (by decide) (by decide) (by decide)

/-! ### Write-batch failure modes -/

/-- The record loop only ever reports the two `bad WriteBatch` messages. -/
theorem wbIterateGo_err {σ : Type} (hdl : WBHandler σ) :
    ∀ (fuel : Nat) (input : List Nat) (found : Nat) (st : σ) (e : DBError) (st' : σ)
      (f' : Nat),
    wbIterateGo hdl fuel input found st = .ret (some e, st', f') →
    e = DBError.corruption "bad WriteBatch Put"
      ∨ e = DBError.corruption "bad WriteBatch Delete" := by
  intro fuel
  induction fuel with
  | zero =>
    intro input found st e st' f' h
    cases input with
    | nil => simp [wbIterateGo] at h
    | cons tag rest => simp [wbIterateGo] at h
  | succ n ih =>
    intro input found st e st' f' h
    cases input with
    | nil => simp [wbIterateGo] at h
    | cons tag rest =>
      simp only [wbIterateGo] at h
      cases hfb : ValueType.fromByte tag with
      | none => rw [hfb] at h; simp at h
      | some t =>
        rw [hfb] at h
        cases t with
        | Value =>
          dsimp only at h
          cases hd1 : decodeSizePrefixedSlice rest with
          | none =>
            rw [hd1] at h
            dsimp only at h
            simp at h
            left
            exact h.1.symm
          | some p1 =>
            obtain ⟨key, off1⟩ := p1
            rw [hd1] at h
            dsimp only at h
            cases hd2 : decodeSizePrefixedSlice (rest.drop off1) with
            | none =>
              rw [hd2] at h
              dsimp only at h
              simp at h
              left
              exact h.1.symm
            | some p2 =>
              obtain ⟨value, off2⟩ := p2
              rw [hd2] at h
              dsimp only at h
              exact ih _ _ _ e st' f' h
        | Deletion =>
          dsimp only at h
          cases hd1 : decodeSizePrefixedSlice rest with
          | none =>
            rw [hd1] at h
            dsimp only at h
            simp at h
            right
            exact h.1.symm
          | some p1 =>
            obtain ⟨key, off1⟩ := p1
            rw [hd1] at h
            dsimp only at h
            exact ih _ _ _ e st' f' h

/-- Decoding a size-prefixed slice cut before its end fails. -/
theorem decodeSPS_take_short (k rest : List Nat) (hk : k.length < 2 ^ 32) (j : Nat)
    (hj : j < varintSize k.length + k.length) :
    decodeSizePrefixedSlice ((encodeVarint32 (k.length % 2 ^ 32) ++ (k ++ rest)).take j)
      = none := by
  rw [Nat.mod_eq_of_lt hk]
  by_cases hjv : j < varintSize k.length
  · have htake : (encodeVarint32 k.length ++ (k ++ rest)).take j
        = (encodeVarint32 k.length).take j := by
      apply List.take_append_of_le_length
      rw [encodeVarint32_length _ hk]
      omega
    rw [htake]
    unfold decodeSizePrefixedSlice
    rw [decodeVarint32_take_none k.length j hk hjv]
  · have hvs : varintSize k.length ≤ j := Nat.not_lt.mp hjv
    have htake : (encodeVarint32 k.length ++ (k ++ rest)).take j
        = encodeVarint32 k.length ++ (k ++ rest).take (j - varintSize k.length) := by
      have h1 := @List.take_append Nat (encodeVarint32 k.length)
        (k ++ rest) (j - varintSize k.length)
      rw [encodeVarint32_length _ hk] at h1
      rw [show varintSize k.length + (j - varintSize k.length) = j from by omega] at h1
      exact h1
    have htake2 : (k ++ rest).take (j - varintSize k.length)
        = k.take (j - varintSize k.length) := by
      apply List.take_append_of_le_length
      omega
    rw [htake, htake2]
    unfold decodeSizePrefixedSlice
    rw [decodeVarint32_encode k.length _ hk]
    dsimp only
    rw [if_neg]
    rw [List.length_append, encodeVarint32_length _ hk, List.length_take]
    omega

/-- The failure message a truncated record produces. -/
def wbBadMsg : WBOp → DBError
  | .put _ _ => DBError.corruption "bad WriteBatch Put"
  | .delete _ => DBError.corruption "bad WriteBatch Delete"

/-- A record with at least its tag byte but cut before its end is
reported as a bad Put/Delete without dispatching. -/
theorem wbIterateGo_truncated {σ : Type} (hdl : WBHandler σ) (op : WBOp) (hop : op.wf)
    (m : Nat) (hm1 : 1 ≤ m) (hm2 : m < (wbRecord op).length) (fuel found : Nat) (st : σ)
    (hfuel : 1 ≤ fuel) :
    wbIterateGo hdl fuel ((wbRecord op).take m) found st
      = .ret (some (wbBadMsg op), st, found + 1) := by
  obtain ⟨f, rfl⟩ : ∃ f, fuel = f + 1 := ⟨fuel - 1, by omega⟩
  obtain ⟨j, rfl⟩ : ∃ j, m = j + 1 := ⟨m - 1, by omega⟩
  cases op with
  | put k v =>
    obtain ⟨hk, hv⟩ : k.length < 2 ^ 32 ∧ v.length < 2 ^ 32 := hop
    simp only [wbRecord, List.take_succ_cons] at hm2 ⊢
    simp only [List.length_cons] at hm2
    simp only [wbIterateGo,
      show ValueType.fromByte ValueType.Value.toByte = some ValueType.Value from rfl]
    by_cases hcut : j < varintSize k.length + k.length
    · rw [decodeSPS_take_short k _ hk j hcut]
      rfl
    · have hvs : varintSize k.length + k.length ≤ j := Nat.not_lt.mp hcut
      have hlen2 : j < varintSize k.length + k.length
          + (encodeVarint32 (v.length % 2 ^ 32) ++ v).length := by
        have h1 : (encodeVarint32 (k.length % 2 ^ 32)
            ++ (k ++ (encodeVarint32 (v.length % 2 ^ 32) ++ v))).length
            = varintSize k.length + k.length
              + (encodeVarint32 (v.length % 2 ^ 32) ++ v).length := by
          rw [Nat.mod_eq_of_lt hk]
          simp [List.length_append, encodeVarint32_length _ hk]
          omega
        omega
      have htake : (encodeVarint32 (k.length % 2 ^ 32)
          ++ (k ++ (encodeVarint32 (v.length % 2 ^ 32) ++ v))).take j
          = encodeVarint32 (k.length % 2 ^ 32)
            ++ (k ++ ((encodeVarint32 (v.length % 2 ^ 32) ++ v).take
              (j - (varintSize k.length + k.length)))) := by
        rw [Nat.mod_eq_of_lt hk]
        have h1 := @List.take_append Nat (encodeVarint32 k.length)
          (k ++ (encodeVarint32 (v.length % 2 ^ 32) ++ v))
          (k.length + (j - (varintSize k.length + k.length)))
        rw [encodeVarint32_length _ hk] at h1
        rw [@List.take_append Nat k (encodeVarint32 (v.length % 2 ^ 32) ++ v)] at h1
        rw [show varintSize k.length
            + (k.length + (j - (varintSize k.length + k.length))) = j from by omega] at h1
        exact h1
      rw [htake, decodeSPS_encoded k _ hk]
      dsimp only
      rw [drop_sps k _ hk]
      have hvx : (encodeVarint32 (v.length % 2 ^ 32) ++ v)
          = encodeVarint32 (v.length % 2 ^ 32) ++ (v ++ []) := by simp
      rw [hvx, decodeSPS_take_short v [] hv _ (by
        rw [hvx] at hlen2
        have : (encodeVarint32 (v.length % 2 ^ 32) ++ (v ++ [])).length
            = varintSize v.length + v.length := by
          rw [Nat.mod_eq_of_lt hv]
          simp [List.length_append, encodeVarint32_length _ hv]
        omega)]
      rfl
  | delete k =>
    have hk : k.length < 2 ^ 32 := hop
    simp only [wbRecord, List.take_succ_cons] at hm2 ⊢
    simp only [List.length_cons] at hm2
    simp only [wbIterateGo,
      show ValueType.fromByte ValueType.Deletion.toByte = some ValueType.Deletion from rfl]
    have hx : encodeVarint32 (k.length % 2 ^ 32) ++ k
        = encodeVarint32 (k.length % 2 ^ 32) ++ (k ++ []) := by simp
    have hcut : j < varintSize k.length + k.length := by
      have : (encodeVarint32 (k.length % 2 ^ 32) ++ k).length
          = varintSize k.length + k.length := by
        rw [Nat.mod_eq_of_lt hk]
        simp [List.length_append, encodeVarint32_length _ hk]
      omega
    rw [hx, decodeSPS_take_short k [] hk j hcut]
    rfl

theorem take_append_ge {α : Type} (A B : List α) (n : Nat) (h : A.length ≤ n) :
    (A ++ B).take n = A ++ B.take (n - A.length) := by
  have h1 := @List.take_append α A B (n - A.length)
  rw [show A.length + (n - A.length) = n from by omega] at h1
  exact h1

/-- `iterate` on a buffer in the canonical `header || body` layout. -/
theorem writeBatchIterate_shape {σ : Type} (hdl : WBHandler σ) (S c : Nat)
    (body : List Nat) (st : σ) :
    writeBatchIterate hdl (encodeFixed64 S ++ (encodeFixed32 c ++ body)) st
      = match wbIterateGo hdl body.length body 0 st with
        | .panic => .panic
        | .ret (some e, st', _) => .ret (some e, st')
        | .ret (none, st', found) =>
          if found ≠ c % 2 ^ 32 then
            .ret (some (DBError.corruption "WriteBatch has wrong count"), st')
          else .ret (none, st') := by
  unfold writeBatchIterate
  have hlen : (encodeFixed64 S ++ (encodeFixed32 c ++ body)).length = 12 + body.length := by
    simp [List.length_append, encodeFixed64_length, encodeFixed32_length]
    omega
  rw [if_neg (by omega)]
  have hdrop : (encodeFixed64 S ++ (encodeFixed32 c ++ body)).drop 12 = body := by
    rw [show (12 : Nat) = (encodeFixed64 S).length + 4 from by rw [encodeFixed64_length],
      List.drop_append,
      show (4 : Nat) = (encodeFixed32 c).length from (encodeFixed32_length c).symm,
      List.drop_left]
  have hcount : writeBatchCount (encodeFixed64 S ++ (encodeFixed32 c ++ body))
      = c % 2 ^ 32 := by
    unfold writeBatchCount
    rw [show (8 : Nat) = (encodeFixed64 S).length from (encodeFixed64_length S).symm,
      List.drop_left, decodeFixed32_encodeFixed32_append]
  rw [hdrop, hlen, hcount]
  rw [show 12 + body.length - 12 = body.length from by omega]

/-- Truncating the final record of a built batch (keeping at least its
tag byte) makes `iterate` dispatch exactly the earlier records and then
return the corresponding `bad WriteBatch` corruption. -/
theorem writeBatchIterate_truncated {σ : Type} (hdl : WBHandler σ) (ops : List WBOp)
    (op : WBOp) (S j : Nat) (st : σ) (hwf : ∀ o ∈ ops, o.wf) (hop : op.wf)
    (hlen : ops.length + 1 < 2 ^ 32) (hj1 : 1 ≤ j) (hj2 : j < (wbRecord op).length) :
    writeBatchIterate hdl ((wbOfOps (ops ++ [op]) S).take
        ((wbOfOps (ops ++ [op]) S).length - j)) st
      = .ret (some (wbBadMsg op), wbFold hdl st ops) := by
  have hlen' : (ops ++ [op]).length < 2 ^ 32 := by
    rw [List.length_append]
    simpa using hlen
  have hflat : ((ops ++ [op]).map wbRecord).flatten
      = (ops.map wbRecord).flatten ++ wbRecord op := by
    simp
  have hshape := wbOfOps_shape (ops ++ [op]) S hlen'
  rw [hflat] at hshape
  have hLen := wbOfOps_length (ops ++ [op]) S hlen'
  rw [hflat, List.length_append] at hLen
  obtain ⟨m, hmj⟩ : ∃ m, (wbRecord op).length - j = m := ⟨_, rfl⟩
  have hm1 : 1 ≤ m := by omega
  have hm2 : m < (wbRecord op).length := by omega
  have hge := flatten_records_ge ops
  set flat := (ops.map wbRecord).flatten with hflatdef
  have htklen : ((wbRecord op).take m).length = m := by
    rw [List.length_take]
    exact Nat.min_eq_left (Nat.le_of_lt hm2)
  have hcut : (wbOfOps (ops ++ [op]) S).length - j = 12 + (flat.length + m) := by omega
  have htake : (wbOfOps (ops ++ [op]) S).take (12 + (flat.length + m))
      = encodeFixed64 S ++ (encodeFixed32 (ops ++ [op]).length
        ++ (flat ++ (wbRecord op).take m)) := by
    rw [hshape, take_append_ge _ _ _ (by rw [encodeFixed64_length]; omega),
      encodeFixed64_length,
      show 12 + (flat.length + m) - 8 = 4 + (flat.length + m) from by omega,
      take_append_ge _ _ _ (by rw [encodeFixed32_length]; omega),
      encodeFixed32_length,
      show 4 + (flat.length + m) - 4 = flat.length + m from by omega,
      take_append_ge _ _ _ (by omega),
      show flat.length + m - flat.length = m from by omega]
  rw [hcut, htake, writeBatchIterate_shape]
  have hfuel : (flat ++ (wbRecord op).take m).length
      = ops.length + (flat.length + m - ops.length) := by
    rw [List.length_append, htklen]
    omega
  rw [hfuel, wbIterateGo_flatten_suffix hdl ops hwf _ 0 st ((wbRecord op).take m)]
  rw [wbIterateGo_truncated hdl op hop m hm1 hm2 _ _ _ (by omega)]

/-- `iterate` reports `wrong count` when the header count is anything
other than the number of records, after dispatching all of them. -/
theorem writeBatchIterate_wrongCount {σ : Type} (hdl : WBHandler σ) (ops : List WBOp)
    (S n : Nat) (st : σ) (hwf : ∀ o ∈ ops, o.wf) (hlen : ops.length < 2 ^ 32)
    (hn : n < 2 ^ 32) (hne : n ≠ ops.length) :
    writeBatchIterate hdl (writeBatchSetCount (wbOfOps ops S) n) st
      = .ret (some (DBError.corruption "WriteBatch has wrong count"), wbFold hdl st ops) := by
  have hset : writeBatchSetCount (wbOfOps ops S) n
      = encodeFixed64 S ++ (encodeFixed32 n ++ (ops.map wbRecord).flatten) := by
    unfold writeBatchSetCount
    rw [wbOfOps_shape ops S hlen]
    rw [show (8 : Nat) = (encodeFixed64 S).length from (encodeFixed64_length S).symm,
      List.take_left]
    rw [show (12 : Nat) = (encodeFixed64 S).length + 4 from by rw [encodeFixed64_length],
      List.drop_append,
      show (4 : Nat) = (encodeFixed32 ops.length).length from (encodeFixed32_length _).symm,
      List.drop_left]
    simp [List.append_assoc]
  rw [hset, writeBatchIterate_shape]
  have hge := flatten_records_ge ops
  rw [show ((ops.map wbRecord).flatten).length
      = ops.length + (((ops.map wbRecord).flatten).length - ops.length) from by omega]
  rw [wbIterateGo_flatten hdl ops hwf _ 0 st]
  rw [Nat.mod_eq_of_lt hn]
  simp only [Nat.zero_add]
  rw [if_pos (by omega)]

/-- `iterate` reports the `too small` corruption exactly on buffers
shorter than the 12-byte header. -/
theorem writeBatchIterate_tooSmall_iff {σ : Type} (hdl : WBHandler σ) (rep : List Nat)
    (st : σ) :
    writeBatchIterate hdl rep st
        = .ret (some (DBError.corruption "malformed WriteBatch (too small)"), st)
      ↔ rep.length < 12 := by
  constructor
  · intro h
    by_contra hge
    unfold writeBatchIterate at h
    rw [if_neg hge] at h
    cases hgo : wbIterateGo hdl (rep.length - 12) (rep.drop 12) 0 st with
    | panic => rw [hgo] at h; cases h
    | ret r =>
      obtain ⟨e?, st', f'⟩ := r
      rw [hgo] at h
      cases e? with
      | some e =>
        dsimp only at h
        have hinj : e = DBError.corruption "malformed WriteBatch (too small)" := by
          cases h
          rfl
        rcases wbIterateGo_err hdl _ _ _ _ _ _ _ hgo with he | he <;> rw [he] at hinj <;>
          simp at hinj
      | none =>
        dsimp only at h
        by_cases hc : f' ≠ writeBatchCount rep
        · rw [if_pos hc] at h
          simp at h
        · rw [if_neg hc] at h
          simp at h
  · intro h
    unfold writeBatchIterate
    rw [if_pos h]

/-- C5 (amended): `iterate` reports the `malformed WriteBatch (too small)`
corruption exactly on buffers shorter than the 12-byte header; truncating
the final record of a built batch while keeping at least its tag byte
dispatches every earlier record to the handler and then reports
`bad WriteBatch Put` or `bad WriteBatch Delete` for the cut record;
setting the header count to anything other than the number of records
dispatches all records and reports `WriteBatch has wrong count`; an intact
built batch returns `Ok` after dispatching its records in order — but the
original "otherwise returns Ok" does not hold for arbitrary byte buffers,
since a record tag byte outside 0 and 1 panics (see the counterexample).
In particular the spec's concrete batch `put(foo, bar)`, `delete(box)` at
sequence 200, cut by its final byte, replays `Put(foo, bar)@200` into the
memtable and then reports the `bad WriteBatch Delete` corruption. -/
theorem claim_C5_iterate_errors {σ : Type} (hdl : WBHandler σ) (rep : List Nat) (st : σ)
    (ops : List WBOp) (op : WBOp) (S j n : Nat)
    (hwf : ∀ o ∈ ops, o.wf) (hop : op.wf) (hlen : ops.length + 1 < 2 ^ 32)
    (hj1 : 1 ≤ j) (hj2 : j < (wbRecord op).length) (hn : n < 2 ^ 32)
    (hne : n ≠ ops.length) :
    (writeBatchIterate hdl rep st
        = .ret (some (DBError.corruption "malformed WriteBatch (too small)"), st)
      ↔ rep.length < 12)
    ∧ writeBatchIterate hdl ((wbOfOps (ops ++ [op]) S).take
          ((wbOfOps (ops ++ [op]) S).length - j)) st
        = .ret (some (wbBadMsg op), wbFold hdl st ops)
    ∧ writeBatchIterate hdl (writeBatchSetCount (wbOfOps ops S) n) st
        = .ret (some (DBError.corruption "WriteBatch has wrong count"), wbFold hdl st ops)
    ∧ writeBatchIterate hdl (wbOfOps ops S) st = .ret (none, wbFold hdl st ops)
    ∧ writeBatchInsertInto bytewiseCompare
        ((writeBatchSetSequence
            (writeBatchDelete (writeBatchPut writeBatchNew [102, 111, 111] [98, 97, 114])
              [98, 111, 120]) 200).take
          ((writeBatchSetSequence
            (writeBatchDelete (writeBatchPut writeBatchNew [102, 111, 111] [98, 97, 114])
              [98, 111, 120]) 200).length - 1)) []
        = .ret (some (DBError.corruption "bad WriteBatch Delete"),
            (201, [encodeEntry 200 ValueType.Value [102, 111, 111] [98, 97, 114]])) :=
  ⟨writeBatchIterate_tooSmall_iff hdl rep st,
    writeBatchIterate_truncated hdl ops op S j st hwf hop hlen hj1 hj2,
    writeBatchIterate_wrongCount hdl ops S n st hwf (by omega) hn hne,
    writeBatchIterate_ofOps hdl ops S st hwf (by omega),
    by decide⟩

/-- C5's original "otherwise it returns Ok" refuted: a 13-byte buffer that
is not too small, not a truncated Put/Delete and never reaches the count
check makes `iterate` panic, returning neither `Ok` nor a corruption. -/
theorem claim_C5_iterate_errors_counterexample :
    writeBatchIterate opCollector (List.replicate 12 0 ++ [2]) [] = Panics.panic := by
  decide

/-- C5's amended statement applied at a concrete one-put batch with a cut
delete record and a count set to 2. -/
theorem claim_C5_iterate_errors_witness :
    (writeBatchIterate opCollector [] []
        = .ret (some (DBError.corruption "malformed WriteBatch (too small)"),
            ([] : List WBOp))
      ↔ ([] : List Nat).length < 12)
    ∧ writeBatchIterate opCollector
        ((wbOfOps ([WBOp.put [5] [6]] ++ [WBOp.delete [7]]) 3).take
          ((wbOfOps ([WBOp.put [5] [6]] ++ [WBOp.delete [7]]) 3).length - 1)) []
        = .ret (some (wbBadMsg (WBOp.delete [7])),
            wbFold opCollector [] [WBOp.put [5] [6]])
    ∧ writeBatchIterate opCollector (writeBatchSetCount (wbOfOps [WBOp.put [5] [6]] 3) 2) []
        = .ret (some (DBError.corruption "WriteBatch has wrong count"),
            wbFold opCollector [] [WBOp.put [5] [6]])
    ∧ writeBatchIterate opCollector (wbOfOps [WBOp.put [5] [6]] 3) []
        = .ret (none, wbFold opCollector [] [WBOp.put [5] [6]])
    ∧ writeBatchInsertInto bytewiseCompare
        ((writeBatchSetSequence
            (writeBatchDelete (writeBatchPut writeBatchNew [102, 111, 111] [98, 97, 114])
              [98, 111, 120]) 200).take
          ((writeBatchSetSequence
            (writeBatchDelete (writeBatchPut writeBatchNew [102, 111, 111] [98, 97, 114])
              [98, 111, 120]) 200).length - 1)) []
        = .ret (some (DBError.corruption "bad WriteBatch Delete"),
            (201, [encodeEntry 200 ValueType.Value [102, 111, 111] [98, 97, 114]])) :=
  claim_C5_iterate_errors opCollector [] [] [WBOp.put [5] [6]] (WBOp.delete [7]) 3 1 2
    (by decide) (by decide) (by decide) (by decide) (by decide) (by decide) (by decide)

/-- C10: `ValueType::from` is defined only on the bytes 0 and 1 — every
other byte panics — so on a buffer whose record tag byte is any other
value, `iterate`, and with it `insert_into` and batch replay, panics
instead of returning a corruption error: the corruption handling is not
total over byte buffers. -/
theorem claim_C10_tag_panic :
    (∀ b : Nat, ValueType.fromByte (b + 2) = none)
    ∧ writeBatchIterate opCollector (List.replicate 12 0 ++ [3]) [] = Panics.panic
    ∧ writeBatchInsertInto bytewiseCompare (List.replicate 12 0 ++ [3]) []
        = Panics.panic :=
  ⟨fun _ => rfl, by decide, by decide⟩

/-! ### WAL record format (`wal/writer.rs`, `log/mod.rs`, `log/reader.rs`) -/

/-- `BLOCK_SIZE`. -/
def BLOCK_SIZE : Nat := 32768

/-- `HEADER_SIZE`: checksum (4 bytes), length (2 bytes), type (1 byte). -/
def HEADER_SIZE : Nat := 4 + 2 + 1

/-- `RecordType` of `log/mod.rs` (the reader side; the writer side in
`wal/mod.rs` has the same numbering without `Unknown`, the writer only
emits `Full`/`First`/`Middle`/`Last`). -/
inductive RecordType where
  | Zero
  | Full
  | First
  | Middle
  | Last
  | Unknown
  deriving DecidableEq, Repr

/-- `type as u8` under `repr(u8)`. -/
def RecordType.toByte : RecordType → Nat
  | .Zero => 0
  | .Full => 1
  | .First => 2
  | .Middle => 3
  | .Last => 4
  | .Unknown => 5

/-- `impl From<u8> for RecordType` of `log/mod.rs` (total; every byte
above 4 maps to `Unknown`). -/
def RecordType.fromByte (value : Nat) : RecordType :=
  match value with
  | 0 => .Zero
  | 1 => .Full
  | 2 => .First
  | 3 => .Middle
  | 4 => .Last
  | _ => .Unknown

theorem recordType_fromByte_toByte (t : RecordType) :
    RecordType.fromByte t.toByte = t := by
  cases t <;> rfl

/-- The bytes of one physical record: the header built by
`emit_physical_record` (masked `crc32c_append(type_crc[type], data)`,
the two little-endian length bytes, the type byte) followed by the data.
`type_crc[t]` is `crc32c(&[t as u8])` per `Writer::new_at`. -/
def physRecord (t : RecordType) (data : List Nat) : List Nat :=
  encodeFixed32 (crc32cMask (crc32cAppend (crc32c [t.toByte]) data))
    ++ [data.length % 256, data.length / 256 % 256, t.toByte] ++ data

/-- `Writer::emit_physical_record`: the two `assert!`s, then the header
and data appended to the destination and the advanced `block_offset`. -/
def emitPhysicalRecord (bo : Nat) (t : RecordType) (data : List Nat) :
    Panics (List Nat × Nat) :=
  if data.length ≤ 0xffff ∧ bo + HEADER_SIZE + data.length ≤ BLOCK_SIZE then
    .ret (physRecord t data, bo + HEADER_SIZE + data.length)
  else .panic

/-- The loop of `Writer::add_record`, fuelled: returns the bytes appended
to the destination and the final `block_offset`. -/
def addRecordGo : Nat → Nat → List Nat → Bool → Panics (List Nat × Nat)
  | 0, _, _, _ => .panic
  | fuel + 1, bo, sliceLeft, begin =>
    let leftover := BLOCK_SIZE - bo
    let pad := if leftover < HEADER_SIZE then List.replicate leftover 0 else []
    let bo1 := if leftover < HEADER_SIZE then 0 else bo
    let avail := BLOCK_SIZE - bo1 - HEADER_SIZE
    let fragmentLength := min sliceLeft.length avail
    let isEnd := fragmentLength == sliceLeft.length
    let t := if begin && isEnd then RecordType.Full
      else if begin then RecordType.First
      else if isEnd then RecordType.Last
      else RecordType.Middle
    match emitPhysicalRecord bo1 t (sliceLeft.take fragmentLength) with
    | .panic => .panic
    | .ret (bytes, bo2) =>
      let rest := sliceLeft.drop fragmentLength
      if rest.isEmpty then .ret (pad ++ bytes, bo2)
      else
        match addRecordGo fuel bo2 rest false with
        | .panic => .panic
        | .ret (bytes2, bo3) => .ret (pad ++ bytes ++ bytes2, bo3)

/-- `Writer::add_record` from a given `block_offset`. Two iterations per
payload byte plus two always cover the loop (at most one iteration makes
no progress, and only right before a block boundary). -/
def addRecord (bo : Nat) (slice : List Nat) : Panics (List Nat × Nat) :=
  addRecordGo (2 * slice.length + 2) bo slice true

/-- A fresh writer (`Writer::new`, so `block_offset = 0`) fed a list of
payloads by `add_record`: the destination file's bytes and the final
`block_offset`. -/
def writeLog : Nat → List (List Nat) → Panics (List Nat × Nat)
  | bo, [] => .ret ([], bo)
  | bo, p :: ps =>
    match addRecord bo p with
    | .panic => .panic
    | .ret (bytes, bo2) =>
      match writeLog bo2 ps with
      | .panic => .panic
      | .ret (bytes2, bo3) => .ret (bytes ++ bytes2, bo3)

/-! ### The writer's output, described append by append -/

/-- One `dest.append` of the writer: a block trailer of `k` zero bytes,
or one physical record. -/
inductive WalItem where
  | pad (k : Nat)
  | record (t : RecordType) (data : List Nat)
  deriving DecidableEq, Repr

def renderItem : WalItem → List Nat
  | .pad k => List.replicate k 0
  | .record t data => physRecord t data

def renderTrace (tr : List WalItem) : List Nat :=
  (tr.map renderItem).flatten

/-- The items `add_record`'s loop appends, and the final `block_offset`
(mirrors `addRecordGo`; the `pad` item records the trailer fill, of zero
width when the offset sits exactly on the boundary). -/
def walGo : Nat → Nat → List Nat → Bool → List WalItem × Nat
  | 0, bo, _, _ => ([], bo)
  | fuel + 1, bo, sliceLeft, begin =>
    let leftover := BLOCK_SIZE - bo
    let padTr : List WalItem :=
      if leftover < HEADER_SIZE then [WalItem.pad leftover] else []
    let bo1 := if leftover < HEADER_SIZE then 0 else bo
    let avail := BLOCK_SIZE - bo1 - HEADER_SIZE
    let fragmentLength := min sliceLeft.length avail
    let isEnd := fragmentLength == sliceLeft.length
    let t := if begin && isEnd then RecordType.Full
      else if begin then RecordType.First
      else if isEnd then RecordType.Last
      else RecordType.Middle
    let bo2 := bo1 + HEADER_SIZE + fragmentLength
    let rest := sliceLeft.drop fragmentLength
    if rest.isEmpty then (padTr ++ [WalItem.record t (sliceLeft.take fragmentLength)], bo2)
    else
      let next := walGo fuel bo2 rest false
      (padTr ++ WalItem.record t (sliceLeft.take fragmentLength) :: next.1, next.2)

def walTrace (bo : Nat) (slice : List Nat) : List WalItem × Nat :=
  walGo (2 * slice.length + 2) bo slice true

/-- The whole log's items. -/
def logTrace : Nat → List (List Nat) → List WalItem × Nat
  | bo, [] => ([], bo)
  | bo, p :: ps =>
    let first := walTrace bo p
    let rest := logTrace first.2 ps
    (first.1 ++ rest.1, rest.2)

/-- Block discipline of a trace starting at in-block offset `bo` and
ending at `bo'`: every record's header and payload lie inside one
32768-byte block, and a trailer is exactly the `k < 7` bytes left in the
block, after which the next item starts a fresh block. -/
inductive TraceOk : Nat → List WalItem → Nat → Prop where
  | nil (bo : Nat) : TraceOk bo [] bo
  | pad (bo k : Nat) (tr : List WalItem) (bo' : Nat) (hk : k = BLOCK_SIZE - bo)
      (hlt : k < HEADER_SIZE) (h : TraceOk 0 tr bo') :
      TraceOk bo (WalItem.pad k :: tr) bo'
  | record (bo : Nat) (t : RecordType) (data : List Nat) (tr : List WalItem) (bo' : Nat)
      (hfit : bo + HEADER_SIZE + data.length ≤ BLOCK_SIZE)
      (h : TraceOk (bo + HEADER_SIZE + data.length) tr bo') :
      TraceOk bo (WalItem.record t data :: tr) bo'

theorem renderTrace_nil : renderTrace [] = [] := rfl

theorem renderTrace_cons (x : WalItem) (tr : List WalItem) :
    renderTrace (x :: tr) = renderItem x ++ renderTrace tr := by
  simp [renderTrace]

theorem renderTrace_append (a b : List WalItem) :
    renderTrace (a ++ b) = renderTrace a ++ renderTrace b := by
  simp [renderTrace]

theorem BLOCK_SIZE_eq : BLOCK_SIZE = 32768 := rfl

theorem HEADER_SIZE_eq : HEADER_SIZE = 7 := rfl

theorem physRecord_length (t : RecordType) (data : List Nat) :
    (physRecord t data).length = HEADER_SIZE + data.length := by
  simp [physRecord, encodeFixed32, HEADER_SIZE]
  omega

theorem emitPhysicalRecord_ret (bo : Nat) (t : RecordType) (data : List Nat)
    (h1 : data.length ≤ 0xffff) (h2 : bo + HEADER_SIZE + data.length ≤ BLOCK_SIZE) :
    emitPhysicalRecord bo t data
      = .ret (physRecord t data, bo + HEADER_SIZE + data.length) := by
  unfold emitPhysicalRecord
  rw [if_pos ⟨h1, h2⟩]

/-- One loop turn that emits the final fragment (everything left fits). -/
theorem walGo_final (fuel bo : Nat) (left : List Nat) (begin : Bool)
    (hpad : ¬ BLOCK_SIZE - bo < HEADER_SIZE)
    (hfin : left.length ≤ BLOCK_SIZE - bo - HEADER_SIZE) :
    walGo (fuel + 1) bo left begin
        = ([WalItem.record (if begin then RecordType.Full else RecordType.Last) left],
           bo + HEADER_SIZE + left.length)
      ∧ addRecordGo (fuel + 1) bo left begin
        = .ret (physRecord (if begin then RecordType.Full else RecordType.Last) left,
            bo + HEADER_SIZE + left.length) := by
  have hemit := emitPhysicalRecord_ret bo
    (if begin then RecordType.Full else RecordType.Last) left
    (by simp only [BLOCK_SIZE_eq, HEADER_SIZE_eq] at hfin ⊢; omega)
    (by simp only [BLOCK_SIZE_eq, HEADER_SIZE_eq] at hfin hpad ⊢; omega)
  constructor
  · simp only [walGo, if_neg hpad, Nat.min_eq_left hfin, beq_self_eq_true, Bool.and_true,
      List.take_length, List.drop_length, List.isEmpty_nil, if_true, List.nil_append]
    cases begin <;> simp
  · simp only [addRecordGo, if_neg hpad, Nat.min_eq_left hfin, beq_self_eq_true,
      Bool.and_true, List.take_length, List.drop_length, List.isEmpty_nil]
    cases begin <;> simp_all <;> rw [hemit]

/-- One loop turn that emits a non-final fragment: it fills the block
exactly and the loop continues at the block boundary. -/
theorem walGo_step (fuel bo : Nat) (left : List Nat) (begin : Bool)
    (hpad : ¬ BLOCK_SIZE - bo < HEADER_SIZE)
    (hnf : BLOCK_SIZE - bo - HEADER_SIZE < left.length) :
    walGo (fuel + 1) bo left begin
        = (WalItem.record (if begin then RecordType.First else RecordType.Middle)
              (left.take (BLOCK_SIZE - bo - HEADER_SIZE))
            :: (walGo fuel BLOCK_SIZE (left.drop (BLOCK_SIZE - bo - HEADER_SIZE)) false).1,
           (walGo fuel BLOCK_SIZE (left.drop (BLOCK_SIZE - bo - HEADER_SIZE)) false).2)
      ∧ addRecordGo (fuel + 1) bo left begin
        = match addRecordGo fuel BLOCK_SIZE (left.drop (BLOCK_SIZE - bo - HEADER_SIZE)) false with
          | .panic => .panic
          | .ret (bytes2, bo3) =>
            .ret (physRecord (if begin then RecordType.First else RecordType.Middle)
                (left.take (BLOCK_SIZE - bo - HEADER_SIZE)) ++ bytes2, bo3) := by
  have htklen : (left.take (BLOCK_SIZE - bo - HEADER_SIZE)).length
      = BLOCK_SIZE - bo - HEADER_SIZE := by
    rw [List.length_take]
    exact Nat.min_eq_left (Nat.le_of_lt hnf)
  have hbo2 : bo + HEADER_SIZE + (left.take (BLOCK_SIZE - bo - HEADER_SIZE)).length
      = BLOCK_SIZE := by
    rw [htklen]
    simp only [BLOCK_SIZE_eq, HEADER_SIZE_eq] at hpad ⊢
    omega
  have hemit := emitPhysicalRecord_ret bo
    (if begin then RecordType.First else RecordType.Middle)
    (left.take (BLOCK_SIZE - bo - HEADER_SIZE))
    (by rw [htklen]; simp only [BLOCK_SIZE_eq, HEADER_SIZE_eq]; omega)
    (by rw [hbo2])
  have hmin : min left.length (BLOCK_SIZE - bo - HEADER_SIZE)
      = BLOCK_SIZE - bo - HEADER_SIZE := Nat.min_eq_right (Nat.le_of_lt hnf)
  have hbeq : (BLOCK_SIZE - bo - HEADER_SIZE == left.length) = false := by
    rw [beq_eq_false_iff_ne]
    omega
  have hrest : ((left.drop (BLOCK_SIZE - bo - HEADER_SIZE)).isEmpty) = false := by
    rw [List.isEmpty_eq_false_iff_exists_mem]
    have : (left.drop (BLOCK_SIZE - bo - HEADER_SIZE)).length
        = left.length - (BLOCK_SIZE - bo - HEADER_SIZE) := List.length_drop _ _
    rcases hd : left.drop (BLOCK_SIZE - bo - HEADER_SIZE) with _ | ⟨x, xs⟩
    · rw [hd] at this
      simp at this
      omega
    · exact ⟨x, by simp⟩
  have hbo2' : bo + HEADER_SIZE + (BLOCK_SIZE - bo - HEADER_SIZE) = BLOCK_SIZE := by
    simp only [BLOCK_SIZE_eq, HEADER_SIZE_eq] at hpad ⊢
    omega
  constructor
  · simp only [walGo, if_neg hpad, hmin, hbeq, Bool.and_false, Bool.false_eq_true,
      if_false, hrest, hbo2]
    cases begin <;> simp [hbo2']
  · simp only [addRecordGo, if_neg hpad, hmin, hbeq, Bool.and_false, Bool.false_eq_true,
      if_false, hrest]
    cases begin <;> simp only [if_true, if_false, Bool.false_eq_true] at hemit ⊢ <;>
      rw [hemit] <;> simp only [hbo2] <;> rfl

theorem pad_prepend (pad : List Nat) (E : Panics (List Nat × Nat)) (c : Bool)
    (A : Nat → Panics (List Nat × Nat)) :
    (match E with
     | Panics.panic => Panics.panic
     | Panics.ret (bytes, bo2) =>
       if c = true then Panics.ret (pad ++ bytes, bo2)
       else match A bo2 with
         | Panics.panic => Panics.panic
         | Panics.ret (bytes2, bo3) => Panics.ret (pad ++ bytes ++ bytes2, bo3))
    = match (match E with
        | Panics.panic => Panics.panic
        | Panics.ret (bytes, bo2) =>
          if c = true then Panics.ret (([] : List Nat) ++ bytes, bo2)
          else match A bo2 with
            | Panics.panic => Panics.panic
            | Panics.ret (bytes2, bo3) => Panics.ret ([] ++ bytes ++ bytes2, bo3)) with
      | Panics.panic => Panics.panic
      | Panics.ret (bytes, bo2) => Panics.ret (pad ++ bytes, bo2) := by
  cases E with
  | panic => rfl
  | ret pr =>
    obtain ⟨bytes, bo2⟩ := pr
    cases c with
    | true => simp
    | false =>
      simp only [Bool.false_eq_true, if_false]
      cases A bo2 with
      | panic => rfl
      | ret pr2 =>
        obtain ⟨b2, b3⟩ := pr2
        simp

/-- A loop turn entered with fewer than 7 bytes left in the block: the
trailer is zero-filled and the work continues exactly as from offset 0. -/
theorem walGo_pad (fuel bo : Nat) (left : List Nat) (begin : Bool)
    (hpad : BLOCK_SIZE - bo < HEADER_SIZE) :
    walGo (fuel + 1) bo left begin
        = (WalItem.pad (BLOCK_SIZE - bo) :: (walGo (fuel + 1) 0 left begin).1,
           (walGo (fuel + 1) 0 left begin).2)
      ∧ addRecordGo (fuel + 1) bo left begin
        = match addRecordGo (fuel + 1) 0 left begin with
          | .panic => Panics.panic
          | .ret (bytes, bo2) => .ret (List.replicate (BLOCK_SIZE - bo) 0 ++ bytes, bo2) := by
  have h0 : ¬ BLOCK_SIZE < HEADER_SIZE := by
    simp [BLOCK_SIZE_eq, HEADER_SIZE_eq]
  constructor
  · simp only [walGo, Nat.sub_zero, if_pos hpad, if_neg h0]
    by_cases hr : (left.drop (min left.length (BLOCK_SIZE - HEADER_SIZE))).isEmpty = true
    · simp only [if_pos hr]
      rfl
    · simp only [if_neg hr]
      rfl
  · simp only [addRecordGo, Nat.sub_zero, if_pos hpad, if_neg h0]
    exact pad_prepend (List.replicate (BLOCK_SIZE - bo) 0) _ _ _

/-- What `add_record`'s loop guarantees from a given offset: the
byte-level loop succeeds and produces exactly the rendered items, the
items obey the block discipline, the final offset stays in the block,
and the output is at least a header longer than the payload. -/
def WalSpec (fuel bo : Nat) (left : List Nat) (begin : Bool) : Prop :=
  addRecordGo fuel bo left begin
      = .ret (renderTrace (walGo fuel bo left begin).1, (walGo fuel bo left begin).2)
    ∧ TraceOk bo (walGo fuel bo left begin).1 (walGo fuel bo left begin).2
    ∧ (walGo fuel bo left begin).2 ≤ BLOCK_SIZE
    ∧ left.length + HEADER_SIZE ≤ (renderTrace (walGo fuel bo left begin).1).length

theorem walGo_spec_final (fuel bo : Nat) (left : List Nat) (begin : Bool)
    (hpad : ¬ BLOCK_SIZE - bo < HEADER_SIZE)
    (hfin : left.length ≤ BLOCK_SIZE - bo - HEADER_SIZE) :
    WalSpec (fuel + 1) bo left begin := by
  obtain ⟨hw, ha⟩ := walGo_final fuel bo left begin hpad hfin
  have hfit : bo + HEADER_SIZE + left.length ≤ BLOCK_SIZE := by
    simp only [BLOCK_SIZE_eq, HEADER_SIZE_eq] at hpad hfin ⊢
    omega
  refine ⟨?_, ?_, ?_, ?_⟩ <;> rw [hw]
  · rw [ha]
    simp [renderTrace, renderItem]
  · exact TraceOk.record bo _ left [] _ hfit (TraceOk.nil _)
  · exact hfit
  · simp [renderTrace, renderItem, physRecord_length]
    omega

theorem walGo_spec_padlift (fuel bo : Nat) (left : List Nat) (begin : Bool)
    (hpad : BLOCK_SIZE - bo < HEADER_SIZE)
    (h0 : WalSpec (fuel + 1) 0 left begin) :
    WalSpec (fuel + 1) bo left begin := by
  obtain ⟨hw, ha⟩ := walGo_pad fuel bo left begin hpad
  obtain ⟨he0, ht0, hb0, hl0⟩ := h0
  refine ⟨?_, ?_, ?_, ?_⟩ <;> rw [hw]
  · rw [ha, he0]
    simp [renderTrace_cons, renderItem]
  · exact TraceOk.pad bo _ _ _ rfl hpad ht0
  · exact hb0
  · rw [renderTrace_cons]
    simp only [List.length_append]
    omega

theorem walGo_spec_step (fuel bo : Nat) (left : List Nat) (begin : Bool)
    (hpad : ¬ BLOCK_SIZE - bo < HEADER_SIZE)
    (hnf : BLOCK_SIZE - bo - HEADER_SIZE < left.length)
    (hrec : WalSpec fuel BLOCK_SIZE (left.drop (BLOCK_SIZE - bo - HEADER_SIZE)) false) :
    WalSpec (fuel + 1) bo left begin := by
  obtain ⟨hw, ha⟩ := walGo_step fuel bo left begin hpad hnf
  obtain ⟨heR, htR, hbR, hlR⟩ := hrec
  have htklen : (left.take (BLOCK_SIZE - bo - HEADER_SIZE)).length
      = BLOCK_SIZE - bo - HEADER_SIZE := by
    rw [List.length_take]
    exact Nat.min_eq_left (Nat.le_of_lt hnf)
  have hfit : bo + HEADER_SIZE + (left.take (BLOCK_SIZE - bo - HEADER_SIZE)).length
      = BLOCK_SIZE := by
    rw [htklen]
    simp only [BLOCK_SIZE_eq, HEADER_SIZE_eq] at hpad ⊢
    omega
  refine ⟨?_, ?_, ?_, ?_⟩ <;> rw [hw]
  · rw [ha, heR]
    simp [renderTrace_cons, renderItem]
  · refine TraceOk.record bo _ _ _ _ (le_of_eq hfit) ?_
    rw [hfit]
    exact htR
  · exact hbR
  · rw [renderTrace_cons]
    simp only [List.length_append, renderItem, physRecord_length, htklen]
    have hdl : (left.drop (BLOCK_SIZE - bo - HEADER_SIZE)).length
        = left.length - (BLOCK_SIZE - bo - HEADER_SIZE) := List.length_drop _ _
    rw [hdl] at hlR
    omega

theorem walGo_spec :
    ∀ (n : Nat) (left : List Nat), left.length ≤ n →
    ∀ (fuel bo : Nat) (begin : Bool), bo ≤ BLOCK_SIZE → 2 * left.length + 2 ≤ fuel →
    WalSpec fuel bo left begin := by
  intro n
  induction n with
  | zero =>
    intro left hl fuel bo begin hbo hfuel
    have hleft : left = [] := List.eq_nil_of_length_eq_zero (Nat.le_zero.mp hl)
    subst hleft
    obtain ⟨f, rfl⟩ : ∃ f, fuel = f + 1 := ⟨fuel - 1, by omega⟩
    by_cases hpad : BLOCK_SIZE - bo < HEADER_SIZE
    · exact walGo_spec_padlift f bo [] begin hpad
        (walGo_spec_final f 0 [] begin
          (by simp [BLOCK_SIZE_eq, HEADER_SIZE_eq]) (by simp))
    · exact walGo_spec_final f bo [] begin hpad (by simp)
  | succ n ih =>
    intro left hl fuel bo begin hbo hfuel
    obtain ⟨f, rfl⟩ : ∃ f, fuel = f + 1 := ⟨fuel - 1, by omega⟩
    have aligned : ∀ (bo : Nat), bo ≤ BLOCK_SIZE → ¬ BLOCK_SIZE - bo < HEADER_SIZE →
        WalSpec (f + 1) bo left begin := by
      intro bo hbo hpad
      by_cases hfin : left.length ≤ BLOCK_SIZE - bo - HEADER_SIZE
      · exact walGo_spec_final f bo left begin hpad hfin
      · have hnf : BLOCK_SIZE - bo - HEADER_SIZE < left.length := by omega
        by_cases havail : BLOCK_SIZE - bo - HEADER_SIZE = 0
        · -- the fragment makes no progress; the next turn starts a fresh block
          have hl1 : 1 ≤ left.length := by omega
          refine walGo_spec_step f bo left begin hpad hnf ?_
          rw [havail, List.drop_zero]
          obtain ⟨f2, rfl⟩ : ∃ f2, f = f2 + 1 := ⟨f - 1, by omega⟩
          refine walGo_spec_padlift f2 BLOCK_SIZE left false
            (by simp [BLOCK_SIZE_eq, HEADER_SIZE_eq]) ?_
          by_cases hfin0 : left.length ≤ BLOCK_SIZE - 0 - HEADER_SIZE
          · exact walGo_spec_final f2 0 left false
              (by simp [BLOCK_SIZE_eq, HEADER_SIZE_eq]) hfin0
          · have hnf0 : BLOCK_SIZE - 0 - HEADER_SIZE < left.length := by omega
            refine walGo_spec_step f2 0 left false
              (by simp [BLOCK_SIZE_eq, HEADER_SIZE_eq]) hnf0 ?_
            refine ih (left.drop (BLOCK_SIZE - 0 - HEADER_SIZE)) ?_ f2 BLOCK_SIZE false
              le_rfl ?_
            · rw [List.length_drop]
              simp only [BLOCK_SIZE_eq, HEADER_SIZE_eq] at hnf0 ⊢
              omega
            · rw [List.length_drop]
              simp only [BLOCK_SIZE_eq, HEADER_SIZE_eq] at hnf0 hfuel ⊢
              omega
        · refine walGo_spec_step f bo left begin hpad hnf ?_
          refine ih (left.drop (BLOCK_SIZE - bo - HEADER_SIZE)) ?_ f BLOCK_SIZE false
            le_rfl ?_
          · rw [List.length_drop]
            omega
          · rw [List.length_drop]
            omega
    by_cases hpad : BLOCK_SIZE - bo < HEADER_SIZE
    · exact walGo_spec_padlift f bo left begin hpad
        (aligned 0 (by simp [BLOCK_SIZE_eq]) (by simp [BLOCK_SIZE_eq, HEADER_SIZE_eq]))
    · exact aligned bo hbo hpad

theorem walTrace_spec (bo : Nat) (slice : List Nat) (hbo : bo ≤ BLOCK_SIZE) :
    addRecord bo slice = .ret (renderTrace (walTrace bo slice).1, (walTrace bo slice).2)
      ∧ TraceOk bo (walTrace bo slice).1 (walTrace bo slice).2
      ∧ (walTrace bo slice).2 ≤ BLOCK_SIZE
      ∧ slice.length + HEADER_SIZE ≤ (renderTrace (walTrace bo slice).1).length :=
  walGo_spec slice.length slice le_rfl (2 * slice.length + 2) bo true hbo le_rfl

theorem writeLog_spec :
    ∀ (ps : List (List Nat)) (bo : Nat), bo ≤ BLOCK_SIZE →
    writeLog bo ps = .ret (renderTrace (logTrace bo ps).1, (logTrace bo ps).2)
      ∧ (logTrace bo ps).2 ≤ BLOCK_SIZE := by
  intro ps
  induction ps with
  | nil =>
    intro bo hbo
    exact ⟨rfl, hbo⟩
  | cons p ps ih =>
    intro bo hbo
    obtain ⟨he, _, hb, _⟩ := walTrace_spec bo p hbo
    obtain ⟨he2, hb2⟩ := ih (walTrace bo p).2 hb
    constructor
    · show (match addRecord bo p with
        | Panics.panic => Panics.panic
        | Panics.ret (bytes, bo2) =>
          match writeLog bo2 ps with
          | Panics.panic => Panics.panic
          | Panics.ret (bytes2, bo3) => Panics.ret (bytes ++ bytes2, bo3)) = _
      rw [he]
      dsimp only
      rw [he2]
      dsimp only
      show _ = Panics.ret (renderTrace (logTrace bo (p :: ps)).1, (logTrace bo (p :: ps)).2)
      simp only [logTrace, renderTrace_append]
    · show (logTrace (walTrace bo p).2 ps).2 ≤ BLOCK_SIZE
      exact hb2

/-- C6: from any in-block offset, `add_record` appends exactly its
rendered trailer/record items and those obey the block discipline
(`TraceOk`: no header-plus-payload crosses a 32768-byte boundary, and a
sub-7-byte remainder is zero-filled with the next record at offset 0 of
the next block); an empty payload is exactly one `Full` record of length
0; a payload of `BLOCK_SIZE - HEADER_SIZE` bytes from a block start is a
single `Full` record leaving `block_offset = BLOCK_SIZE`; and writing
from `block_offset = BLOCK_SIZE` appends exactly the bytes of writing
from a fresh block. -/
theorem claim_C6_writer_block_invariants :
    (∀ (slice : List Nat) (bo : Nat), bo ≤ BLOCK_SIZE →
      addRecord bo slice
          = .ret (renderTrace (walTrace bo slice).1, (walTrace bo slice).2)
        ∧ TraceOk bo (walTrace bo slice).1 (walTrace bo slice).2)
    ∧ (∀ bo : Nat, bo + HEADER_SIZE ≤ BLOCK_SIZE →
        addRecord bo [] = .ret (physRecord RecordType.Full [], bo + HEADER_SIZE))
    ∧ (∀ p : List Nat, p.length = BLOCK_SIZE - HEADER_SIZE →
        addRecord 0 p = .ret (physRecord RecordType.Full p, BLOCK_SIZE))
    ∧ (∀ slice : List Nat, addRecord BLOCK_SIZE slice = addRecord 0 slice) := by
  refine ⟨?_, ?_, ?_, ?_⟩
  · intro slice bo hbo
    obtain ⟨he, ht, _, _⟩ := walTrace_spec bo slice hbo
    exact ⟨he, ht⟩
  · intro bo hbo
    have h := (walGo_final 1 bo [] true
      (by simp only [BLOCK_SIZE_eq, HEADER_SIZE_eq] at hbo ⊢; omega) (by simp)).2
    simp only [if_true, List.length_nil] at h
    exact h
  · intro p hp
    have h := (walGo_final (2 * p.length + 1) 0 p true
      (by simp [BLOCK_SIZE_eq, HEADER_SIZE_eq]) (by omega)).2
    simp only [if_true, Nat.zero_add] at h
    rw [show 2 * p.length + 1 + 1 = 2 * p.length + 2 from rfl] at h
    rw [show addRecord 0 p = addRecordGo (2 * p.length + 2) 0 p true from rfl, h]
    have : HEADER_SIZE + p.length = BLOCK_SIZE := by
      simp only [BLOCK_SIZE_eq, HEADER_SIZE_eq] at hp ⊢
      omega
    rw [this]
  · intro slice
    have h := (walGo_pad (2 * slice.length + 1) BLOCK_SIZE slice true
      (by simp [BLOCK_SIZE_eq, HEADER_SIZE_eq])).2
    rw [show 2 * slice.length + 1 + 1 = 2 * slice.length + 2 from rfl] at h
    rw [show addRecord BLOCK_SIZE slice
      = addRecordGo (2 * slice.length + 2) BLOCK_SIZE slice true from rfl, h]
    rw [show addRecord 0 slice = addRecordGo (2 * slice.length + 2) 0 slice true from rfl]
    cases addRecordGo (2 * slice.length + 2) 0 slice true with
    | panic => rfl
    | ret pr =>
      obtain ⟨bytes, bo2⟩ := pr
      simp

/-- C6's first conjunct applied at a concrete three-byte record. -/
theorem claim_C6_writer_block_invariants_witness :
    addRecord 0 [9, 9, 9]
        = .ret (renderTrace (walTrace 0 [9, 9, 9]).1, (walTrace 0 [9, 9, 9]).2)
      ∧ TraceOk 0 (walTrace 0 [9, 9, 9]).1 (walTrace 0 [9, 9, 9]).2 :=
  claim_C6_writer_block_invariants.1 [9, 9, 9] 0 (by decide)

/-! ### The log reader (`log/reader.rs`), specialised to the way the
recovery path opens it: `initial_offset = 0` (so `resyncing` is false and
`skip_to_initial_block` never runs), `checksum = true`, and a reporter
present.  The sequential file is a byte list; `read` fills the block
buffer with `min BLOCK_SIZE file.length` bytes and never fails. -/

/-- The reader's state: the unread file bytes, the live slice of the
backing store (`buffer_range`), `eof`, the two offsets, and every
`reporter.corruption(bytes, reason)` call in order. -/
structure LogReader where
  file : List Nat
  buffer : List Nat
  eof : Bool
  lastRecordOffset : Nat
  endOfBufferOffset : Nat
  events : List (Nat × DBError)
  deriving DecidableEq, Repr

/-- `Reader::new(file, 0, true, Some(reporter))`. -/
def readerNew (contents : List Nat) : LogReader :=
  { file := contents, buffer := [], eof := false, lastRecordOffset := 0,
    endOfBufferOffset := 0, events := [] }

/-- `report_drop` (via `report_corruption`): with `initial_offset = 0`
the wrapping guard `end_of_buffer_offset - (buffer.len + bytes) >= 0`
always holds, so the reporter is always called. -/
def reportDrop (r : LogReader) (bytes : Nat) (e : DBError) : LogReader :=
  { r with events := r.events ++ [(bytes, e)] }

/-- What `read_physical_record` hands back to the `read_record` loop:
`Ok(type)` with the fragment, or `Err(Eof)` / `Err(BadRecord)`. -/
inductive PhysResult where
  | ok (t : RecordType) (fragment : List Nat)
  | eofR
  | badR
  deriving DecidableEq, Repr

/-- The body of `read_physical_record` once at least a header is
buffered: parse the header, check the length against the buffer, skip a
zero-type zero-length record, verify the checksum, and return the
fragment (with `initial_offset = 0` the final skip test never fires). -/
def parsePhysicalRecord (r : LogReader) : PhysResult × LogReader :=
  let buffer := r.buffer
  let a := buffer.getD 4 0
  let b := buffer.getD 5 0
  let length := a ||| b <<< 8
  let t := RecordType.fromByte (buffer.getD 6 0)
  if HEADER_SIZE + length > buffer.length then
    let dropSize := buffer.length
    if !r.eof then
      (.badR, reportDrop { r with buffer := [] } dropSize
        (DBError.corruption "bad record length"))
    else (.eofR, { r with buffer := [] })
  else if t = RecordType.Zero ∧ length = 0 then
    (.badR, { r with buffer := [] })
  else
    let expected := crc32cUnmask (decodeFixed32 buffer)
    let actual := crc32c ((buffer.drop 6).take (1 + length))
    if actual ≠ expected then
      let dropSize := buffer.length
      (.badR, reportDrop { r with buffer := [] } dropSize
        (DBError.corruption "checksum mismatch"))
    else
      (.ok t ((buffer.drop HEADER_SIZE).take length),
       { r with buffer := buffer.drop (HEADER_SIZE + length) })

/-- `read_physical_record`.  When the buffer holds less than a header the
remaining trailer is dropped and a block is read; a short read sets
`eof`, and a buffer still shorter than a header then reports EOF on the
loop's next turn (a full read leaves 32768 ≥ 7 bytes, so a short buffer
after a read always has `eof` set). -/
def readPhysicalRecord (r : LogReader) : PhysResult × LogReader :=
  if r.buffer.length < HEADER_SIZE then
    if !r.eof then
      let k := min BLOCK_SIZE r.file.length
      let r1 : LogReader := { r with
        buffer := r.file.take k,
        file := r.file.drop k,
        endOfBufferOffset := r.endOfBufferOffset + k,
        eof := decide (k < BLOCK_SIZE) }
      if r1.buffer.length < HEADER_SIZE then (.eofR, { r1 with buffer := [] })
      else parsePhysicalRecord r1
    else (.eofR, { r with buffer := [] })
  else parsePhysicalRecord r

/-- The loop of `read_record` with `resyncing = false`: loop state is
`in_fragmented_record`, `scratch` and `prospective_record_offset`; the
two `assert!(physical_record_offset >= 0)` are panics. -/
def readRecordGo : Nat → LogReader → Bool → List Nat → Nat →
    Panics (Option (List Nat) × LogReader)
  | 0, _, _, _, _ => .panic
  | fuel + 1, r, inFrag, scratch, prospective =>
    match readPhysicalRecord r with
    | (.ok t fragment, r1) =>
      let physOff : Int := (r1.endOfBufferOffset : Int) - r1.buffer.length
        - HEADER_SIZE - fragment.length
      match t with
      | .Full =>
        let r2 := if inFrag ∧ scratch ≠ [] then
            reportDrop r1 scratch.length
              (DBError.corruption "partial record without end(1)")
          else r1
        if physOff < 0 then .panic
        else .ret (some fragment, { r2 with lastRecordOffset := physOff.toNat })
      | .First =>
        let r2 := if inFrag ∧ scratch ≠ [] then
            reportDrop r1 scratch.length
              (DBError.corruption "partial record without end(2)")
          else r1
        if physOff < 0 then .panic
        else readRecordGo fuel r2 true fragment physOff.toNat
      | .Middle =>
        if !inFrag then
          readRecordGo fuel
            (reportDrop r1 fragment.length
              (DBError.corruption "missing start of fragmented record(1)"))
            inFrag scratch prospective
        else readRecordGo fuel r1 inFrag (scratch ++ fragment) prospective
      | .Last =>
        if !inFrag then
          readRecordGo fuel
            (reportDrop r1 fragment.length
              (DBError.corruption "missing start of fragmented record(2)"))
            inFrag scratch prospective
        else .ret (some (scratch ++ fragment), { r1 with lastRecordOffset := prospective })
      | _ =>
        let dropSize := if inFrag then scratch.length + fragment.length
          else fragment.length
        readRecordGo fuel
          (reportDrop r1 dropSize (DBError.corruption "unknown record type"))
          false [] prospective
    | (.eofR, r1) => .ret (none, r1)
    | (.badR, r1) =>
      if inFrag then
        readRecordGo fuel
          (reportDrop r1 scratch.length (DBError.corruption "error in middle of record"))
          false [] prospective
      else readRecordGo fuel r1 inFrag scratch prospective

/-- `read_record`: every turn of the loop that does not return consumes
at least one byte of buffer-plus-file, so this fuel always suffices. -/
def readRecord (r : LogReader) : Panics (Option (List Nat) × LogReader) :=
  readRecordGo (r.buffer.length + r.file.length + 1) r false [] 0

/-- `read_record` called repeatedly, collecting the returned payloads
until it reports end of log. -/
def readAllGo : Nat → LogReader → Panics (List (List Nat))
  | 0, _ => .ret []
  | n + 1, r =>
    match readRecord r with
    | .panic => .panic
    | .ret (none, _) => .ret []
    | .ret (some p, r2) =>
      match readAllGo n r2 with
      | .panic => .panic
      | .ret ps => .ret (p :: ps)

/-- How the reader's position tracks the writer's in-block offset `bo`
of the next item: the buffer never exceeds what was read, and either the
current block is full (buffer plus consumed span the block), or nothing
is buffered at a fresh block boundary, or — after the final short read —
the file is drained and the short block ends before the block boundary. -/
def ReaderSync (r : LogReader) (bo : Nat) : Prop :=
  r.buffer.length ≤ r.endOfBufferOffset ∧
  (if r.eof then r.file = [] ∧ bo + r.buffer.length < BLOCK_SIZE
   else r.buffer.length + bo = BLOCK_SIZE ∨ (r.buffer = [] ∧ bo = 0))

/-- Parsing a buffer that starts with a well-formed physical record of a
non-`Zero` type returns exactly that record and keeps the tail. -/
theorem parsePhysicalRecord_record (r : LogReader) (t : RecordType) (data tail : List Nat)
    (hbuf : r.buffer = physRecord t data ++ tail)
    (hlen : data.length < 2 ^ 16) (ht : t ≠ RecordType.Zero) :
    parsePhysicalRecord r = (.ok t data, { r with buffer := tail }) := by
  have hC : crc32cMask (crc32cAppend (crc32c [t.toByte]) data) < 2 ^ 32 := by
    unfold crc32cMask
    exact Nat.mod_lt _ (by norm_num)
  have hV : crc32cAppend (crc32c [t.toByte]) data = crc32c ([t.toByte] ++ data) :=
    crc32cAppend_crc32c _ _
  have hbuf' : r.buffer
      = crc32cMask (crc32cAppend (crc32c [t.toByte]) data) % 256
        :: crc32cMask (crc32cAppend (crc32c [t.toByte]) data) / 2 ^ 8 % 256
        :: crc32cMask (crc32cAppend (crc32c [t.toByte]) data) / 2 ^ 16 % 256
        :: crc32cMask (crc32cAppend (crc32c [t.toByte]) data) / 2 ^ 24 % 256
        :: data.length % 256 :: data.length / 256 % 256 :: t.toByte
        :: (data ++ tail) := by
    rw [hbuf]
    simp [physRecord, encodeFixed32]
  have hgetD4 : r.buffer.getD 4 0 = data.length % 256 := by rw [hbuf']; rfl
  have hgetD5 : r.buffer.getD 5 0 = data.length / 256 % 256 := by rw [hbuf']; rfl
  have hgetD6 : r.buffer.getD 6 0 = t.toByte := by rw [hbuf']; rfl
  have hdivlt : data.length / 256 < 256 := by omega
  have hL : r.buffer.getD 4 0 ||| r.buffer.getD 5 0 <<< 8 = data.length := by
    rw [hgetD4, hgetD5, Nat.mod_eq_of_lt hdivlt, Nat.shiftLeft_eq, Nat.lor_comm]
    have h := two_pow_mul_add_eq_lor (data.length / 256) (data.length % 256) 8
      (Nat.mod_lt _ (by norm_num))
    rw [show (2 : Nat) ^ 8 = 256 from rfl] at h
    rw [show data.length / 256 * 2 ^ 8 = 256 * (data.length / 256) from by ring, ← h]
    omega
  have hblen : r.buffer.length = HEADER_SIZE + data.length + tail.length := by
    rw [hbuf, List.length_append, physRecord_length]
  simp only [parsePhysicalRecord]
  rw [hL, hgetD6, recordType_fromByte_toByte]
  rw [if_neg (by omega)]
  rw [if_neg (by intro h; exact ht h.1)]
  have hdrop6 : r.buffer.drop 6 = t.toByte :: (data ++ tail) := by rw [hbuf']; rfl
  have hactual : crc32c ((r.buffer.drop 6).take (1 + data.length))
      = crc32c ([t.toByte] ++ data) := by
    rw [hdrop6]
    congr 1
    have : (t.toByte :: (data ++ tail)).take (1 + data.length)
        = t.toByte :: (data ++ tail).take data.length := by
      rw [Nat.add_comm 1 data.length]
      rfl
    rw [this, List.take_left]
    rfl
  have hexpected : crc32cUnmask (decodeFixed32 r.buffer) = crc32c ([t.toByte] ++ data) := by
    rw [hbuf]
    unfold physRecord
    rw [List.append_assoc, List.append_assoc, decodeFixed32_encodeFixed32_append,
      Nat.mod_eq_of_lt hC, crc32cUnmask_mask _ (by rw [hV]; exact crc32c_lt _), hV]
  rw [hactual, hexpected]
  rw [if_neg (by simp)]
  have hfrag : (r.buffer.drop HEADER_SIZE).take data.length = data := by
    rw [hbuf', HEADER_SIZE_eq]
    show (data ++ tail).take data.length = data
    exact List.take_left _ _
  have htail : r.buffer.drop (HEADER_SIZE + data.length) = tail := by
    have h1 : r.buffer.drop HEADER_SIZE = data ++ tail := by
      rw [hbuf', HEADER_SIZE_eq]
      rfl
    have h2 : (r.buffer.drop HEADER_SIZE).drop data.length
        = r.buffer.drop (HEADER_SIZE + data.length) := List.drop_drop _ _ _
    rw [← h2, h1]
    exact List.drop_left _ _
  rw [hfrag, htail]

theorem drop_append_ge {α : Type} (A B : List α) (n : Nat) (h : A.length ≤ n) :
    (A ++ B).drop n = B.drop (n - A.length) := by
  have h1 := @List.drop_append α A B (n - A.length)
  rw [show A.length + (n - A.length) = n from by omega] at h1
  exact h1

/-- A block refill (buffer below a header, not at end of file) followed
by the parse of a record that starts the remaining stream. -/
theorem readPhysicalRecord_refill (r : LogReader) (t : RecordType) (data tail : List Nat)
    (hsmall : r.buffer.length < HEADER_SIZE) (heof : r.eof = false)
    (hfile : r.file = physRecord t data ++ tail)
    (hfit : HEADER_SIZE + data.length ≤ BLOCK_SIZE) (ht : t ≠ RecordType.Zero) :
    ∃ r1, readPhysicalRecord r = (.ok t data, r1)
      ∧ r1.buffer ++ r1.file = tail
      ∧ ReaderSync r1 (HEADER_SIZE + data.length)
      ∧ r1.events = r.events
      ∧ r1.buffer.length + HEADER_SIZE + data.length ≤ r1.endOfBufferOffset := by
  have hflen : r.file.length = HEADER_SIZE + data.length + tail.length := by
    rw [hfile, List.length_append, physRecord_length]
  set k := min BLOCK_SIZE r.file.length with hk
  have hk7 : HEADER_SIZE + data.length ≤ k := by
    rw [hk, hflen]
    simp only [BLOCK_SIZE_eq, HEADER_SIZE_eq] at hfit ⊢
    omega
  have hkf : k ≤ r.file.length := by
    rw [hk]
    omega
  have hrec : (physRecord t data).length ≤ k := by
    rw [physRecord_length]
    exact hk7
  have htake : r.file.take k
      = physRecord t data ++ tail.take (k - (HEADER_SIZE + data.length)) := by
    conv_lhs => rw [hfile]
    rw [take_append_ge _ _ _ hrec, physRecord_length]
  have hdropf : r.file.drop k = tail.drop (k - (HEADER_SIZE + data.length)) := by
    conv_lhs => rw [hfile]
    rw [drop_append_ge _ _ _ hrec, physRecord_length]
  have hlen16 : data.length < 2 ^ 16 := by
    simp only [BLOCK_SIZE_eq, HEADER_SIZE_eq] at hfit
    omega
  have hktail : k - (HEADER_SIZE + data.length) ≤ tail.length := by
    rw [hk, hflen]
    omega
  have hbuf1 : (r.file.take k).length = k := by
    rw [List.length_take]
    omega
  unfold readPhysicalRecord
  rw [if_pos hsmall, heof]
  simp only [Bool.not_false, if_true]
  rw [if_neg (by
    rw [hbuf1]
    simp only [BLOCK_SIZE_eq, HEADER_SIZE_eq] at hk7 ⊢
    omega)]
  have hparse := parsePhysicalRecord_record
    { r with
      buffer := r.file.take k,
      file := r.file.drop k,
      endOfBufferOffset := r.endOfBufferOffset + k,
      eof := decide (k < BLOCK_SIZE) }
    t data (tail.take (k - (HEADER_SIZE + data.length)))
    (by dsimp only; rw [htake]) hlen16 ht
  rw [hparse]
  refine ⟨_, rfl, ?_, ?_, rfl, ?_⟩
  · dsimp only
    rw [hdropf]
    exact List.take_append_drop _ _
  · constructor
    · dsimp only
      rw [List.length_take]
      omega
    · dsimp only
      by_cases hkb : k < BLOCK_SIZE
      · rw [if_pos (by simp [hkb])]
        have hkfe : k = r.file.length := by
          rw [hk]
          omega
        constructor
        · rw [hkfe, List.drop_length]
        · rw [List.length_take]
          omega
      · rw [if_neg (by simp [hkb])]
        left
        rw [List.length_take]
        omega
  · dsimp only
    rw [List.length_take]
    omega

/-- Parsing straight out of a buffer that already holds the whole
record. -/
theorem readPhysicalRecord_direct (r : LogReader) (t : RecordType) (data tail : List Nat)
    (hrecfit : HEADER_SIZE + data.length ≤ r.buffer.length)
    (hstream : r.buffer ++ r.file = physRecord t data ++ tail)
    (hlen16 : data.length < 2 ^ 16) (ht : t ≠ RecordType.Zero) :
    ∃ r1, readPhysicalRecord r = (.ok t data, r1)
      ∧ r1.buffer ++ r1.file = tail
      ∧ r1.events = r.events
      ∧ r1.buffer.length + (HEADER_SIZE + data.length) = r.buffer.length
      ∧ r1.file = r.file ∧ r1.eof = r.eof
      ∧ r1.endOfBufferOffset = r.endOfBufferOffset := by
  have hlens : r.buffer.length + r.file.length
      = HEADER_SIZE + data.length + tail.length := by
    have := congrArg List.length hstream
    rw [List.length_append, List.length_append, physRecord_length] at this
    omega
  have hrec : (physRecord t data).length ≤ r.buffer.length := by
    rw [physRecord_length]
    exact hrecfit
  have hBdecomp : r.buffer
      = physRecord t data
        ++ tail.take (r.buffer.length - (HEADER_SIZE + data.length)) := by
    conv_lhs => rw [← List.take_left r.buffer r.file]
    rw [hstream, take_append_ge _ _ _ hrec, physRecord_length]
  have hFdecomp : r.file
      = tail.drop (r.buffer.length - (HEADER_SIZE + data.length)) := by
    conv_lhs => rw [← List.drop_left r.buffer r.file]
    rw [hstream, drop_append_ge _ _ _ hrec, physRecord_length]
  have hparse := parsePhysicalRecord_record r t data
    (tail.take (r.buffer.length - (HEADER_SIZE + data.length))) hBdecomp hlen16 ht
  unfold readPhysicalRecord
  rw [if_neg (by
    simp only [HEADER_SIZE_eq] at hrecfit ⊢
    omega)]
  rw [hparse]
  refine ⟨_, rfl, ?_, rfl, ?_, rfl, rfl, rfl⟩
  · dsimp only
    conv_lhs => rw [hFdecomp]
    exact List.take_append_drop _ _
  · dsimp only
    rw [List.length_take]
    omega

/-- `read_physical_record` consumes the next record of the writer's
stream: the optional trailer is skipped (possibly by the block refill)
and the record is returned, with the position tracking moved past it. -/
theorem readPhysicalRecord_consume (r : LogReader) (bo : Nat) (t : RecordType)
    (data tail : List Nat)
    (hsync : ReaderSync r bo) (hbo : bo ≤ BLOCK_SIZE)
    (hstream : r.buffer ++ r.file
      = (if BLOCK_SIZE - bo < HEADER_SIZE then List.replicate (BLOCK_SIZE - bo) 0 else [])
        ++ (physRecord t data ++ tail))
    (hfit : (if BLOCK_SIZE - bo < HEADER_SIZE then 0 else bo) + HEADER_SIZE + data.length
      ≤ BLOCK_SIZE)
    (ht : t ≠ RecordType.Zero) :
    ∃ r1, readPhysicalRecord r = (.ok t data, r1)
      ∧ r1.buffer ++ r1.file = tail
      ∧ ReaderSync r1 ((if BLOCK_SIZE - bo < HEADER_SIZE then 0 else bo)
          + HEADER_SIZE + data.length)
      ∧ r1.events = r.events
      ∧ r1.buffer.length + HEADER_SIZE + data.length ≤ r1.endOfBufferOffset := by
  obtain ⟨hle, hcases⟩ := hsync
  by_cases hpad : BLOCK_SIZE - bo < HEADER_SIZE
  · -- the stream opens with the sub-7 trailer: the whole buffer is that
    -- trailer and the refill skips it
    rw [if_pos hpad] at hstream hfit ⊢
    have heof : r.eof = false := by
      by_contra hne
      have heq : r.eof = true := by
        cases he : r.eof
        · exact absurd he hne
        · rfl
      rw [if_pos heq] at hcases
      obtain ⟨hf, hlt⟩ := hcases
      have := congrArg List.length hstream
      rw [hf, List.append_nil, List.length_append, List.length_append,
        List.length_replicate, physRecord_length] at this
      omega
    rw [if_neg (by simp [heof])] at hcases
    have hblen : r.buffer.length = BLOCK_SIZE - bo := by
      rcases hcases with h | ⟨hb, hbo0⟩
      · omega
      · rw [hbo0] at hpad
        simp only [BLOCK_SIZE_eq, HEADER_SIZE_eq] at hpad
        omega
    have hfile : r.file = physRecord t data ++ tail := by
      conv_lhs => rw [← List.drop_left r.buffer r.file]
      rw [hstream, drop_append_ge _ _ _ (by rw [List.length_replicate]; omega),
        List.length_replicate]
      rw [show r.buffer.length - (BLOCK_SIZE - bo) = 0 from by omega, List.drop_zero]
    obtain ⟨r1, h1, h2, h3, h4, h5⟩ := readPhysicalRecord_refill r t data tail
      (by omega) heof hfile (by omega) ht
    exact ⟨r1, h1, h2, by simpa using h3, h4, h5⟩
  · rw [if_neg hpad] at hstream hfit ⊢
    rw [List.nil_append] at hstream
    by_cases heof : r.eof = true
    · -- end of file: the buffer holds the entire remaining stream
      rw [if_pos heof] at hcases
      obtain ⟨hf, hlt⟩ := hcases
      have hBall : r.buffer.length = HEADER_SIZE + data.length + tail.length := by
        have := congrArg List.length hstream
        rw [hf, List.append_nil, List.length_append, physRecord_length] at this
        omega
      obtain ⟨r1, h1, h2, h3, h4, h5, h6, h7⟩ := readPhysicalRecord_direct r t data tail
        (by omega)
        hstream
        (by simp only [BLOCK_SIZE_eq, HEADER_SIZE_eq] at hfit; omega) ht
      refine ⟨r1, h1, h2, ⟨by omega, ?_⟩, h3, by omega⟩
      rw [show r1.eof = true from h6 ▸ heof, if_pos rfl]
      constructor
      · rw [h5, hf]
      · omega
    · have heof' : r.eof = false := by
        cases he : r.eof
        · rfl
        · exact absurd he heof
      rw [if_neg (by simp [heof'])] at hcases
      rcases hcases with hfull | ⟨hb, hbo0⟩
      · -- a full block is buffered from offset `bo` on
        obtain ⟨r1, h1, h2, h3, h4, h5, h6, h7⟩ := readPhysicalRecord_direct r t data tail
          (by omega)
          hstream
          (by simp only [BLOCK_SIZE_eq, HEADER_SIZE_eq] at hfit; omega) ht
        refine ⟨r1, h1, h2, ⟨by omega, ?_⟩, h3, by omega⟩
        rw [show r1.eof = r.eof from h6, heof', if_neg (by simp)]
        left
        omega
      · -- fresh block boundary: refill first
        rw [hbo0] at hfit ⊢
        obtain ⟨r1, h1, h2, h3, h4, h5⟩ := readPhysicalRecord_refill r t data tail
          (by rw [hb]; simp [HEADER_SIZE_eq]) heof'
          (by
            conv_lhs => rw [← List.drop_left r.buffer r.file]
            rw [hstream, hb]
            rfl)
          (by omega) ht
        exact ⟨r1, h1, h2, by simpa using h3, h4, h5⟩

/-- One full loop turn of the writer, pad and final fragment together. -/
theorem walGo_unfold_final (fuel bo : Nat) (left : List Nat) (b : Bool)
    (hbo : bo ≤ BLOCK_SIZE)
    (hfin : left.length
      ≤ BLOCK_SIZE - (if BLOCK_SIZE - bo < HEADER_SIZE then 0 else bo) - HEADER_SIZE) :
    walGo (fuel + 1) bo left b
      = ((if BLOCK_SIZE - bo < HEADER_SIZE then [WalItem.pad (BLOCK_SIZE - bo)] else [])
          ++ [WalItem.record (if b then RecordType.Full else RecordType.Last) left],
         (if BLOCK_SIZE - bo < HEADER_SIZE then 0 else bo) + HEADER_SIZE + left.length) := by
  by_cases hpad : BLOCK_SIZE - bo < HEADER_SIZE
  · simp only [if_pos hpad] at hfin ⊢
    rw [(walGo_pad fuel bo left b hpad).1,
      (walGo_final fuel 0 left b (by simp [BLOCK_SIZE_eq, HEADER_SIZE_eq]) hfin).1]
    rfl
  · simp only [if_neg hpad] at hfin ⊢
    rw [(walGo_final fuel bo left b hpad hfin).1]
    rfl

/-- One full loop turn of the writer, pad and a non-final fragment: the
fragment tops the block off and the loop continues at the boundary. -/
theorem walGo_unfold_step (fuel bo : Nat) (left : List Nat) (b : Bool)
    (hbo : bo ≤ BLOCK_SIZE)
    (hnf : BLOCK_SIZE - (if BLOCK_SIZE - bo < HEADER_SIZE then 0 else bo) - HEADER_SIZE
      < left.length) :
    walGo (fuel + 1) bo left b
      = ((if BLOCK_SIZE - bo < HEADER_SIZE then [WalItem.pad (BLOCK_SIZE - bo)] else [])
          ++ WalItem.record (if b then RecordType.First else RecordType.Middle)
              (left.take (BLOCK_SIZE
                - (if BLOCK_SIZE - bo < HEADER_SIZE then 0 else bo) - HEADER_SIZE))
            :: (walGo fuel BLOCK_SIZE
                (left.drop (BLOCK_SIZE
                  - (if BLOCK_SIZE - bo < HEADER_SIZE then 0 else bo) - HEADER_SIZE))
                false).1,
         (walGo fuel BLOCK_SIZE
            (left.drop (BLOCK_SIZE
              - (if BLOCK_SIZE - bo < HEADER_SIZE then 0 else bo) - HEADER_SIZE))
            false).2) := by
  by_cases hpad : BLOCK_SIZE - bo < HEADER_SIZE
  · simp only [if_pos hpad] at hnf ⊢
    rw [(walGo_pad fuel bo left b hpad).1,
      (walGo_step fuel 0 left b (by simp [BLOCK_SIZE_eq, HEADER_SIZE_eq]) hnf).1]
    rfl
  · simp only [if_neg hpad] at hnf ⊢
    rw [(walGo_step fuel bo left b hpad hnf).1]
    rfl

/-- One reader loop turn consuming the final fragment of a logical
record: the loop returns the assembled record. -/
theorem readRecordGo_sim_final (left : List Nat) (g1 f2 bo prospective : Nat)
    (inFrag : Bool) (scratch S : List Nat) (r : LogReader)
    (hf2 : 1 ≤ f2) (hbo : bo ≤ BLOCK_SIZE)
    (hscr : inFrag = false → scratch = [])
    (hfin : left.length ≤ BLOCK_SIZE
      - (if BLOCK_SIZE - bo < HEADER_SIZE then 0 else bo) - HEADER_SIZE)
    (hstream : r.buffer ++ r.file = renderTrace (walGo (g1 + 1) bo left (!inFrag)).1 ++ S)
    (hsync : ReaderSync r bo) :
    ∃ r2, readRecordGo f2 r inFrag scratch prospective
        = .ret (some (scratch ++ left), r2)
      ∧ r2.buffer ++ r2.file = S
      ∧ ReaderSync r2 (walGo (g1 + 1) bo left (!inFrag)).2
      ∧ r2.events = r.events := by
  obtain ⟨g2, rfl⟩ : ∃ g2, f2 = g2 + 1 := ⟨f2 - 1, by omega⟩
  rw [walGo_unfold_final g1 bo left (!inFrag) hbo hfin] at hstream ⊢
  rw [renderTrace_append, List.append_assoc] at hstream
  have hpadrender : renderTrace (if BLOCK_SIZE - bo < HEADER_SIZE
        then [WalItem.pad (BLOCK_SIZE - bo)] else [])
      = (if BLOCK_SIZE - bo < HEADER_SIZE
        then List.replicate (BLOCK_SIZE - bo) 0 else []) := by
    by_cases hpad : BLOCK_SIZE - bo < HEADER_SIZE <;>
      simp [hpad, renderTrace, renderItem]
  rw [hpadrender] at hstream
  rw [show renderTrace [WalItem.record
        (if !inFrag then RecordType.Full else RecordType.Last) left] ++ S
      = physRecord (if !inFrag then RecordType.Full else RecordType.Last) left ++ S
    from by simp [renderTrace, renderItem]] at hstream
  have hfit : (if BLOCK_SIZE - bo < HEADER_SIZE then 0 else bo)
      + HEADER_SIZE + left.length ≤ BLOCK_SIZE := by
    by_cases hpad : BLOCK_SIZE - bo < HEADER_SIZE
    · rw [if_pos hpad] at hfin ⊢
      simp only [BLOCK_SIZE_eq, HEADER_SIZE_eq] at hfin ⊢
      omega
    · rw [if_neg hpad] at hfin ⊢
      simp only [BLOCK_SIZE_eq, HEADER_SIZE_eq] at hfin hpad ⊢
      omega
  obtain ⟨r1, hr1, hstream1, hsync1, hev1, hoff1⟩ := readPhysicalRecord_consume r bo
    (if !inFrag then RecordType.Full else RecordType.Last) left S hsync hbo hstream hfit
    (by cases inFrag <;> simp)
  cases inFrag with
  | false =>
    have hscr0 : scratch = [] := hscr rfl
    subst hscr0
    simp only [Bool.not_false, if_true] at hr1 hsync1 ⊢
    refine ⟨{ r1 with lastRecordOffset := ((r1.endOfBufferOffset : Int) - r1.buffer.length
        - HEADER_SIZE - left.length).toNat }, ?_, hstream1, hsync1, hev1⟩
    simp only [readRecordGo]
    rw [hr1]
    dsimp only
    split
    · rename_i h
      exact absurd h (by omega)
    · rw [if_neg (by simp)]
      rfl
  | true =>
    simp only [Bool.not_true, if_false, Bool.false_eq_true] at hr1 hsync1 ⊢
    simp only [readRecordGo]
    rw [hr1]
    dsimp only
    rw [if_neg (by simp)]
    exact ⟨_, rfl, hstream1, hsync1, hev1⟩

/-- One reader loop turn consuming a non-final fragment: the loop
continues in fragment-assembly mode at the next block boundary. -/
theorem readRecordGo_sim_step (left : List Nat) (g1 f2 bo prospective : Nat)
    (inFrag : Bool) (scratch S : List Nat) (r : LogReader)
    (hbo : bo ≤ BLOCK_SIZE) (hscr : inFrag = false → scratch = [])
    (hnf : BLOCK_SIZE - (if BLOCK_SIZE - bo < HEADER_SIZE then 0 else bo) - HEADER_SIZE
      < left.length)
    (hstream : r.buffer ++ r.file = renderTrace (walGo (g1 + 1) bo left (!inFrag)).1 ++ S)
    (hsync : ReaderSync r bo) :
    ∃ r1 p1, readRecordGo (f2 + 1) r inFrag scratch prospective
        = readRecordGo f2 r1 true
            (scratch ++ left.take (BLOCK_SIZE
              - (if BLOCK_SIZE - bo < HEADER_SIZE then 0 else bo) - HEADER_SIZE)) p1
      ∧ r1.buffer ++ r1.file
          = renderTrace (walGo g1 BLOCK_SIZE
              (left.drop (BLOCK_SIZE
                - (if BLOCK_SIZE - bo < HEADER_SIZE then 0 else bo) - HEADER_SIZE))
              false).1 ++ S
      ∧ ReaderSync r1 BLOCK_SIZE
      ∧ r1.events = r.events
      ∧ (walGo (g1 + 1) bo left (!inFrag)).2
          = (walGo g1 BLOCK_SIZE (left.drop (BLOCK_SIZE
              - (if BLOCK_SIZE - bo < HEADER_SIZE then 0 else bo) - HEADER_SIZE))
              false).2 := by
  have hunf := walGo_unfold_step g1 bo left (!inFrag) hbo hnf
  rw [hunf] at hstream
  rw [renderTrace_append, renderTrace_cons, List.append_assoc, List.append_assoc]
    at hstream
  have hpadrender : renderTrace (if BLOCK_SIZE - bo < HEADER_SIZE
        then [WalItem.pad (BLOCK_SIZE - bo)] else [])
      = (if BLOCK_SIZE - bo < HEADER_SIZE
        then List.replicate (BLOCK_SIZE - bo) 0 else []) := by
    by_cases hpad : BLOCK_SIZE - bo < HEADER_SIZE <;>
      simp [hpad, renderTrace, renderItem]
  rw [hpadrender] at hstream
  have hb17 : (if BLOCK_SIZE - bo < HEADER_SIZE then 0 else bo) + HEADER_SIZE
      ≤ BLOCK_SIZE := by
    by_cases hpad : BLOCK_SIZE - bo < HEADER_SIZE
    · rw [if_pos hpad]
      simp [BLOCK_SIZE_eq, HEADER_SIZE_eq]
    · rw [if_neg hpad]
      simp only [BLOCK_SIZE_eq, HEADER_SIZE_eq] at hpad ⊢
      omega
  have htklen : (left.take (BLOCK_SIZE
      - (if BLOCK_SIZE - bo < HEADER_SIZE then 0 else bo) - HEADER_SIZE)).length
      = BLOCK_SIZE - (if BLOCK_SIZE - bo < HEADER_SIZE then 0 else bo) - HEADER_SIZE := by
    rw [List.length_take]
    exact Nat.min_eq_left (Nat.le_of_lt hnf)
  have hfit : (if BLOCK_SIZE - bo < HEADER_SIZE then 0 else bo) + HEADER_SIZE
      + (left.take (BLOCK_SIZE
        - (if BLOCK_SIZE - bo < HEADER_SIZE then 0 else bo) - HEADER_SIZE)).length
      ≤ BLOCK_SIZE := by
    rw [htklen]
    omega
  obtain ⟨r1, hr1, hstream1, hsync1, hev1, hoff1⟩ := readPhysicalRecord_consume r bo
    (if !inFrag then RecordType.First else RecordType.Middle)
    (left.take (BLOCK_SIZE
      - (if BLOCK_SIZE - bo < HEADER_SIZE then 0 else bo) - HEADER_SIZE))
    (renderTrace (walGo g1 BLOCK_SIZE
      (left.drop (BLOCK_SIZE
        - (if BLOCK_SIZE - bo < HEADER_SIZE then 0 else bo) - HEADER_SIZE)) false).1
      ++ S)
    hsync hbo (by rw [hstream]; simp [renderTrace, renderItem]) hfit
    (by cases inFrag <;> simp)
  have hsyncB : ReaderSync r1 BLOCK_SIZE := by
    have heq : (if BLOCK_SIZE - bo < HEADER_SIZE then 0 else bo) + HEADER_SIZE
        + (left.take (BLOCK_SIZE
          - (if BLOCK_SIZE - bo < HEADER_SIZE then 0 else bo) - HEADER_SIZE)).length
        = BLOCK_SIZE := by
      rw [htklen]
      omega
    rw [heq] at hsync1
    exact hsync1
  cases inFrag with
  | false =>
    have hscr0 : scratch = [] := hscr rfl
    subst hscr0
    simp only [Bool.not_false, if_true] at hr1 ⊢
    refine ⟨r1, ((r1.endOfBufferOffset : Int) - r1.buffer.length - HEADER_SIZE
        - (left.take (BLOCK_SIZE - (if BLOCK_SIZE - bo < HEADER_SIZE then 0 else bo)
          - HEADER_SIZE)).length).toNat, ?heq, hstream1, hsyncB, hev1,
      by simp only [Bool.not_false, if_true] at hunf; rw [hunf]⟩
    case heq =>
      simp only [readRecordGo]
      rw [hr1]
      dsimp only
      by_cases hpad : BLOCK_SIZE - bo < HEADER_SIZE
      · simp only [if_pos hpad] at hoff1 ⊢
        split
        · rename_i h
          exact absurd h (by omega)
        · rw [if_neg (by simp)]
          rfl
      · simp only [if_neg hpad] at hoff1 ⊢
        split
        · rename_i h
          exact absurd h (by omega)
        · rw [if_neg (by simp)]
          rfl
  | true =>
    simp only [Bool.not_true, if_false, Bool.false_eq_true] at hr1 ⊢
    refine ⟨r1, prospective, ?_, hstream1, hsyncB, hev1,
      by simp only [Bool.not_true, if_false, Bool.false_eq_true] at hunf; rw [hunf]⟩
    simp only [readRecordGo]
    rw [hr1]
    dsimp only
    rw [if_neg (by simp)]

/-- The reader loop assembles the remaining fragments of a logical
record from a block boundary on (continuations always resume at a block
boundary, where a turn always makes progress). -/
theorem readRecordGo_sim_frag :
    ∀ (n : Nat) (left : List Nat), left.length ≤ n →
    ∀ (f1 f2 prospective : Nat) (scratch S : List Nat) (r : LogReader),
    left.length + 1 ≤ f1 → left.length + 2 ≤ f2 →
    r.buffer ++ r.file = renderTrace (walGo f1 BLOCK_SIZE left false).1 ++ S →
    ReaderSync r BLOCK_SIZE →
    ∃ r2, readRecordGo f2 r true scratch prospective
        = .ret (some (scratch ++ left), r2)
      ∧ r2.buffer ++ r2.file = S
      ∧ ReaderSync r2 (walGo f1 BLOCK_SIZE left false).2
      ∧ r2.events = r.events := by
  intro n
  induction n with
  | zero =>
    intro left hl f1 f2 prospective scratch S r hf1 hf2 hstream hsync
    have hnil : left = [] := List.eq_nil_of_length_eq_zero (Nat.le_zero.mp hl)
    subst hnil
    obtain ⟨g1, rfl⟩ : ∃ g1, f1 = g1 + 1 := ⟨f1 - 1, by omega⟩
    have h := readRecordGo_sim_final [] g1 f2 BLOCK_SIZE prospective true scratch S r
      (by omega) le_rfl (by intro hc; exact absurd hc (by simp)) (by simp)
      (by simpa using hstream) hsync
    simpa using h
  | succ n ih =>
    intro left hl f1 f2 prospective scratch S r hf1 hf2 hstream hsync
    obtain ⟨g1, rfl⟩ : ∃ g1, f1 = g1 + 1 := ⟨f1 - 1, by omega⟩
    obtain ⟨g2, rfl⟩ : ∃ g2, f2 = g2 + 1 := ⟨f2 - 1, by omega⟩
    have hEeq : BLOCK_SIZE
        - (if BLOCK_SIZE - BLOCK_SIZE < HEADER_SIZE then 0 else BLOCK_SIZE)
        - HEADER_SIZE = 32761 := by
      simp [BLOCK_SIZE_eq, HEADER_SIZE_eq]
    by_cases hfin : left.length ≤ BLOCK_SIZE
        - (if BLOCK_SIZE - BLOCK_SIZE < HEADER_SIZE then 0 else BLOCK_SIZE) - HEADER_SIZE
    · have h := readRecordGo_sim_final left g1 (g2 + 1) BLOCK_SIZE prospective true
        scratch S r (by omega) le_rfl (by intro hc; exact absurd hc (by simp)) hfin
        (by simpa using hstream) hsync
      simpa using h
    · have hnf : BLOCK_SIZE
          - (if BLOCK_SIZE - BLOCK_SIZE < HEADER_SIZE then 0 else BLOCK_SIZE)
          - HEADER_SIZE < left.length := by omega
      obtain ⟨r1, p1, hstep, hstream1, hsync1, hev1, hend⟩ :=
        readRecordGo_sim_step left g1 g2 BLOCK_SIZE prospective true scratch S r
          le_rfl (by intro hc; exact absurd hc (by simp)) hnf
          (by simpa using hstream) hsync
      obtain ⟨r2, hrun, hstream2, hsync2, hev2⟩ := ih
        (left.drop (BLOCK_SIZE
          - (if BLOCK_SIZE - BLOCK_SIZE < HEADER_SIZE then 0 else BLOCK_SIZE)
          - HEADER_SIZE))
        (by rw [List.length_drop]; omega) g1 g2 p1
        (scratch ++ left.take (BLOCK_SIZE
          - (if BLOCK_SIZE - BLOCK_SIZE < HEADER_SIZE then 0 else BLOCK_SIZE)
          - HEADER_SIZE)) S r1
        (by rw [List.length_drop]; omega) (by rw [List.length_drop]; omega)
        hstream1 hsync1
      simp only [Bool.not_true] at hend
      refine ⟨r2, ?_, hstream2, ?_, hev2.trans hev1⟩
      · rw [hstep, hrun, List.append_assoc, List.take_append_drop]
      · rw [hend]
        exact hsync2

/-- The reader loop, entered fresh, returns exactly the next logical
record of the writer's stream. -/
theorem readRecordGo_sim_start (left : List Nat) (f1 f2 bo prospective : Nat)
    (S : List Nat) (r : LogReader)
    (hf1 : 2 * left.length + 2 ≤ f1) (hf2 : left.length + 3 ≤ f2)
    (hbo : bo ≤ BLOCK_SIZE)
    (hstream : r.buffer ++ r.file = renderTrace (walGo f1 bo left true).1 ++ S)
    (hsync : ReaderSync r bo) :
    ∃ r2, readRecordGo f2 r false [] prospective
        = .ret (some left, r2)
      ∧ r2.buffer ++ r2.file = S
      ∧ ReaderSync r2 (walGo f1 bo left true).2
      ∧ r2.events = r.events := by
  obtain ⟨g1, rfl⟩ : ∃ g1, f1 = g1 + 1 := ⟨f1 - 1, by omega⟩
  obtain ⟨g2, rfl⟩ : ∃ g2, f2 = g2 + 1 := ⟨f2 - 1, by omega⟩
  by_cases hfin : left.length ≤ BLOCK_SIZE
      - (if BLOCK_SIZE - bo < HEADER_SIZE then 0 else bo) - HEADER_SIZE
  · have h := readRecordGo_sim_final left g1 (g2 + 1) bo prospective false [] S r
      (by omega) hbo (fun _ => rfl) hfin (by simpa using hstream) hsync
    simpa using h
  · have hnf : BLOCK_SIZE - (if BLOCK_SIZE - bo < HEADER_SIZE then 0 else bo)
        - HEADER_SIZE < left.length := by omega
    obtain ⟨r1, p1, hstep, hstream1, hsync1, hev1, hend⟩ :=
      readRecordGo_sim_step left g1 g2 bo prospective false [] S r
        hbo (fun _ => rfl) hnf (by simpa using hstream) hsync
    obtain ⟨r2, hrun, hstream2, hsync2, hev2⟩ := readRecordGo_sim_frag
      (left.drop (BLOCK_SIZE - (if BLOCK_SIZE - bo < HEADER_SIZE then 0 else bo)
        - HEADER_SIZE)).length
      (left.drop (BLOCK_SIZE - (if BLOCK_SIZE - bo < HEADER_SIZE then 0 else bo)
        - HEADER_SIZE))
      le_rfl g1 g2 p1
      ([] ++ left.take (BLOCK_SIZE - (if BLOCK_SIZE - bo < HEADER_SIZE then 0 else bo)
        - HEADER_SIZE)) S r1
      (by rw [List.length_drop]; omega) (by rw [List.length_drop]; omega)
      hstream1 hsync1
    simp only [Bool.not_false] at hend
    refine ⟨r2, ?_, hstream2, ?_, hev2.trans hev1⟩
    · rw [hstep, hrun, List.nil_append, List.take_append_drop]
    · rw [hend]
      exact hsync2

/-- `read_record` returns the next logical record of the stream (the
fuel `read_record` picks is always enough: the stream holds at least a
header more than the payload). -/
theorem readRecord_sim (p : List Nat) (bo : Nat) (S : List Nat) (r : LogReader)
    (hbo : bo ≤ BLOCK_SIZE)
    (hstream : r.buffer ++ r.file = renderTrace (walTrace bo p).1 ++ S)
    (hsync : ReaderSync r bo) :
    ∃ r2, readRecord r = .ret (some p, r2)
      ∧ r2.buffer ++ r2.file = S
      ∧ ReaderSync r2 (walTrace bo p).2
      ∧ r2.events = r.events := by
  obtain ⟨_, _, _, hlen⟩ := walTrace_spec bo p hbo
  have hlens := congrArg List.length hstream
  rw [List.length_append, List.length_append] at hlens
  rw [HEADER_SIZE_eq] at hlen
  exact readRecordGo_sim_start p (2 * p.length + 2)
    (r.buffer.length + r.file.length + 1) bo 0 S r le_rfl (by omega) hbo hstream hsync

/-- At the end of the stream `read_record` reports EOF. -/
theorem readRecord_none (r : LogReader) (hb : r.buffer = []) (hf : r.file = []) :
    ∃ r2, readRecord r = .ret (none, r2) ∧ r2.events = r.events := by
  unfold readRecord
  rw [hb, hf]
  simp only [List.length_nil, Nat.add_zero, Nat.zero_add]
  simp only [readRecordGo]
  unfold readPhysicalRecord
  rw [hb, hf]
  cases heof : r.eof with
  | true =>
    rw [if_pos (by simp [HEADER_SIZE_eq]), if_neg (by simp [heof])]
    exact ⟨_, rfl, rfl⟩
  | false =>
    rw [if_pos (by simp [HEADER_SIZE_eq]), if_pos (by simp [heof])]
    dsimp only
    rw [if_pos (by simp [BLOCK_SIZE_eq, HEADER_SIZE_eq])]
    exact ⟨_, rfl, rfl⟩

/-- Draining the reader: every written payload is returned in order,
then EOF. -/
theorem readAllGo_sim :
    ∀ (ps : List (List Nat)) (bo : Nat) (r : LogReader), bo ≤ BLOCK_SIZE →
    r.buffer ++ r.file = renderTrace (logTrace bo ps).1 →
    ReaderSync r bo →
    readAllGo (ps.length + 1) r = .ret ps := by
  intro ps
  induction ps with
  | nil =>
    intro bo r hbo hstream hsync
    have hb : r.buffer = [] := by
      have := congrArg List.length hstream
      simp only [logTrace, renderTrace, List.map_nil, List.flatten_nil, List.length_append,
        List.length_nil] at this
      exact List.eq_nil_of_length_eq_zero (by omega)
    have hf : r.file = [] := by
      have := congrArg List.length hstream
      simp only [logTrace, renderTrace, List.map_nil, List.flatten_nil, List.length_append,
        List.length_nil] at this
      exact List.eq_nil_of_length_eq_zero (by omega)
    obtain ⟨r2, hnone, _⟩ := readRecord_none r hb hf
    simp only [readAllGo]
    rw [hnone]
  | cons p ps ih =>
    intro bo r hbo hstream hsync
    have hsplit : renderTrace (logTrace bo (p :: ps)).1
        = renderTrace (walTrace bo p).1
          ++ renderTrace (logTrace (walTrace bo p).2 ps).1 := by
      show renderTrace ((walTrace bo p).1 ++ (logTrace (walTrace bo p).2 ps).1) = _
      rw [renderTrace_append]
    rw [hsplit] at hstream
    obtain ⟨_, _, hb2, _⟩ := walTrace_spec bo p hbo
    obtain ⟨r2, hrec, hstream2, hsync2, _⟩ := readRecord_sim p bo
      (renderTrace (logTrace (walTrace bo p).2 ps).1) r hbo hstream hsync
    have hrest := ih (walTrace bo p).2 r2 hb2 hstream2 hsync2
    show (match readRecord r with
      | Panics.panic => Panics.panic
      | Panics.ret (none, _) => Panics.ret []
      | Panics.ret (some q, r3) =>
        match readAllGo (ps.length + 1) r3 with
        | Panics.panic => Panics.panic
        | Panics.ret qs => Panics.ret (q :: qs)) = Panics.ret (p :: ps)
    rw [hrec]
    dsimp only
    rw [hrest]

/-- C2: writing any list of payloads through `add_record` on a fresh
writer and reading the file back with `read_record` (offset 0, checksums
on) returns exactly those payloads, in order, each once, and then EOF —
for every fragmentation the writer chooses, empty and multi-block
payloads included. -/
theorem claim_C2_wal_roundtrip (ps : List (List Nat)) :
    ∃ w, writeLog 0 ps = .ret w
      ∧ readAllGo (ps.length + 1) (readerNew w.1) = .ret ps := by
  obtain ⟨he, hb⟩ := writeLog_spec ps 0 (Nat.zero_le _)
  refine ⟨_, he, ?_⟩
  apply readAllGo_sim ps 0 (readerNew (renderTrace (logTrace 0 ps).1)) (Nat.zero_le _)
  · rfl
  · exact ⟨Nat.le_refl 0, Or.inr ⟨rfl, rfl⟩⟩

/-- The spec's checksum scenario: write the single record `foo` with a
fresh writer, then bump the first header byte (a byte of the stored
masked CRC) by one, wrapping as a `u8`. -/
def fooCorruptedLog : List Nat :=
  match writeLog 0 [[102, 111, 111]] with
  | .panic => []
  | .ret w => (w.1.getD 0 0 + 1) % 256 :: w.1.drop 1

set_option maxRecDepth 8000 in
/-- C8: with checksums on, a buffered physical record whose stored
masked CRC does not unmask to the CRC32C of its type byte and payload is
dropped: `read_physical_record` returns `BadRecord` (no record from that
data), clears the buffer, and reports a `checksum mismatch` corruption
whose drop size is every byte then in the buffer.  In particular, for
the single record `foo` with its first header byte incremented, reading
returns EOF and the reporter sees exactly one event: 10 dropped bytes
with the `checksum mismatch` message. -/
theorem claim_C8_checksum_mismatch (r : LogReader)
    (hfit : HEADER_SIZE + (r.buffer.getD 4 0 ||| r.buffer.getD 5 0 <<< 8)
      ≤ r.buffer.length)
    (hzero : ¬ (RecordType.fromByte (r.buffer.getD 6 0) = RecordType.Zero
      ∧ r.buffer.getD 4 0 ||| r.buffer.getD 5 0 <<< 8 = 0))
    (hcrc : crc32c ((r.buffer.drop 6).take
        (1 + (r.buffer.getD 4 0 ||| r.buffer.getD 5 0 <<< 8)))
      ≠ crc32cUnmask (decodeFixed32 r.buffer)) :
    readPhysicalRecord r
        = (.badR, { r with
            buffer := [],
            events := r.events
              ++ [(r.buffer.length, DBError.corruption "checksum mismatch")] })
    ∧ readRecord (readerNew fooCorruptedLog)
        = .ret (none,
          { file := [], buffer := [], eof := true, lastRecordOffset := 0, endOfBufferOffset := 10, events := [(10, DBError.corruption "checksum mismatch")] }) := by
  constructor
  · unfold readPhysicalRecord
    rw [if_neg (by simp only [HEADER_SIZE_eq] at hfit ⊢; omega)]
    simp only [parsePhysicalRecord]
    rw [if_neg (by omega)]
    rw [if_neg hzero]
    rw [if_pos hcrc]
    rfl
  · decide

set_option maxRecDepth 8000 in
/-- C8's statement applied at the corrupted `foo` log itself, buffered
whole. -/
theorem claim_C8_checksum_mismatch_witness :
    readPhysicalRecord
        { file := [], buffer := fooCorruptedLog, eof := true, lastRecordOffset := 0, endOfBufferOffset := 10, events := [] }
        = (.badR, { file := [], buffer := [], eof := true, lastRecordOffset := 0, endOfBufferOffset := 10, events := [(fooCorruptedLog.length, DBError.corruption "checksum mismatch")] })
      ∧ readRecord (readerNew fooCorruptedLog)
        = .ret (none,
          { file := [], buffer := [], eof := true, lastRecordOffset := 0, endOfBufferOffset := 10, events := [(10, DBError.corruption "checksum mismatch")] }) :=
  claim_C8_checksum_mismatch
    { file := [], buffer := fooCorruptedLog, eof := true, lastRecordOffset := 0, endOfBufferOffset := 10, events := [] }
    (by decide) (by decide) (by decide)

end RebelDB
